import Mathlib

/-!
dsk2nib / nib2dsk : Apple II DSK <-> NIB image conversion

A shallow embedding of `dsk2nib.c` (namespace `Dsk2Nib`) and `nib2dsk.c`
(namespace `Nib2Dsk`).  Bytes (`uchar`) are natural numbers below 256; an
explicit `% 256` is written wherever a C expression could exceed a byte
before it is stored.  A buffer obtained from `malloc` is a list of cells, a
cell being `none` until the program stores a byte into it.
-/

set_option maxRecDepth 100000

deriving instance DecidableEq for Except

/-! ## Shared helpers -/

/-- The C library `memchr` on a table of bytes: offset of the first
occurrence of `x`, or `none` (a NULL pointer) when `x` does not occur. -/
def memchr : List Nat → Nat → Option Nat
  | [], _ => none
  | y :: ys, x => if y = x then some 0 else (memchr ys x).map (· + 1)

/-- The C library `memcpy` into a buffer of cells at offset `off`. -/
def memcpy (buf : List (Option Nat)) (off : Nat) (src : List Nat) : List (Option Nat) :=
  buf.take off ++ src.map some ++ buf.drop (off + src.length)

/-- The bytes `buf[off .. off+len)`. -/
def sliceAt {α : Type} (buf : List α) (off len : Nat) : List α :=
  (buf.drop off).take len

/-! ## dsk2nib.c -/

namespace Dsk2Nib

def TRACKS_PER_DISK : Nat := 35
def SECTORS_PER_TRACK : Nat := 16
def BYTES_PER_SECTOR : Nat := 256
def BYTES_PER_TRACK : Nat := 4096
def DSK_LEN : Nat := 143360
def PRIMARY_BUF_LEN : Nat := 256
def SECONDARY_BUF_LEN : Nat := 86
def DATA_LEN : Nat := PRIMARY_BUF_LEN + SECONDARY_BUF_LEN
def PROLOG_LEN : Nat := 3
def EPILOG_LEN : Nat := 3
def GAP1_LEN : Nat := 48
def GAP2_LEN : Nat := 5
def BYTES_PER_NIB_SECTOR : Nat := 416
def BYTES_PER_NIB_TRACK : Nat := 6656
def DEFAULT_VOLUME : Nat := 254
def GAP_BYTE : Nat := 0xff

def addr_prolog : List Nat := [0xd5, 0xaa, 0x96]
def addr_epilog : List Nat := [0xde, 0xaa, 0xeb]
def data_prolog : List Nat := [0xd5, 0xaa, 0xad]
def data_epilog : List Nat := [0xde, 0xaa, 0xeb]

def soft_interleave : List Nat :=
  [0, 7, 0xE, 6, 0xD, 5, 0xC, 4, 0xB, 3, 0xA, 2, 9, 1, 8, 0xF]

def phys_interleave : List Nat :=
  [0, 0xD, 0xB, 9, 7, 5, 3, 1, 0xE, 0xC, 0xA, 8, 6, 4, 2, 0xF]

/-- The 6-and-2 translation table of `dsk2nib.c`. -/
def table : List Nat :=
  [0x96, 0x97, 0x9a, 0x9b, 0x9d, 0x9e, 0x9f, 0xa6,
   0xa7, 0xab, 0xac, 0xad, 0xae, 0xaf, 0xb2, 0xb3,
   0xb4, 0xb5, 0xb6, 0xb7, 0xb9, 0xba, 0xbb, 0xbc,
   0xbd, 0xbe, 0xbf, 0xcb, 0xcd, 0xce, 0xcf, 0xd3,
   0xd6, 0xd7, 0xd9, 0xda, 0xdb, 0xdc, 0xdd, 0xde,
   0xdf, 0xe5, 0xe6, 0xe7, 0xe9, 0xea, 0xeb, 0xec,
   0xed, 0xee, 0xef, 0xf2, 0xf3, 0xf4, 0xf5, 0xf6,
   0xf7, 0xf9, 0xfa, 0xfb, 0xfc, 0xfd, 0xfe, 0xff]

/-- The function `translate`: `table[ byte & 0x3f ]`.  The index is always
below 64, so the default of `getD` is never used. -/
def translate (byte : Nat) : Nat := table.getD (byte &&& 0x3f) 0

/-- The function `odd_even_encode`: the pair `(a[0], a[1])` it stores.  Both
values are below 256 for every `i`, so the store into a `uchar` is exact. -/
def odd_even_encode (i : Nat) : Nat × Nat :=
  ((((i >>> 1) &&& 0x55) ||| 0xaa), ((i &&& 0x55) ||| 0xaa))

/-- The struct `addr_t`. -/
structure addr_t where
  prolog : List Nat
  volume : Nat × Nat
  track : Nat × Nat
  sector : Nat × Nat
  checksum : Nat × Nat
  epilog : List Nat
  deriving DecidableEq, Repr

/-- The struct `data_t`. -/
structure data_t where
  prolog : List Nat
  data : List Nat
  data_checksum : Nat
  epilog : List Nat
  deriving DecidableEq, Repr

/-- The struct `nib_sector_t`. -/
structure nib_sector_t where
  gap1 : List Nat
  addr : addr_t
  gap2 : List Nat
  data : data_t
  deriving DecidableEq, Repr

/-- The global `nib_sector` at program start: static storage, all zero. -/
def nib_sector_zero : nib_sector_t :=
  { gap1 := List.replicate GAP1_LEN 0
    addr := { prolog := List.replicate PROLOG_LEN 0, volume := (0, 0), track := (0, 0),
              sector := (0, 0), checksum := (0, 0), epilog := List.replicate EPILOG_LEN 0 }
    gap2 := List.replicate GAP2_LEN 0
    data := { prolog := List.replicate PROLOG_LEN 0, data := List.replicate DATA_LEN 0,
              data_checksum := 0, epilog := List.replicate EPILOG_LEN 0 } }

/-- The bytes of an `addr_t` in memory order (all members are `uchar`
arrays, so there is no padding). -/
def addr_t.bytes (a : addr_t) : List Nat :=
  a.prolog ++ [a.volume.1, a.volume.2] ++ [a.track.1, a.track.2]
    ++ [a.sector.1, a.sector.2] ++ [a.checksum.1, a.checksum.2] ++ a.epilog

/-- The bytes of a `data_t` in memory order. -/
def data_t.bytes (d : data_t) : List Nat :=
  d.prolog ++ d.data ++ [d.data_checksum] ++ d.epilog

/-- The bytes of a `nib_sector_t` in memory order: what
`memcpy( buf, &nib_sector, sizeof( nib_sector ) )` copies. -/
def nib_sector_t.bytes (s : nib_sector_t) : List Nat :=
  s.gap1 ++ s.addr.bytes ++ s.gap2 ++ s.data.bytes

/-- The DSK image buffer `dsk_buf`: 35 tracks of 4096 bytes. -/
abbrev DskBuf := List (List Nat)

/-- The fatal errors of `dsk2nib.c` that depend on the input file. -/
inductive Fatal where
  | dsk_read_failure
  deriving DecidableEq, Repr

/-- The function `dsk_read`: 35 calls of `read`, each for `BYTES_PER_TRACK`
bytes; a call that returns fewer bytes is fatal ("dsk write failure"). -/
def dsk_read (file : List Nat) : Except Fatal DskBuf :=
  if TRACKS_PER_DISK * BYTES_PER_TRACK ≤ file.length then
    .ok ((List.range TRACKS_PER_DISK).map
      (fun i => sliceAt file (i * BYTES_PER_TRACK) BYTES_PER_TRACK))
  else .error .dsk_read_failure

/-- The function `dsk_get`, followed by the read `src[ i ]`:
`*(dsk_buf[ track ] + sector * BYTES_PER_SECTOR + i)`. -/
def dsk_get (dsk_buf : DskBuf) (track sector i : Nat) : Nat :=
  (dsk_buf.getD track []).getD (sector * BYTES_PER_SECTOR + i) 0

/-- One iteration of the first loop of `nibbilize`, on the pair
`(primary_buf, secondary_buf)`. -/
def nibbilize_step (src : Nat → Nat) (bufs : List Nat × List Nat) (i : Nat) :
    List Nat × List Nat :=
  let primary_buf := bufs.1.set i ((src i) >>> 2)
  let index := i % SECONDARY_BUF_LEN
  let sect := i / SECONDARY_BUF_LEN
  let pair := (((src i) &&& 2) >>> 1) ||| (((src i) &&& 1) <<< 1)
  let secondary_buf :=
    bufs.2.set index (((bufs.2.getD index 0) ||| (pair <<< (sect * 2))) % 256)
  (primary_buf, secondary_buf)

/-- The first loop of `nibbilize` after the two `memset`s: the final
`(primary_buf, secondary_buf)`. -/
def nibbilize_bufs (src : Nat → Nat) : List Nat × List Nat :=
  (List.range PRIMARY_BUF_LEN).foldl (nibbilize_step src)
    (List.replicate PRIMARY_BUF_LEN 0, List.replicate SECONDARY_BUF_LEN 0)

/-- The second half of `nibbilize`: the 342 bytes stored through
`dest[ index++ ]`, in order. -/
def nibbilize_data (primary_buf secondary_buf : List Nat) : List Nat :=
  [translate (secondary_buf.getD 0 0)]
    ++ (List.range' 1 (SECONDARY_BUF_LEN - 1)).map
        (fun i => translate (secondary_buf.getD i 0 ^^^ secondary_buf.getD (i - 1) 0))
    ++ [translate (primary_buf.getD 0 0 ^^^ secondary_buf.getD (SECONDARY_BUF_LEN - 1) 0)]
    ++ (List.range' 1 (PRIMARY_BUF_LEN - 1)).map
        (fun i => translate (primary_buf.getD i 0 ^^^ primary_buf.getD (i - 1) 0))

/-- The function `nibbilize`: fills `nib_sector.data.data` and
`nib_sector.data.data_checksum` from sector `sector` of track `track`. -/
def nibbilize (dsk_buf : DskBuf) (nib_sector : nib_sector_t) (track sector : Nat) :
    nib_sector_t :=
  let bufs := nibbilize_bufs (dsk_get dsk_buf track sector)
  { nib_sector with
    data := { nib_sector.data with
      data := nibbilize_data bufs.1 bufs.2
      data_checksum := translate (bufs.1.getD (PRIMARY_BUF_LEN - 1) 0) } }

/-- The 343 bytes `nibbilize` produces for a 256-byte payload: the 342 data
bytes followed by the checksum byte, as they lie in `data_t`. -/
def nibbilize_out (src : Nat → Nat) : List Nat :=
  let bufs := nibbilize_bufs src
  nibbilize_data bufs.1 bufs.2 ++ [translate (bufs.1.getD (PRIMARY_BUF_LEN - 1) 0)]

/-- The NIB image buffer `nib_buf`: 35 tracks of 6656 cells. -/
abbrev NibBuf := List (List (Option Nat))

/-- The function `nib_init`: 35 freshly allocated tracks. -/
def nib_init : NibBuf :=
  List.replicate TRACKS_PER_DISK (List.replicate BYTES_PER_NIB_TRACK none)

/-- The state of `main`'s conversion loops. -/
structure MainState where
  nib_sector : nib_sector_t
  nib_buf : NibBuf
  deriving DecidableEq

/-- The body of the inner loop of `main` (one sector). -/
def main_sector (dsk_buf : DskBuf) (volume trk : Nat) (st : MainState) (sec : Nat) :
    MainState :=
  let softsec := soft_interleave.getD sec 0
  let physsec := phys_interleave.getD sec 0
  let csum := volume ^^^ trk ^^^ sec
  let ns := st.nib_sector
  let ns := { ns with addr := { ns.addr with track := odd_even_encode trk } }
  let ns := { ns with addr := { ns.addr with sector := odd_even_encode sec } }
  let ns := { ns with addr := { ns.addr with checksum := odd_even_encode csum } }
  let ns := nibbilize dsk_buf ns trk softsec
  let nib_buf := st.nib_buf.set trk
    (memcpy (st.nib_buf.getD trk []) (physsec * BYTES_PER_NIB_SECTOR) ns.bytes)
  { nib_sector := ns, nib_buf := nib_buf }

/-- The body of the outer loop of `main` (one track). -/
def main_track (dsk_buf : DskBuf) (volume : Nat) (st : MainState) (trk : Nat) : MainState :=
  (List.range SECTORS_PER_TRACK).foldl (main_sector dsk_buf volume trk) st

/-- The initialisation of `nib_sector` in `main`: marks, volume and gaps. -/
def main_init (volume : Nat) : nib_sector_t :=
  let ns := nib_sector_zero
  let ns := { ns with addr := { ns.addr with prolog := addr_prolog } }
  let ns := { ns with addr := { ns.addr with epilog := addr_epilog } }
  let ns := { ns with data := { ns.data with prolog := data_prolog } }
  let ns := { ns with data := { ns.data with epilog := data_epilog } }
  let ns := { ns with addr := { ns.addr with volume := odd_even_encode volume } }
  let ns := { ns with gap1 := List.replicate GAP1_LEN GAP_BYTE }
  let ns := { ns with gap2 := List.replicate GAP2_LEN GAP_BYTE }
  ns

/-- The conversion in `main`: the NIB image buffer after both loops. -/
def main_convert (dsk_buf : DskBuf) (volume : Nat) : NibBuf :=
  let st : MainState := { nib_sector := main_init volume, nib_buf := nib_init }
  ((List.range TRACKS_PER_DISK).foldl (main_track dsk_buf volume) st).nib_buf

/-- The function `nib_write`: the tracks written one after the other. -/
def nib_write (nib_buf : NibBuf) : List (Option Nat) :=
  ((List.range TRACKS_PER_DISK).map (fun i => nib_buf.getD i [])).flatten

/-- The program `dsk2nib`: from the DSK file and the volume number to the
cells of the NIB file. -/
def dsk2nib (file : List Nat) (volume : Nat) : Except Fatal (List (Option Nat)) :=
  match dsk_read file with
  | .error e => .error e
  | .ok dsk_buf => .ok (nib_write (main_convert dsk_buf volume))

end Dsk2Nib

/-! ## nib2dsk.c -/

namespace Nib2Dsk

def TRACKS_PER_DISK : Nat := 35
def SECTORS_PER_TRACK : Nat := 16
def BYTES_PER_SECTOR : Nat := 256
def BYTES_PER_TRACK : Nat := 4096
def DSK_LEN : Nat := 143360
def PRIMARY_BUF_LEN : Nat := 256
def SECONDARY_BUF_LEN : Nat := 86
def DATA_LEN : Nat := PRIMARY_BUF_LEN + SECONDARY_BUF_LEN
def STATE_INIT : Nat := 0
def STATE_DONE : Nat := 666
def TABLE_SIZE : Nat := 0x40

def addr_prolog : List Nat := [0xd5, 0xaa, 0x96]
def addr_epilog : List Nat := [0xde, 0xaa, 0xeb]
def data_prolog : List Nat := [0xd5, 0xaa, 0xad]
def data_epilog : List Nat := [0xde, 0xaa, 0xeb]

def interleave : List Nat :=
  [0, 7, 0xE, 6, 0xD, 5, 0xC, 4, 0xB, 3, 0xA, 2, 9, 1, 8, 0xF]

/-- The 6-and-2 translation table of `nib2dsk.c`. -/
def table : List Nat :=
  [0x96, 0x97, 0x9a, 0x9b, 0x9d, 0x9e, 0x9f, 0xa6,
   0xa7, 0xab, 0xac, 0xad, 0xae, 0xaf, 0xb2, 0xb3,
   0xb4, 0xb5, 0xb6, 0xb7, 0xb9, 0xba, 0xbb, 0xbc,
   0xbd, 0xbe, 0xbf, 0xcb, 0xcd, 0xce, 0xcf, 0xd3,
   0xd6, 0xd7, 0xd9, 0xda, 0xdb, 0xdc, 0xdd, 0xde,
   0xdf, 0xe5, 0xe6, 0xe7, 0xe9, 0xea, 0xeb, 0xec,
   0xed, 0xee, 0xef, 0xf2, 0xf3, 0xf4, 0xf5, 0xf6,
   0xf7, 0xf9, 0xfa, 0xfb, 0xfc, 0xfd, 0xfe, 0xff]

/-- The calls of `fatal` in `nib2dsk.c` that depend on the input stream, and
`out_of_bounds`, which is not a call of `fatal`: it marks an access outside
`interleave` or `dsk_buf`, where C leaves the behaviour undefined. -/
inductive Fatal where
  | ueof
  | non_translatable (x : Nat)
  | data_epilog_mismatch (byte : Nat)
  | undefined_state
  | huh
  | out_of_bounds
  deriving DecidableEq, Repr

/-- The two warnings `nib2dsk.c` prints. -/
inductive Warning where
  | extra_bytes (extra : Nat)
  | data_checksum_mismatch
  deriving DecidableEq, Repr

/-- The function `odd_even_decode`; the result is a `uchar`. -/
def odd_even_decode (byte1 byte2 : Nat) : Nat :=
  (((byte1 <<< 1) &&& 0xaa) ||| (byte2 &&& 0x55)) % 256

/-- The function `untranslate`: `memchr` over the table, fatal on NULL. -/
def untranslate (x : Nat) : Except Fatal Nat :=
  match memchr (table.take TABLE_SIZE) x with
  | none => .error (.non_translatable x)
  | some index => .ok (index % 256)

/-- The function `get_byte` on the unread part of the input file: the next
byte and the rest, or `none` where the C function returns 0 (end of file). -/
def get_byte (input : List Nat) : Option (Nat × List Nat) :=
  match input with
  | [] => none
  | byte :: rest => some (byte, rest)

/-- The DSK image buffer `dsk_buf`: 35 tracks of 4096 cells. -/
abbrev DskBuf := List (List (Option Nat))

/-- The function `dsk_init`: 35 freshly allocated tracks. -/
def dsk_init : DskBuf :=
  List.replicate TRACKS_PER_DISK (List.replicate BYTES_PER_TRACK none)

/-- The function `dsk_write`: the tracks written one after the other. -/
def dsk_write (dsk_buf : DskBuf) : List (Option Nat) :=
  ((List.range TRACKS_PER_DISK).map (fun i => dsk_buf.getD i [])).flatten

/-- The variables of `convert_image` and the globals and statics it works
on: the unread input, the FSM state and current byte, the four mark
indices, the decoded address, the static `extra`, the image buffer, and the
warnings printed so far. -/
structure Fsm where
  input : List Nat
  state : Nat
  byte : Nat
  addr_prolog_index : Nat
  addr_epilog_index : Nat
  data_prolog_index : Nat
  data_epilog_index : Nat
  volume : Nat
  track : Nat
  sector : Nat
  extra : Nat
  dsk_buf : DskBuf
  warnings : List Warning
  deriving DecidableEq, Repr

/-- A reading loop of `process_data`: `n` times, fetch a byte (fatal at end
of file), xor its untranslation into `checksum` and store `checksum` into
the next buffer entry.  Returns the stored entries in index order, the final
`checksum` and the unread input. -/
def read_chain : Nat → Nat → List Nat → Except Fatal (List Nat × Nat × List Nat)
  | 0, checksum, input => .ok ([], checksum, input)
  | n + 1, checksum, input =>
    match get_byte input with
    | none => .error .ueof
    | some (byte, input) =>
      match untranslate byte with
      | .error e => .error e
      | .ok u =>
        let checksum := (checksum ^^^ u) % 256
        match read_chain n checksum input with
        | .error e => .error e
        | .ok (buf, c, rest) => .ok (checksum :: buf, c, rest)

/-- The `switch( i / SECONDARY_BUF_LEN )` of the denibbilize loop: the pair
`(bit0, bit1)`. -/
def denib_bits (secondary_buf : List Nat) (i : Nat) : Except Fatal (Nat × Nat) :=
  let index := i % SECONDARY_BUF_LEN
  let sb := secondary_buf.getD index 0
  match i / SECONDARY_BUF_LEN with
  | 0 => .ok (if sb &&& 2 > 0 then 1 else 0, if sb &&& 1 > 0 then 1 else 0)
  | 1 => .ok (if sb &&& 8 > 0 then 1 else 0, if sb &&& 4 > 0 then 1 else 0)
  | 2 => .ok (if sb &&& 0x20 > 0 then 1 else 0, if sb &&& 0x10 > 0 then 1 else 0)
  | _ => .error .huh

/-- The denibbilize loop of `process_data`, over the list of the remaining
values of `i`. -/
def denibbilize (primary_buf secondary_buf : List Nat) (track sector : Nat) :
    List Nat → DskBuf → Except Fatal DskBuf
  | [], dsk_buf => .ok dsk_buf
  | i :: is, dsk_buf =>
    match denib_bits secondary_buf i with
    | .error e => .error e
    | .ok (bit0, bit1) =>
      if sector < SECTORS_PER_TRACK ∧ track < TRACKS_PER_DISK then
        let sec := interleave.getD sector 0
        let value := (((primary_buf.getD i 0) <<< 2) ||| (bit1 <<< 1) ||| bit0) % 256
        let trk := (dsk_buf.getD track []).set (sec * BYTES_PER_SECTOR + i) (some value)
        denibbilize primary_buf secondary_buf track sector is (dsk_buf.set track trk)
      else .error .out_of_bounds

/-- The first half of `process_data( byte )`, up to the validation of the
checksum: fills `secondary_buf` and `primary_buf` and reads the checksum
byte.  Returns `(secondary_buf, primary_buf, checksum, unread input)`. -/
def read_field (byte : Nat) (input : List Nat) :
    Except Fatal (List Nat × List Nat × Nat × List Nat) :=
  match untranslate byte with
  | .error e => .error e
  | .ok checksum =>
    match read_chain (SECONDARY_BUF_LEN - 1) checksum input with
    | .error e => .error e
    | .ok (sec_tail, checksum1, input1) =>
      match read_chain PRIMARY_BUF_LEN checksum1 input1 with
      | .error e => .error e
      | .ok (primary_buf, checksum2, input2) =>
        match get_byte input2 with
        | none => .error .ueof
        | some (byte, input3) =>
          match untranslate byte with
          | .error e => .error e
          | .ok u => .ok (checksum :: sec_tail, primary_buf, (checksum2 ^^^ u) % 256, input3)

/-- The function `process_data`, called with `byte = s.byte`.  Its parameter
`byte` is a copy, so the caller's `byte` is left as it was. -/
def process_data (s : Fsm) : Except Fatal Fsm :=
  match read_field s.byte s.input with
  | .error e => .error e
  | .ok (secondary_buf, primary_buf, checksum, input) =>
    let warnings :=
      if checksum ≠ 0 then s.warnings ++ [Warning.data_checksum_mismatch]
      else s.warnings
    match denibbilize primary_buf secondary_buf s.track s.sector
        (List.range PRIMARY_BUF_LEN) s.dsk_buf with
    | .error e => .error e
    | .ok dsk_buf =>
      .ok { s with input := input, warnings := warnings, dsk_buf := dsk_buf }

/-- Fetch the next byte into `byte`, fatal "Unexpected End of File" at the
end of the input: `if ( get_byte( &byte ) == 0 ) fatal( ueof );`. -/
def next_or_ueof (s : Fsm) : Except Fatal Fsm :=
  match get_byte s.input with
  | none => .error .ueof
  | some (byte, input) => .ok { s with byte := byte, input := input }

/-- The cases 3 to 6 of the FSM up to the decoding: fetch `byte2`, fatal at
the end of the input; returns `odd_even_decode( byte, byte2 )` and the
machine after the fetch. -/
def read_pair (s : Fsm) : Except Fatal (Nat × Fsm) :=
  match get_byte s.input with
  | none => .error .ueof
  | some (byte2, input) => .ok (odd_even_decode s.byte byte2, { s with input := input })

/-- One pass through the `switch( state )` of `convert_image`. -/
def step (s : Fsm) : Except Fatal Fsm :=
  match s.state with
  | 0 =>
    let s := { s with addr_prolog_index := 0 }
    let s :=
      if s.byte = addr_prolog.getD s.addr_prolog_index 0 then
        { s with addr_prolog_index := s.addr_prolog_index + 1, state := s.state + 1 }
      else s
    match get_byte s.input with
    | none => .ok { s with state := STATE_DONE }
    | some (byte, input) => .ok { s with byte := byte, input := input }
  | 1 | 2 =>
    if s.byte = addr_prolog.getD s.addr_prolog_index 0 then
      next_or_ueof { s with addr_prolog_index := s.addr_prolog_index + 1, state := s.state + 1 }
    else .ok { s with state := 0 }
  | 3 =>
    match read_pair s with
    | .error e => .error e
    | .ok (v, s) => next_or_ueof { s with volume := v, state := s.state + 1 }
  | 4 =>
    match read_pair s with
    | .error e => .error e
    | .ok (v, s) => next_or_ueof { s with track := v, state := s.state + 1 }
  | 5 =>
    match read_pair s with
    | .error e => .error e
    | .ok (v, s) => next_or_ueof { s with sector := v, state := s.state + 1 }
  | 6 =>
    match read_pair s with
    | .error e => .error e
    | .ok (_, s) => next_or_ueof { s with state := s.state + 1 }
  | 7 =>
    let s := { s with addr_epilog_index := 0 }
    if s.byte = addr_epilog.getD s.addr_epilog_index 0 then
      next_or_ueof { s with addr_epilog_index := s.addr_epilog_index + 1, state := s.state + 1 }
    else .ok { s with state := 0 }
  | 8 =>
    if s.byte = addr_epilog.getD s.addr_epilog_index 0 then
      next_or_ueof { s with state := s.state + 1 }
    else .ok { s with state := 0 }
  | 9 =>
    let s := { s with data_prolog_index := 0 }
    let s :=
      if s.byte = data_prolog.getD s.data_prolog_index 0 then
        { s with data_prolog_index := s.data_prolog_index + 1, state := s.state + 1 }
      else s
    next_or_ueof s
  | 10 | 11 =>
    if s.byte = data_prolog.getD s.data_prolog_index 0 then
      next_or_ueof { s with data_prolog_index := s.data_prolog_index + 1, state := s.state + 1 }
    else .ok { s with state := 9 }
  | 12 =>
    match process_data s with
    | .error e => .error e
    | .ok s => next_or_ueof { s with state := s.state + 1 }
  | 13 =>
    let s := { s with data_epilog_index := 0 }
    let s :=
      if s.byte = data_epilog.getD s.data_epilog_index 0 then
        let s :=
          if s.extra ≠ 0 then
            { s with warnings := s.warnings ++ [Warning.extra_bytes s.extra], extra := 0 }
          else s
        { s with data_epilog_index := s.data_epilog_index + 1, state := s.state + 1 }
      else { s with extra := s.extra + 1 }
    next_or_ueof s
  | 14 =>
    if s.byte = data_epilog.getD s.data_epilog_index 0 then
      next_or_ueof { s with data_epilog_index := s.data_epilog_index + 1, state := s.state + 1 }
    else .error (.data_epilog_mismatch s.byte)
  | 15 =>
    if s.byte = data_epilog.getD s.data_epilog_index 0 then
      match get_byte s.input with
      | none => .ok { s with state := STATE_DONE }
      | some (byte, input) => .ok { s with byte := byte, input := input, state := 0 }
    else .error (.data_epilog_mismatch s.byte)
  | _ => .error .undefined_state

/-- How a run of the FSM loop ends: the loop is left with
`state == STATE_DONE`, a call of `fatal` ends the program, or the step
budget of the model is used up, which corresponds to no behaviour of the C
program. -/
inductive Outcome where
  | done (s : Fsm)
  | fatal (e : Fatal)
  | out_of_fuel
  deriving DecidableEq, Repr

/-- The loop `for ( state = STATE_INIT; state != STATE_DONE; )` of
`convert_image`, run for at most `fuel` passes. -/
def convert_loop : Nat → Fsm → Outcome
  | 0, s => if s.state = STATE_DONE then .done s else .out_of_fuel
  | fuel + 1, s =>
    if s.state = STATE_DONE then .done s
    else
      match step s with
      | .error e => .fatal e
      | .ok s1 => convert_loop fuel s1

/-- The machine at the entry of the FSM loop, `byte` being the first byte
of the input.  The four mark indices are not initialised in C; each is
assigned (in state 0, 7, 9 or 13) before the state that reads it. -/
def fsm_init (byte : Nat) (input : List Nat) (dsk_buf : DskBuf) : Fsm :=
  { input := input, state := STATE_INIT, byte := byte,
    addr_prolog_index := 0, addr_epilog_index := 0,
    data_prolog_index := 0, data_epilog_index := 0,
    volume := 0, track := 0, sector := 0, extra := 0,
    dsk_buf := dsk_buf, warnings := [] }

/-- The function `convert_image` on the input file `input`, the image
buffer being `dsk_buf`. -/
def convert_image (fuel : Nat) (input : List Nat) (dsk_buf : DskBuf) : Outcome :=
  match get_byte input with
  | none => .fatal .ueof
  | some (byte, input) => convert_loop fuel (fsm_init byte input dsk_buf)

/-- The program `nib2dsk`: `dsk_init`, `convert_image`, `dsk_write`.  The
result is the cells of the DSK file, or the fatal error; `none` when the
step budget does not suffice. -/
def nib2dsk (fuel : Nat) (input : List Nat) : Option (Except Fatal (List (Option Nat))) :=
  match convert_image fuel input dsk_init with
  | .done s => some (.ok (dsk_write s.dsk_buf))
  | .fatal e => some (.error e)
  | .out_of_fuel => none

end Nib2Dsk

/-! ## Reference definitions

Definitions that follow the wording of the specification; the theorems below
compare them with the definitions taken from the C source. -/

namespace Spec

/-- The positions `i` in 0..6 at which bits `i` and `i+1` of `x` are both 0. -/
def zero_pairs (x : Nat) : List Nat :=
  (List.range 7).filter (fun i => !x.testBit i && !x.testBit (i + 1))

/-- The 6-bit primary value of payload byte `i`: `byte >> 2`.  A payload is
given as the function from the index to the byte. -/
def primary (src : Nat → Nat) (i : Nat) : Nat :=
  src i >>> 2

/-- The 2-bit secondary value of a byte: its low two bits, swapped. -/
def swapped (byte : Nat) : Nat :=
  ((byte &&& 2) >>> 1) ||| ((byte &&& 1) <<< 1)

/-- The combined secondary byte `j`: the swapped bit pairs of payload bytes
`j`, `j+86` and (when `j+172 < 256`) `j+172` at bit offsets 0, 2 and 4. -/
def secondary (src : Nat → Nat) (j : Nat) : Nat :=
  swapped (src j) ||| (swapped (src (j + 86)) <<< 2)
    ||| (if j + 172 < 256 then swapped (src (j + 172)) <<< 4 else 0)

/-- Byte `k` of the reference 6-and-2 encoding of a payload (`k` in 0..342). -/
def six_and_two_byte (src : Nat → Nat) (k : Nat) : Nat :=
  if k = 0 then Dsk2Nib.translate (secondary src 0)
  else if k < 86 then Dsk2Nib.translate (secondary src k ^^^ secondary src (k - 1))
  else if k = 86 then Dsk2Nib.translate (primary src 0 ^^^ secondary src 85)
  else if k < 342 then
    Dsk2Nib.translate (primary src (k - 86) ^^^ primary src (k - 86 - 1))
  else Dsk2Nib.translate (primary src 255)

/-- The reference 6-and-2 encoding: 343 bytes. -/
def six_and_two (src : Nat → Nat) : List Nat :=
  (List.range 343).map (six_and_two_byte src)

/-- A 256-byte payload: 256 values, each a byte. -/
def is_payload (payload : List Nat) : Prop :=
  payload.length = 256 ∧ ∀ b ∈ payload, b < 256

instance (payload : List Nat) : Decidable (is_payload payload) := by
  unfold is_payload
  infer_instance

/-- The secondary byte `j` after the first `n` iterations of the loop that
fills the buffers. -/
def secondary_upto (src : Nat → Nat) (n j : Nat) : Nat :=
  (if j < n then swapped (src j) else 0)
    ||| (if j + 86 < n then swapped (src (j + 86)) <<< 2 else 0)
    ||| (if j + 172 < n then swapped (src (j + 172)) <<< 4 else 0)

/-- A DSK image buffer of the decoder with all 35 tracks of 4096 cells
allocated. -/
def is_image_buffer (d : Nib2Dsk.DskBuf) : Prop :=
  d.length = 35 ∧ ∀ t ∈ d, t.length = 4096

/-- The list `l` with bit `i` of its byte at position `p` flipped. -/
def flip_bit (l : List Nat) (p i : Nat) : List Nat :=
  l.set p (l.getD p 0 ^^^ (1 <<< i))

/-- The running checksum of the decoder over a list of disk bytes, starting
from `c`: each byte is untranslated and xor-ed in; the first byte that is
not in the table ends the run with the fatal error. -/
def chain_result (c : Nat) : List Nat → Except Nib2Dsk.Fatal Nat
  | [] => .ok c
  | x :: xs =>
    match Nib2Dsk.untranslate x with
    | .error e => .error e
    | .ok u => chain_result ((c ^^^ u) % 256) xs

/-- The 6-bit value of a disk byte, 0 for a byte outside the table. -/
def untr (x : Nat) : Nat :=
  match Nib2Dsk.untranslate x with
  | .error _ => 0
  | .ok u => u

/-- The xor of the 6-bit values of a list of disk bytes. -/
def xor_untr : List Nat → Nat
  | [] => 0
  | x :: xs => untr x ^^^ xor_untr xs

/-- The 4-and-4 pair of a value, as the specification writes it. -/
def odd_even (x : Nat) : List Nat :=
  [((x >>> 1) &&& 0x55) ||| 0xAA, (x &&& 0x55) ||| 0xAA]

/-- The reference layout of a 416-byte sector record with volume `v`, track
`t` and transmitted sector number `k`, around the 343-byte data field. -/
def record (v t k : Nat) (field : List Nat) : List Nat :=
  List.replicate 48 0xFF ++ [0xD5, 0xAA, 0x96]
    ++ odd_even v ++ odd_even t ++ odd_even k ++ odd_even (v ^^^ t ^^^ k)
    ++ [0xDE, 0xAA, 0xEB] ++ List.replicate 5 0xFF ++ [0xD5, 0xAA, 0xAD]
    ++ field ++ [0xDE, 0xAA, 0xEB]

/-- The record the encoder builds for write-order index `k` of track `t`:
the reference layout around the encoding of logical sector
`soft_interleave[k]`. -/
def sector_record (dsk_buf : Dsk2Nib.DskBuf) (v t k : Nat) : List Nat :=
  record v t k
    (Dsk2Nib.nibbilize_out (Dsk2Nib.dsk_get dsk_buf t (Dsk2Nib.soft_interleave.getD k 0)))

/-- The write-order index whose record lies in physical slot `p`. -/
def slot_index (p : Nat) : Nat :=
  Dsk2Nib.phys_interleave.indexOf p

/-- The bytes of track `t` of the NIB image: the 16 records in the order of
their physical slots. -/
def nib_track (dsk_buf : Dsk2Nib.DskBuf) (v t : Nat) : List Nat :=
  ((List.range 16).map (fun p => sector_record dsk_buf v t (slot_index p))).flatten

/-- The members of `nib_sector` that `main` sets once, before its loops. -/
def sector_inited (v : Nat) (ns : Dsk2Nib.nib_sector_t) : Prop :=
  ns.gap1 = List.replicate 48 0xFF ∧ ns.addr.prolog = [0xD5, 0xAA, 0x96]
    ∧ ns.addr.volume = Dsk2Nib.odd_even_encode v ∧ ns.addr.epilog = [0xDE, 0xAA, 0xEB]
    ∧ ns.gap2 = List.replicate 5 0xFF ∧ ns.data.prolog = [0xD5, 0xAA, 0xAD]
    ∧ ns.data.epilog = [0xDE, 0xAA, 0xEB]

/-- What the decoder stores into its image buffer for the record with track
`r.1` and transmitted sector number `r.2` of the image `dsk_buf`: the 256
bytes of the logical sector the record was encoded from, at sector
`interleave[r.2]` of track `r.1`. -/
def image_update (dsk_buf : Dsk2Nib.DskBuf) (d : Nib2Dsk.DskBuf) (r : Nat × Nat) :
    Nib2Dsk.DskBuf :=
  d.set r.1 (memcpy (d.getD r.1 []) (Nib2Dsk.interleave.getD r.2 0 * 256)
    ((List.range 256).map (Dsk2Nib.dsk_get dsk_buf r.1 (Dsk2Nib.soft_interleave.getD r.2 0))))

/-- The records of a NIB image in file order, each given by its track and
its transmitted sector number. -/
def record_order : List (Nat × Nat) :=
  ((List.range 35).map (fun t => (List.range 16).map (fun p => (t, slot_index p)))).flatten

/-- The bytes of the NIB image of `dsk_buf`. -/
def nib_image (dsk_buf : Dsk2Nib.DskBuf) (v : Nat) : List Nat :=
  ((List.range 35).map (nib_track dsk_buf v)).flatten

/-- The bytes of track `t` of a DSK image buffer of the encoder, sector by
sector. -/
def dsk_track (dsk_buf : Dsk2Nib.DskBuf) (t : Nat) : List Nat :=
  ((List.range 16).map (fun l => (List.range 256).map (Dsk2Nib.dsk_get dsk_buf t l))).flatten

/-- The image whose bytes are `(track * 16 + sector) mod 256`. -/
def pattern_image : List Nat :=
  (List.range 143360).map (fun a => (a / 4096 * 16 + a % 4096 / 256) % 256)

end Spec

/-! ## Auxiliary definitions for the synchronizer -/

namespace Spec

/-- The machine `s` with the bytes `more` still to come behind its unread
input. -/
def with_more (s : Nib2Dsk.Fsm) (more : List Nat) : Nib2Dsk.Fsm :=
  { s with input := s.input ++ more }

/-- The DSK image buffer whose bytes are all zero. -/
def zero_image : Dsk2Nib.DskBuf :=
  List.replicate 35 (List.replicate 4096 0)

/-- A sector record as `record` lays it out, with the bytes `extra` between
the 343 bytes of the data field and the data epilog. -/
def record_extra (v t k : Nat) (field extra : List Nat) : List Nat :=
  List.replicate 48 0xFF ++ [0xD5, 0xAA, 0x96]
    ++ odd_even v ++ odd_even t ++ odd_even k ++ odd_even (v ^^^ t ^^^ k)
    ++ [0xDE, 0xAA, 0xEB] ++ List.replicate 5 0xFF ++ [0xD5, 0xAA, 0xAD]
    ++ field ++ extra ++ [0xDE, 0xAA, 0xEB]

/-- The byte the denibbilize loop of `process_data` stores for index `i`,
from the two buffers: `( primary_buf[ i ] << 2 ) | ( bit1 << 1 ) | bit0`. -/
def denib_value (primary_buf secondary_buf : List Nat) (i : Nat) : Nat :=
  match Nib2Dsk.denib_bits secondary_buf i with
  | .ok (bit0, bit1) => (((primary_buf.getD i 0) <<< 2) ||| (bit1 <<< 1) ||| bit0) % 256
  | .error _ => 0

/-- A sector record as `record` lays it out, with arbitrary bytes `vol` in
place of the volume pair and `csum` in place of the checksum pair. -/
def record_with (vol : Nat × Nat) (t k : Nat) (csum : Nat × Nat) (field : List Nat) :
    List Nat :=
  List.replicate 48 0xFF ++ [0xD5, 0xAA, 0x96]
    ++ [vol.1, vol.2] ++ odd_even t ++ odd_even k ++ [csum.1, csum.2]
    ++ [0xDE, 0xAA, 0xEB] ++ List.replicate 5 0xFF ++ [0xD5, 0xAA, 0xAD]
    ++ field ++ [0xDE, 0xAA, 0xEB]

/-- The record the encoder builds for track `r.1` and write-order index
`r.2`, with the bytes `(a r.1 r.2).1` in place of its volume pair and
`(a r.1 r.2).2` in place of its checksum pair. -/
def sector_record_with (a : Nat → Nat → (Nat × Nat) × (Nat × Nat)) (dsk_buf : Dsk2Nib.DskBuf)
    (r : Nat × Nat) : List Nat :=
  record_with (a r.1 r.2).1 r.1 r.2 (a r.1 r.2).2
    (Dsk2Nib.nibbilize_out (Dsk2Nib.dsk_get dsk_buf r.1 (Dsk2Nib.soft_interleave.getD r.2 0)))

/-- The NIB image of `dsk_buf` in which every record carries the bytes `a`
gives for it in place of its volume pair and of its checksum pair. -/
def nib_image_with (a : Nat → Nat → (Nat × Nat) × (Nat × Nat)) (dsk_buf : Dsk2Nib.DskBuf) :
    List Nat :=
  (record_order.map (sector_record_with a dsk_buf)).flatten

/-- An outcome of the FSM loop with the variable `volume`, which the
program only prints, set to 0. -/
def forget_volume : Nib2Dsk.Outcome → Nib2Dsk.Outcome
  | .done s => .done { s with volume := 0 }
  | .fatal e => .fatal e
  | .out_of_fuel => .out_of_fuel

end Spec

/-! ## Auxiliary definitions for termination -/

namespace Spec

/-- The states of the FSM that compare the current byte with a mark byte
and fall back to a scanning state, without fetching a byte, when it
differs: 1, 2 (address prolog), 7, 8 (address epilog), 10, 11 (data
prolog). -/
def is_match_state (state : Nat) : Prop :=
  state = 1 ∨ state = 2 ∨ state = 7 ∨ state = 8 ∨ state = 10 ∨ state = 11

/-- The two scanning states a mark mismatch falls back to: 0 and 9. -/
def is_scan_state (state : Nat) : Prop :=
  state = 0 ∨ state = 9

instance (state : Nat) : Decidable (is_match_state state) := by
  unfold is_match_state
  infer_instance

instance (state : Nat) : Decidable (is_scan_state state) := by
  unfold is_scan_state
  infer_instance

/-- A bound on the passes of the FSM loop still to come: two for each unread
byte, and one more outside the two scanning states. -/
def passes_left (s : Nib2Dsk.Fsm) : Nat :=
  2 * s.input.length + (if is_scan_state s.state then 0 else 1)

end Spec

/-! ## The translation table and the two small codecs -/

theorem memchr_eq_none_iff (l : List Nat) (x : Nat) : memchr l x = none ↔ x ∉ l := by
  induction l with
  | nil => simp [memchr]
  | cons y ys ih =>
    by_cases h : y = x
    · simp [memchr, h]
    · simp [memchr, h, ih, Ne.symm h]

theorem memchr_some_spec (l : List Nat) (x i : Nat) (h : memchr l x = some i) :
    i < l.length ∧ l.getD i 0 = x := by
  induction l generalizing i with
  | nil => simp [memchr] at h
  | cons y ys ih =>
    by_cases hy : y = x
    · simp [memchr, hy] at h
      subst h
      simp [hy]
    · simp only [memchr, hy, if_false, Option.map_eq_some'] at h
      obtain ⟨j, hj, rfl⟩ := h
      have := ih j hj
      refine ⟨by simp [this.1], ?_⟩
      rw [List.getD_cons_succ]
      exact this.2

/-- C5: 4-and-4 round trip.  For every byte `b`, `odd_even_decode` applied
to the two bytes stored by `odd_even_encode( a, b )` returns `b`, and the
two bytes are `((b >> 1) & 0x55) | 0xAA` and `(b & 0x55) | 0xAA`. -/
theorem odd_even_round_trip (b : Nat) (hb : b < 256) :
    Nib2Dsk.odd_even_decode (Dsk2Nib.odd_even_encode b).1 (Dsk2Nib.odd_even_encode b).2 = b
      ∧ (Dsk2Nib.odd_even_encode b).1 = ((b >>> 1) &&& 0x55) ||| 0xAA
      ∧ (Dsk2Nib.odd_even_encode b).2 = (b &&& 0x55) ||| 0xAA := by
  have h : ∀ b, b < 256 →
      Nib2Dsk.odd_even_decode (Dsk2Nib.odd_even_encode b).1 (Dsk2Nib.odd_even_encode b).2 = b := by
    decide
  exact ⟨h b hb, rfl, rfl⟩

theorem odd_even_round_trip_witness :
    (254 < 256) ∧
    (Nib2Dsk.odd_even_decode (Dsk2Nib.odd_even_encode 254).1 (Dsk2Nib.odd_even_encode 254).2 = 254
      ∧ (Dsk2Nib.odd_even_encode 254).1 = ((254 >>> 1) &&& 0x55) ||| 0xAA
      ∧ (Dsk2Nib.odd_even_encode 254).2 = (254 &&& 0x55) ||| 0xAA) :=
  ⟨by decide, odd_even_round_trip 254 (by decide)⟩

/-- C6: nibble table round trip.  For every 6-bit value `v`,
`untranslate( translate( v ) )` returns `v`; the tables of the two programs
are the same list. -/
theorem untranslate_translate (v : Nat) (hv : v < 64) :
    Nib2Dsk.untranslate (Dsk2Nib.translate v) = .ok v
      ∧ Nib2Dsk.table = Dsk2Nib.table := by
  have h : ∀ v, v < 64 → Nib2Dsk.untranslate (Dsk2Nib.translate v) = .ok v := by decide
  exact ⟨h v hv, rfl⟩

theorem untranslate_translate_witness :
    (63 < 64) ∧ (Nib2Dsk.untranslate (Dsk2Nib.translate 63) = .ok 63
      ∧ Nib2Dsk.table = Dsk2Nib.table) :=
  ⟨by decide, untranslate_translate 63 (by decide)⟩

/-- C7: `untranslate` ends in the fatal error "Non-translatable byte"
exactly when its argument is not an entry of the table; it does so for 0x00
and 0x7F; for an entry of the table it returns the index of that entry, a
value in 0..63. -/
theorem untranslate_fails_iff (x : Nat) :
    (Nib2Dsk.untranslate x = .error (.non_translatable x) ↔ x ∉ Nib2Dsk.table)
      ∧ ((∃ e, Nib2Dsk.untranslate x = .error e) ↔ x ∉ Nib2Dsk.table)
      ∧ (x ∈ Nib2Dsk.table →
          ∃ i, i < 64 ∧ Nib2Dsk.table.getD i 0 = x ∧ Nib2Dsk.untranslate x = .ok i)
      ∧ Nib2Dsk.untranslate 0x00 = .error (.non_translatable 0x00)
      ∧ Nib2Dsk.untranslate 0x7F = .error (.non_translatable 0x7F) := by
  have htake : Nib2Dsk.table.take Nib2Dsk.TABLE_SIZE = Nib2Dsk.table := by decide
  have hlen : Nib2Dsk.table.length = 64 := by decide
  refine ⟨?_, ?_, ?_, by decide, by decide⟩
  · unfold Nib2Dsk.untranslate
    rw [htake]
    cases hm : memchr Nib2Dsk.table x with
    | none => simpa using (memchr_eq_none_iff _ _).1 hm
    | some i =>
      have hin : ¬ (x ∉ Nib2Dsk.table) := fun hn => by
        rw [(memchr_eq_none_iff _ _).2 hn] at hm
        cases hm
      simp only [not_not] at hin
      simp [hin]
  · unfold Nib2Dsk.untranslate
    rw [htake]
    cases hm : memchr Nib2Dsk.table x with
    | none => simpa using (memchr_eq_none_iff _ _).1 hm
    | some i =>
      have hin : ¬ (x ∉ Nib2Dsk.table) := fun hn => by
        rw [(memchr_eq_none_iff _ _).2 hn] at hm
        cases hm
      simp only [not_not] at hin
      simp [hin]
  · intro hx
    unfold Nib2Dsk.untranslate
    rw [htake]
    cases hm : memchr Nib2Dsk.table x with
    | none => exact absurd hx ((memchr_eq_none_iff _ _).1 hm)
    | some i =>
      obtain ⟨hi, hget⟩ := memchr_some_spec _ _ _ hm
      rw [hlen] at hi
      refine ⟨i, hi, hget, ?_⟩
      have : i % 256 = i := Nat.mod_eq_of_lt (by omega)
      simp [this]

/-- C8: the translation table has exactly 64 entries, is strictly
increasing in its index (hence without repetition), and every entry has its
top bit 0x80 set; the table of `nib2dsk.c` is the same list. -/
theorem table_strictly_increasing :
    Dsk2Nib.table.length = 64
      ∧ (∀ i, i < 64 → ∀ j, j < 64 → i < j → Dsk2Nib.table.getD i 0 < Dsk2Nib.table.getD j 0)
      ∧ Dsk2Nib.table.Nodup
      ∧ (∀ i, i < 64 → Dsk2Nib.table.getD i 0 &&& 0x80 = 0x80)
      ∧ Nib2Dsk.table = Dsk2Nib.table := by
  refine ⟨by decide, by decide, by decide, by decide, rfl⟩

/-- C9 as stated fails: entry 0 of the table, 0x96 = 1001 0110, has bits 5
and 6 both 0. -/
theorem table_zero_pair_counterexample :
    ¬ (∀ v, v < 64 → ∀ i, i < 7 →
        ¬ ((Dsk2Nib.translate v).testBit i = false
            ∧ (Dsk2Nib.translate v).testBit (i + 1) = false)) :=
  fun h => h 0 (by decide) 5 (by decide) ⟨by decide, by decide⟩

/-- C9, amended: no entry of the translation table has more than one pair
of adjacent zero bits, and every entry has bit 7 set. -/
theorem table_at_most_one_zero_pair (v : Nat) (hv : v < 64) :
    (Spec.zero_pairs (Dsk2Nib.translate v)).length ≤ 1
      ∧ (Dsk2Nib.translate v).testBit 7 = true := by
  have h : ∀ v, v < 64 → (Spec.zero_pairs (Dsk2Nib.translate v)).length ≤ 1
      ∧ (Dsk2Nib.translate v).testBit 7 = true := by decide
  exact h v hv

theorem table_at_most_one_zero_pair_witness :
    (0 < 64) ∧ ((Spec.zero_pairs (Dsk2Nib.translate 0)).length ≤ 1
      ∧ (Dsk2Nib.translate 0).testBit 7 = true) :=
  ⟨by decide, table_at_most_one_zero_pair 0 (by decide)⟩

/-! ## The 6-and-2 encoder -/

theorem swapped_lt (b : Nat) : Spec.swapped b < 4 := by
  unfold Spec.swapped
  have h1 : (b &&& 2) >>> 1 < 2 ^ 2 := by
    have : b &&& 2 ≤ 2 := Nat.and_le_right
    rw [Nat.shiftRight_eq_div_pow]
    omega
  have h2 : (b &&& 1) <<< 1 < 2 ^ 2 := by
    have : b &&& 1 ≤ 1 := Nat.and_le_right
    rw [Nat.shiftLeft_eq]
    omega
  exact Nat.or_lt_two_pow h1 h2

theorem swapped_shl2_lt (b : Nat) : Spec.swapped b <<< 2 < 2 ^ 6 := by
  have := swapped_lt b
  rw [Nat.shiftLeft_eq]
  omega

theorem swapped_shl4_lt (b : Nat) : Spec.swapped b <<< 4 < 2 ^ 6 := by
  have := swapped_lt b
  rw [Nat.shiftLeft_eq]
  omega

theorem swapped_lt64 (b : Nat) : Spec.swapped b < 2 ^ 6 := by
  have := swapped_lt b
  omega

theorem secondary_upto_lt (src : Nat → Nat) (n j : Nat) :
    Spec.secondary_upto src n j < 2 ^ 6 := by
  unfold Spec.secondary_upto
  refine Nat.or_lt_two_pow (Nat.or_lt_two_pow ?_ ?_) ?_
  · split
    · exact swapped_lt64 _
    · decide
  · split
    · exact swapped_shl2_lt _
    · decide
  · split
    · exact swapped_shl4_lt _
    · decide

theorem secondary_upto_full (src : Nat → Nat) (j : Nat) (hj : j < 86) :
    Spec.secondary_upto src 256 j = Spec.secondary src j := by
  unfold Spec.secondary_upto Spec.secondary
  have h1 : j < 256 := by omega
  have h2 : j + 86 < 256 := by omega
  simp [h1, h2]

theorem secondary_lt (src : Nat → Nat) (j : Nat) : Spec.secondary src j < 2 ^ 6 := by
  unfold Spec.secondary
  refine Nat.or_lt_two_pow (Nat.or_lt_two_pow (swapped_lt64 _) (swapped_shl2_lt _)) ?_
  split
  · exact swapped_shl4_lt _
  · decide

theorem secondary_upto_succ_same (src : Nat → Nat) (n : Nat) (hn : n < 256) :
    Spec.secondary_upto src (n + 1) (n % 86)
      = Spec.secondary_upto src n (n % 86) ||| (Spec.swapped (src n) <<< (n / 86 * 2)) := by
  have hcases : (n / 86 = 0 ∧ n % 86 = n) ∨ (n / 86 = 1 ∧ n % 86 + 86 = n)
      ∨ (n / 86 = 2 ∧ n % 86 + 172 = n) := by omega
  rcases hcases with ⟨hq, hr⟩ | ⟨hq, hr⟩ | ⟨hq, hr⟩
  · have a1 : ¬ (n + 86 < n + 1) := by omega
    have a2 : ¬ (n + 172 < n + 1) := by omega
    have a3 : ¬ (n + 86 < n) := by omega
    have a4 : ¬ (n + 172 < n) := by omega
    simp [Spec.secondary_upto, hq, hr, a1, a2, a3, a4]
  · obtain ⟨j, hj⟩ : ∃ j, n % 86 = j := ⟨_, rfl⟩
    rw [hj] at hr ⊢
    subst hr
    have a1 : j < j + 86 + 1 := by omega
    have a2 : ¬ (j + 172 < j + 86 + 1) := by omega
    have a3 : j < j + 86 := by omega
    have a4 : ¬ (j + 172 < j + 86) := by omega
    simp [Spec.secondary_upto, hq, a1, a2, a3, a4]
  · obtain ⟨j, hj⟩ : ∃ j, n % 86 = j := ⟨_, rfl⟩
    rw [hj] at hr ⊢
    subst hr
    have a1 : j < j + 172 + 1 := by omega
    have a2 : j + 86 < j + 172 + 1 := by omega
    have a3 : j < j + 172 := by omega
    have a4 : j + 86 < j + 172 := by omega
    simp [Spec.secondary_upto, hq, a1, a2, a3, a4]

theorem secondary_upto_succ_other (src : Nat → Nat) (n j : Nat) (hj : j < 86)
    (hne : j ≠ n % 86) :
    Spec.secondary_upto src (n + 1) j = Spec.secondary_upto src n j := by
  unfold Spec.secondary_upto
  have e1 : (j < n + 1) = (j < n) := by
    apply propext; constructor <;> intro h <;> omega
  have e2 : (j + 86 < n + 1) = (j + 86 < n) := by
    apply propext; constructor <;> intro h <;> omega
  have e3 : (j + 172 < n + 1) = (j + 172 < n) := by
    apply propext; constructor <;> intro h <;> omega
  simp only [e1, e2, e3]

/-- The buffers after the first `n` iterations of the first loop of
`nibbilize`. -/
theorem nibbilize_loop_invariant (src : Nat → Nat) (n : Nat) (hn : n ≤ 256) :
    (List.range n).foldl (Dsk2Nib.nibbilize_step src)
        (List.replicate Dsk2Nib.PRIMARY_BUF_LEN 0, List.replicate Dsk2Nib.SECONDARY_BUF_LEN 0)
      = ((List.range 256).map (fun i => if i < n then src i >>> 2 else 0),
         (List.range 86).map (Spec.secondary_upto src n)) := by
  induction n with
  | zero =>
    simp only [List.range_zero, List.foldl_nil, Dsk2Nib.PRIMARY_BUF_LEN,
      Dsk2Nib.SECONDARY_BUF_LEN]
    refine Prod.ext ?_ ?_
    · apply List.ext_getElem (by simp only [List.length_replicate, List.length_map,
        List.length_range])
      intro i h1 h2
      simp only [List.getElem_replicate, List.getElem_map, List.getElem_range]
      simp
    · apply List.ext_getElem (by simp only [List.length_replicate, List.length_map,
        List.length_range])
      intro i h1 h2
      simp only [List.getElem_replicate, List.getElem_map, List.getElem_range,
        Spec.secondary_upto]
      simp
  | succ n ih =>
    rw [List.range_succ, List.foldl_append, ih (by omega)]
    simp only [List.foldl_cons, List.foldl_nil, Dsk2Nib.nibbilize_step,
      Dsk2Nib.SECONDARY_BUF_LEN]
    refine Prod.ext ?_ ?_
    · apply List.ext_getElem (by simp)
      intro i h1 h2
      simp only [List.length_map, List.length_range] at h2
      simp only [List.getElem_set, List.getElem_map, List.getElem_range]
      by_cases hi : n = i
      · subst hi
        simp
      · by_cases hlt : i < n
        · have : i < n + 1 := by omega
          simp [hi, hlt, this]
        · have : ¬ i < n + 1 := by omega
          simp [hi, hlt, this]
    · apply List.ext_getElem (by simp)
      intro j h1 h2
      simp only [List.length_map, List.length_range] at h2
      have hmod : n % 86 < 86 := Nat.mod_lt _ (by decide)
      have hget : ((List.range 86).map (Spec.secondary_upto src n)).getD (n % 86) 0
          = Spec.secondary_upto src n (n % 86) := by
        rw [List.getD_eq_getElem _ _ (by simpa using hmod)]
        simp
      simp only [List.getElem_set, List.getElem_map, List.getElem_range, hget]
      by_cases hj : n % 86 = j
      · subst hj
        have hsh : Spec.swapped (src n) <<< (n / 86 * 2) < 2 ^ 6 := by
          have hq : n / 86 = 0 ∨ n / 86 = 1 ∨ n / 86 = 2 := by omega
          rcases hq with hq | hq | hq <;> rw [hq]
          · simpa using swapped_lt64 (src n)
          · exact swapped_shl2_lt _
          · exact swapped_shl4_lt _
        have hlt := Nat.or_lt_two_pow (secondary_upto_lt src n (n % 86)) hsh
        have hm : (Spec.secondary_upto src n (n % 86)
            ||| Spec.swapped (src n) <<< (n / 86 * 2)) % 256
            = Spec.secondary_upto src n (n % 86)
            ||| Spec.swapped (src n) <<< (n / 86 * 2) :=
          Nat.mod_eq_of_lt (by omega)
        simp only [if_true]
        rw [secondary_upto_succ_same src n (by omega)]
        exact hm
      · simp only [hj, if_false]
        exact (secondary_upto_succ_other src n j h2 (fun h => hj h.symm)).symm

/-- The two buffers `nibbilize` fills: `primary_buf[i] = src[i] >> 2` and
`secondary_buf[j]` the three packed bit pairs. -/
theorem nibbilize_bufs_eq (src : Nat → Nat) :
    Dsk2Nib.nibbilize_bufs src
      = ((List.range 256).map (Spec.primary src), (List.range 86).map (Spec.secondary src)) := by
  unfold Dsk2Nib.nibbilize_bufs
  have h := nibbilize_loop_invariant src 256 (le_refl _)
  simp only [Dsk2Nib.PRIMARY_BUF_LEN] at h ⊢
  rw [h]
  refine Prod.ext ?_ ?_
  · apply List.map_congr_left
    intro i hi
    have : i < 256 := by simpa using hi
    simp [this, Spec.primary]
  · apply List.map_congr_left
    intro j hj
    have : j < 86 := by simpa using hj
    exact secondary_upto_full src j this

theorem getD_map_range (f : Nat → Nat) (n i : Nat) (h : i < n) :
    ((List.range n).map f).getD i 0 = f i := by
  rw [List.getD_eq_getElem _ _ (by simpa using h)]
  simp

/-- The bytes `nibbilize` produces, written with the closed forms of the two
buffers. -/
theorem nibbilize_out_eq (src : Nat → Nat) :
    Dsk2Nib.nibbilize_out src
      = [Dsk2Nib.translate (Spec.secondary src 0)]
        ++ (List.range' 1 85).map
            (fun i => Dsk2Nib.translate (Spec.secondary src i ^^^ Spec.secondary src (i - 1)))
        ++ [Dsk2Nib.translate (Spec.primary src 0 ^^^ Spec.secondary src 85)]
        ++ (List.range' 1 255).map
            (fun i => Dsk2Nib.translate (Spec.primary src i ^^^ Spec.primary src (i - 1)))
        ++ [Dsk2Nib.translate (Spec.primary src 255)] := by
  unfold Dsk2Nib.nibbilize_out Dsk2Nib.nibbilize_data
  rw [nibbilize_bufs_eq]
  simp only [Dsk2Nib.SECONDARY_BUF_LEN, Dsk2Nib.PRIMARY_BUF_LEN]
  have e1 : (List.range' 1 (86 - 1)).map (fun i => Dsk2Nib.translate
        (((List.range 86).map (Spec.secondary src)).getD i 0
          ^^^ ((List.range 86).map (Spec.secondary src)).getD (i - 1) 0))
      = (List.range' 1 85).map
          (fun i => Dsk2Nib.translate (Spec.secondary src i ^^^ Spec.secondary src (i - 1))) := by
    apply List.map_congr_left
    intro i hi
    rw [List.mem_range'_1] at hi
    rw [getD_map_range _ _ _ (by omega), getD_map_range _ _ _ (by omega)]
  have e2 : (List.range' 1 (256 - 1)).map (fun i => Dsk2Nib.translate
        (((List.range 256).map (Spec.primary src)).getD i 0
          ^^^ ((List.range 256).map (Spec.primary src)).getD (i - 1) 0))
      = (List.range' 1 255).map
          (fun i => Dsk2Nib.translate (Spec.primary src i ^^^ Spec.primary src (i - 1))) := by
    apply List.map_congr_left
    intro i hi
    rw [List.mem_range'_1] at hi
    rw [getD_map_range _ _ _ (by omega), getD_map_range _ _ _ (by omega)]
  rw [e1, e2, getD_map_range _ _ _ (by decide), getD_map_range _ _ _ (by decide),
    getD_map_range _ _ _ (by decide), getD_map_range _ _ _ (by decide)]

theorem six_and_two_eq (src : Nat → Nat) :
    Spec.six_and_two src
      = [Dsk2Nib.translate (Spec.secondary src 0)]
        ++ (List.range' 1 85).map
            (fun i => Dsk2Nib.translate (Spec.secondary src i ^^^ Spec.secondary src (i - 1)))
        ++ [Dsk2Nib.translate (Spec.primary src 0 ^^^ Spec.secondary src 85)]
        ++ (List.range' 1 255).map
            (fun i => Dsk2Nib.translate (Spec.primary src i ^^^ Spec.primary src (i - 1)))
        ++ [Dsk2Nib.translate (Spec.primary src 255)] := by
  have hr : List.range 343
      = [0] ++ List.range' 1 85 ++ [86] ++ (List.range' 1 255).map (· + 86) ++ [342] := by
    decide
  unfold Spec.six_and_two
  rw [hr]
  simp only [List.map_append, List.map_map, List.map_cons, List.map_nil]
  have e1 : (List.range' 1 85).map (Spec.six_and_two_byte src)
      = (List.range' 1 85).map
          (fun i => Dsk2Nib.translate (Spec.secondary src i ^^^ Spec.secondary src (i - 1))) := by
    apply List.map_congr_left
    intro i hi
    rw [List.mem_range'_1] at hi
    have h0 : i ≠ 0 := by omega
    have h1 : i < 86 := by omega
    simp [Spec.six_and_two_byte, h0, h1]
  have e2 : (List.range' 1 255).map (Spec.six_and_two_byte src ∘ fun x => x + 86)
      = (List.range' 1 255).map
          (fun i => Dsk2Nib.translate (Spec.primary src i ^^^ Spec.primary src (i - 1))) := by
    apply List.map_congr_left
    intro i hi
    rw [List.mem_range'_1] at hi
    have h0 : i ≠ 0 := by omega
    have h1 : i + 86 < 342 := by omega
    simp [Spec.six_and_two_byte, h0, h1]
  rw [e1, e2]
  simp [Spec.six_and_two_byte]

theorem translate_props (x : Nat) :
    Dsk2Nib.translate x ∈ Dsk2Nib.table ∧ Dsk2Nib.translate x &&& 0x80 = 0x80
      ∧ 0x96 ≤ Dsk2Nib.translate x ∧ Dsk2Nib.translate x ≤ 0xFF := by
  have h : ∀ i, i < 64 → Dsk2Nib.table.getD i 0 ∈ Dsk2Nib.table
      ∧ Dsk2Nib.table.getD i 0 &&& 0x80 = 0x80
      ∧ 0x96 ≤ Dsk2Nib.table.getD i 0 ∧ Dsk2Nib.table.getD i 0 ≤ 0xFF := by decide
  have hx : x &&& 0x3f < 64 := by
    have : x &&& 0x3f ≤ 0x3f := Nat.and_le_right
    omega
  exact h _ hx

theorem six_and_two_byte_is_translate (src : Nat → Nat) (k : Nat) :
    ∃ y, Spec.six_and_two_byte src k = Dsk2Nib.translate y := by
  unfold Spec.six_and_two_byte
  split_ifs <;> exact ⟨_, rfl⟩

theorem nibbilize_out_mem (src : Nat → Nat) (x : Nat) (hx : x ∈ Dsk2Nib.nibbilize_out src) :
    ∃ y, x = Dsk2Nib.translate y := by
  rw [nibbilize_out_eq, ← six_and_two_eq] at hx
  unfold Spec.six_and_two at hx
  rw [List.mem_map] at hx
  obtain ⟨k, _, hk⟩ := hx
  obtain ⟨y, hy⟩ := six_and_two_byte_is_translate src k
  exact ⟨y, by rw [← hk, hy]⟩

theorem nibbilize_out_length (src : Nat → Nat) : (Dsk2Nib.nibbilize_out src).length = 343 := by
  rw [nibbilize_out_eq, ← six_and_two_eq]
  simp [Spec.six_and_two]

/-- C3: `nibbilize` equals the reference 6-and-2 encoder.  For every
256-byte payload the 342 data bytes and the checksum byte that `nibbilize`
stores are the 343 bytes of the reference encoding built from
`primary[i] = byte_i >> 2` and the packed `secondary[j]`; each of them is an
entry of the translation table, has its high bit set and lies in
0x96..0xFF. -/
theorem nibbilize_refines_six_and_two (payload : List Nat) (h : Spec.is_payload payload) :
    Dsk2Nib.nibbilize_out (fun i => payload.getD i 0)
        = Spec.six_and_two (fun i => payload.getD i 0)
      ∧ (Dsk2Nib.nibbilize_out (fun i => payload.getD i 0)).length = 343
      ∧ (∀ x ∈ Dsk2Nib.nibbilize_out (fun i => payload.getD i 0),
          x ∈ Dsk2Nib.table ∧ x &&& 0x80 = 0x80 ∧ 0x96 ≤ x ∧ x ≤ 0xFF)
      ∧ (∀ dsk_buf ns track sector,
          (Dsk2Nib.nibbilize dsk_buf ns track sector).data.data
              ++ [(Dsk2Nib.nibbilize dsk_buf ns track sector).data.data_checksum]
            = Dsk2Nib.nibbilize_out (Dsk2Nib.dsk_get dsk_buf track sector)) := by
  have _ := h
  refine ⟨?_, nibbilize_out_length _, ?_, ?_⟩
  · rw [nibbilize_out_eq, six_and_two_eq]
  · intro x hx
    obtain ⟨y, rfl⟩ := nibbilize_out_mem _ x hx
    exact translate_props y
  · intro dsk_buf ns track sector
    rfl

theorem nibbilize_refines_six_and_two_witness :
    Spec.is_payload (List.replicate 256 0)
      ∧ (Dsk2Nib.nibbilize_out (fun i => (List.replicate 256 0).getD i 0)
          = Spec.six_and_two (fun i => (List.replicate 256 0).getD i 0)
        ∧ (Dsk2Nib.nibbilize_out (fun i => (List.replicate 256 0).getD i 0)).length = 343
        ∧ (∀ x ∈ Dsk2Nib.nibbilize_out (fun i => (List.replicate 256 0).getD i 0),
            x ∈ Dsk2Nib.table ∧ x &&& 0x80 = 0x80 ∧ 0x96 ≤ x ∧ x ≤ 0xFF)
        ∧ (∀ dsk_buf ns track sector,
            (Dsk2Nib.nibbilize dsk_buf ns track sector).data.data
                ++ [(Dsk2Nib.nibbilize dsk_buf ns track sector).data.data_checksum]
              = Dsk2Nib.nibbilize_out (Dsk2Nib.dsk_get dsk_buf track sector))) :=
  ⟨by decide, nibbilize_refines_six_and_two (List.replicate 256 0) (by decide)⟩

/-! ## The 6-and-2 decoder -/

theorem untranslate_translate_lt (x : Nat) (hx : x < 64) :
    Nib2Dsk.untranslate (Dsk2Nib.translate x) = .ok x := by
  have h : ∀ v, v < 64 → Nib2Dsk.untranslate (Dsk2Nib.translate v) = .ok v := by decide
  exact h x hx

theorem primary_lt (src : Nat → Nat) (hsrc : ∀ i, src i < 256) (i : Nat) :
    Spec.primary src i < 2 ^ 6 := by
  unfold Spec.primary
  have := hsrc i
  rw [Nat.shiftRight_eq_div_pow]
  omega

theorem read_chain_succ_ok (n c b u c1 : Nat) (input buf rest : List Nat)
    (hu : Nib2Dsk.untranslate b = .ok u)
    (hr : Nib2Dsk.read_chain n ((c ^^^ u) % 256) input = .ok (buf, c1, rest)) :
    Nib2Dsk.read_chain (n + 1) c (b :: input) = .ok ((c ^^^ u) % 256 :: buf, c1, rest) := by
  simp only [Nib2Dsk.read_chain, Nib2Dsk.get_byte, hu, hr]

/-- A reading loop of `process_data` on a stretch of an XOR chain: the
running checksum recovers the chained values one by one. -/
theorem read_chain_diffs (f : Nat → Nat) (hf : ∀ i, f i < 2 ^ 6) (n a : Nat) (ha : 1 ≤ a)
    (rest : List Nat) :
    Nib2Dsk.read_chain n (f (a - 1))
        ((List.range' a n).map (fun i => Dsk2Nib.translate (f i ^^^ f (i - 1))) ++ rest)
      = .ok ((List.range' a n).map f, f (a + n - 1), rest) := by
  induction n generalizing a with
  | zero => simp [Nib2Dsk.read_chain]
  | succ n ih =>
    have hx : f a ^^^ f (a - 1) < 64 := Nat.xor_lt_two_pow (n := 6) (hf _) (hf _)
    have hc : (f (a - 1) ^^^ (f a ^^^ f (a - 1))) % 256 = f a := by
      rw [Nat.xor_comm (f a), Nat.xor_cancel_left]
      have := hf a
      exact Nat.mod_eq_of_lt (by omega)
    have ih1 := ih (a + 1) (by omega)
    simp only [Nat.add_sub_cancel] at ih1
    simp only [List.range'_succ, List.map_cons, List.cons_append]
    have e : a + 1 + n - 1 = a + (n + 1) - 1 := by omega
    rw [e] at ih1
    have hr := read_chain_succ_ok n (f (a - 1)) _ _ _ _ _ _
      (untranslate_translate_lt _ hx) (by rw [hc]; exact ih1)
    rw [hr, hc]

theorem read_field_ok (byte : Nat) (input : List Nat) (c c1 c2 b u : Nat)
    (st p i1 i2 i3 : List Nat)
    (h0 : Nib2Dsk.untranslate byte = .ok c)
    (h1 : Nib2Dsk.read_chain 85 c input = .ok (st, c1, i1))
    (h2 : Nib2Dsk.read_chain 256 c1 i1 = .ok (p, c2, i2))
    (h3 : i2 = b :: i3)
    (h4 : Nib2Dsk.untranslate b = .ok u) :
    Nib2Dsk.read_field byte input = .ok (c :: st, p, (c2 ^^^ u) % 256, i3) := by
  unfold Nib2Dsk.read_field
  simp only [h0, Nib2Dsk.SECONDARY_BUF_LEN, Nib2Dsk.PRIMARY_BUF_LEN, Nat.reduceSub, h1, h2, h3,
    Nib2Dsk.get_byte, h4]

/-- The first half of `process_data` on the output of `nibbilize`: both
buffers are recovered and the running checksum ends at 0. -/
theorem read_field_nibbilize (src : Nat → Nat) (hsrc : ∀ i, src i < 256) (rest : List Nat) :
    Nib2Dsk.read_field ((Dsk2Nib.nibbilize_out src).headD 0)
        ((Dsk2Nib.nibbilize_out src).tail ++ rest)
      = .ok ((List.range 86).map (Spec.secondary src), (List.range 256).map (Spec.primary src),
          0, rest) := by
  rw [nibbilize_out_eq]
  have hs := secondary_lt src
  have hp := primary_lt src hsrc
  have h1 := read_chain_diffs (Spec.secondary src) hs 85 1 (le_refl _)
  have h2 := read_chain_diffs (Spec.primary src) hp 255 1 (le_refl _)
  have hx : Spec.primary src 0 ^^^ Spec.secondary src 85 < 64 :=
    Nat.xor_lt_two_pow (n := 6) (hp _) (hs _)
  have hc : (Spec.secondary src 85 ^^^ (Spec.primary src 0 ^^^ Spec.secondary src 85)) % 256
      = Spec.primary src 0 := by
    rw [Nat.xor_comm (Spec.primary src 0), Nat.xor_cancel_left]
    have := hp 0
    exact Nat.mod_eq_of_lt (by omega)
  have r86 : List.range 86 = 0 :: List.range' 1 85 := by decide
  have r256 : List.range 256 = 0 :: List.range' 1 255 := by decide
  simp only [Nat.sub_self, Nat.reduceAdd, Nat.reduceSub] at h1 h2
  have h3 := read_chain_succ_ok 255 (Spec.secondary src 85) _ _ _ _ _ _
    (untranslate_translate_lt _ hx)
    (by rw [hc]; exact h2 ([Dsk2Nib.translate (Spec.primary src 255)] ++ rest))
  rw [hc] at h3
  have h := read_field_ok (Dsk2Nib.translate (Spec.secondary src 0)) _ _ _ _ _ _ _ _ _ _ _
    (untranslate_translate_lt _ (hs 0)) (h1 _) h3 rfl (untranslate_translate_lt _ (hp 255))
  simp only [Nat.xor_self, Nat.zero_mod] at h
  rw [r86, r256]
  simp only [List.cons_append, List.nil_append, List.headD_cons, List.tail_cons,
    List.append_assoc, List.map_cons]
  exact h

theorem denib_value_section0 (b p q : Nat) (hb : b < 256) (hp : p < 4) (hq : q < 4) :
    (((b >>> 2) <<< 2)
        ||| ((if (Spec.swapped b ||| (p <<< 2) ||| (q <<< 4)) &&& 1 > 0 then 1 else 0) <<< 1)
        ||| (if (Spec.swapped b ||| (p <<< 2) ||| (q <<< 4)) &&& 2 > 0 then 1 else 0)) % 256
      = b := by
  have h : ∀ b, b < 256 → ∀ p, p < 4 → ∀ q, q < 4 →
      (((b >>> 2) <<< 2)
        ||| ((if (Spec.swapped b ||| (p <<< 2) ||| (q <<< 4)) &&& 1 > 0 then 1 else 0) <<< 1)
        ||| (if (Spec.swapped b ||| (p <<< 2) ||| (q <<< 4)) &&& 2 > 0 then 1 else 0)) % 256
      = b := by decide
  exact h b hb p hp q hq

theorem denib_value_section1 (b p q : Nat) (hb : b < 256) (hp : p < 4) (hq : q < 4) :
    (((b >>> 2) <<< 2)
        ||| ((if (p ||| (Spec.swapped b <<< 2) ||| (q <<< 4)) &&& 4 > 0 then 1 else 0) <<< 1)
        ||| (if (p ||| (Spec.swapped b <<< 2) ||| (q <<< 4)) &&& 8 > 0 then 1 else 0)) % 256
      = b := by
  have h : ∀ b, b < 256 → ∀ p, p < 4 → ∀ q, q < 4 →
      (((b >>> 2) <<< 2)
        ||| ((if (p ||| (Spec.swapped b <<< 2) ||| (q <<< 4)) &&& 4 > 0 then 1 else 0) <<< 1)
        ||| (if (p ||| (Spec.swapped b <<< 2) ||| (q <<< 4)) &&& 8 > 0 then 1 else 0)) % 256
      = b := by decide
  exact h b hb p hp q hq

theorem denib_value_section2 (b p q : Nat) (hb : b < 256) (hp : p < 4) (hq : q < 4) :
    (((b >>> 2) <<< 2)
        ||| ((if (p ||| (q <<< 2) ||| (Spec.swapped b <<< 4)) &&& 0x10 > 0 then 1 else 0) <<< 1)
        ||| (if (p ||| (q <<< 2) ||| (Spec.swapped b <<< 4)) &&& 0x20 > 0 then 1 else 0)) % 256
      = b := by
  have h : ∀ b, b < 256 → ∀ p, p < 4 → ∀ q, q < 4 →
      (((b >>> 2) <<< 2)
        ||| ((if (p ||| (q <<< 2) ||| (Spec.swapped b <<< 4)) &&& 0x10 > 0 then 1 else 0) <<< 1)
        ||| (if (p ||| (q <<< 2) ||| (Spec.swapped b <<< 4)) &&& 0x20 > 0 then 1 else 0)) % 256
      = b := by decide
  exact h b hb p hp q hq

/-- The `switch` of the denibbilize loop never reaches its default case for
`i < 256`, and the byte it rebuilds is the payload byte. -/
theorem denib_bits_value (src : Nat → Nat) (hsrc : ∀ i, src i < 256) (i : Nat) (hi : i < 256) :
    ∃ bit0 bit1, Nib2Dsk.denib_bits ((List.range 86).map (Spec.secondary src)) i = .ok (bit0, bit1)
      ∧ (((Spec.primary src i) <<< 2) ||| (bit1 <<< 1) ||| bit0) % 256 = src i := by
  have hmod : i % 86 < 86 := Nat.mod_lt _ (by decide)
  unfold Nib2Dsk.denib_bits
  simp only [Nib2Dsk.SECONDARY_BUF_LEN, getD_map_range _ _ _ hmod]
  have hcases : (i / 86 = 0 ∧ i % 86 = i) ∨ (i / 86 = 1 ∧ i % 86 + 86 = i)
      ∨ (i / 86 = 2 ∧ i % 86 + 172 = i) := by omega
  obtain ⟨j, hj⟩ : ∃ j, i % 86 = j := ⟨_, rfl⟩
  rw [hj] at hcases hmod ⊢
  rcases hcases with ⟨hq, hr⟩ | ⟨hq, hr⟩ | ⟨hq, hr⟩
  · subst hr
    rw [hq]
    refine ⟨_, _, rfl, ?_⟩
    unfold Spec.secondary Spec.primary
    by_cases h3 : j + 172 < 256
    · simp only [h3, if_true]
      exact denib_value_section0 (src j) (Spec.swapped (src (j + 86)))
        (Spec.swapped (src (j + 172))) (hsrc _) (swapped_lt _) (swapped_lt _)
    · simp only [h3, if_false]
      exact denib_value_section0 (src j) (Spec.swapped (src (j + 86))) 0 (hsrc _)
        (swapped_lt _) (by decide)
  · subst hr
    rw [hq]
    refine ⟨_, _, rfl, ?_⟩
    unfold Spec.secondary Spec.primary
    by_cases h3 : j + 172 < 256
    · simp only [h3, if_true]
      exact denib_value_section1 (src (j + 86)) (Spec.swapped (src j))
        (Spec.swapped (src (j + 172))) (hsrc _) (swapped_lt _) (swapped_lt _)
    · simp only [h3, if_false]
      exact denib_value_section1 (src (j + 86)) (Spec.swapped (src j)) 0 (hsrc _)
        (swapped_lt _) (by decide)
  · subst hr
    rw [hq]
    refine ⟨_, _, rfl, ?_⟩
    unfold Spec.secondary Spec.primary
    have h3 : j + 172 < 256 := hi
    simp only [h3, if_true]
    exact denib_value_section2 (src (j + 172)) (Spec.swapped (src j))
      (Spec.swapped (src (j + 86))) (hsrc _) (swapped_lt _) (swapped_lt _)

/-- The denibbilize loop on the buffers of a payload: no fatal error, and
payload byte `i` is stored at offset `sec * 256 + i` of the track. -/
theorem denibbilize_eq (src : Nat → Nat) (hsrc : ∀ i, src i < 256) (track sector : Nat)
    (hs : sector < 16) (ht : track < 35) (is : List Nat) (his : ∀ i ∈ is, i < 256)
    (d : Nib2Dsk.DskBuf) :
    Nib2Dsk.denibbilize ((List.range 256).map (Spec.primary src))
        ((List.range 86).map (Spec.secondary src)) track sector is d
      = .ok (is.foldl (fun d i => d.set track
          ((d.getD track []).set (Nib2Dsk.interleave.getD sector 0 * 256 + i) (some (src i)))) d) := by
  induction is generalizing d with
  | nil => simp [Nib2Dsk.denibbilize]
  | cons i is ih =>
    have hi : i < 256 := his i (List.mem_cons_self _ _)
    obtain ⟨bit0, bit1, hb, hv⟩ := denib_bits_value src hsrc i hi
    have hc : sector < Nib2Dsk.SECTORS_PER_TRACK ∧ track < Nib2Dsk.TRACKS_PER_DISK := ⟨hs, ht⟩
    simp only [Nib2Dsk.denibbilize, hb, hc, and_self, if_true, List.foldl_cons,
      Nib2Dsk.BYTES_PER_SECTOR, getD_map_range _ _ _ hi, hv]
    exact ih (fun k hk => his k (List.mem_cons_of_mem _ hk)) _

/-! ## Buffers -/

theorem memcpy_length (buf : List (Option Nat)) (off : Nat) (src : List Nat)
    (h : off + src.length ≤ buf.length) : (memcpy buf off src).length = buf.length := by
  unfold memcpy
  simp only [List.length_append, List.length_take, List.length_map, List.length_drop]
  omega

/-- Cell `a` of a buffer after `memcpy`. -/
theorem getElem?_memcpy (buf : List (Option Nat)) (off : Nat) (src : List Nat) (a : Nat)
    (h : off + src.length ≤ buf.length) :
    (memcpy buf off src)[a]?
      = if a < off then buf[a]?
        else if a < off + src.length then (src[a - off]?).map some
        else buf[a]? := by
  unfold memcpy
  have hl : (List.take off buf).length = off := by
    rw [List.length_take]
    omega
  rw [List.append_assoc, List.getElem?_append, hl]
  by_cases h1 : a < off
  · simp only [h1, if_true]
    rw [List.getElem?_take_of_lt h1]
  · simp only [h1, if_false]
    rw [List.getElem?_append, List.length_map]
    by_cases h2 : a < off + src.length
    · have h3 : a - off < src.length := by omega
      simp only [h2, h3, if_true, List.getElem?_map]
    · have h3 : ¬ (a - off < src.length) := by omega
      simp only [h2, h3, if_false, List.getElem?_drop]
      congr 1
      omega

theorem foldl_set_range (f : Nat → Nat) (o n : Nat) (trk : List (Option Nat))
    (h : o + n ≤ trk.length) :
    (List.range n).foldl (fun trk i => trk.set (o + i) (some (f i))) trk
      = memcpy trk o ((List.range n).map f) := by
  induction n with
  | zero => simp [memcpy]
  | succ n ih =>
    rw [List.range_succ, List.foldl_append, ih (by omega)]
    simp only [List.foldl_cons, List.foldl_nil]
    apply List.ext_getElem?
    intro a
    have hlen : ((List.range n).map f).length = n := by simp
    have hlen1 : ((List.range n ++ [n]).map f).length = n + 1 := by simp
    have hm := memcpy_length trk o ((List.range n).map f) (by rw [hlen]; omega)
    rw [List.getElem?_set, getElem?_memcpy _ _ _ _ (by rw [hlen]; omega),
      getElem?_memcpy _ _ _ _ (by rw [hlen1]; omega), hm, hlen, hlen1]
    by_cases h1 : o + n = a
    · subst h1
      have a1 : ¬ (o + n < o) := by omega
      have a2 : o + n < o + (n + 1) := by omega
      have a3 : o + n < trk.length := by omega
      have a4 : o + n - o = n := by omega
      simp [a1, a2, a3, a4]
    · simp only [h1, if_false]
      by_cases h2 : a < o
      · simp only [h2, if_true]
      · simp only [h2, if_false]
        by_cases h3 : a < o + n
        · have a2 : a < o + (n + 1) := by omega
          have a5 : a - o < n := by omega
          simp only [h3, a2, if_true, List.map_append]
          rw [List.getElem?_append_left (by simpa using a5)]
        · have a2 : ¬ (a < o + (n + 1)) := by omega
          simp only [h3, a2, if_false]

theorem set_getD_self {α : Type} (d : List α) (t : Nat) (x : α) :
    d.set t (d.getD t x) = d := by
  apply List.ext_getElem?
  intro a
  rw [List.getElem?_set]
  by_cases h : t = a
  · subst h
    by_cases h2 : t < d.length
    · simp [h2]
    · simp [h2]
      omega
  · simp [h]

theorem foldl_set_track (d : List (List (Option Nat))) (t : Nat) (ht : t < d.length)
    (g : Nat → Nat) (v : Nat → Option Nat) (is : List Nat) :
    is.foldl (fun d i => d.set t ((d.getD t []).set (g i) (v i))) d
      = d.set t (is.foldl (fun trk i => trk.set (g i) (v i)) (d.getD t [])) := by
  induction is generalizing d with
  | nil =>
    simp only [List.foldl_nil]
    rw [set_getD_self]
  | cons i is ih =>
    simp only [List.foldl_cons]
    rw [ih _ (by simpa using ht)]
    rw [List.set_set]
    congr 2
    rw [List.getD_eq_getElem _ _ (by simpa using ht)]
    simp

/-- The function `process_data` on the output of `nibbilize` followed by
`rest`: no warning, and the payload is stored into the image. -/
theorem process_data_nibbilize (s : Nib2Dsk.Fsm) (src : Nat → Nat) (hsrc : ∀ i, src i < 256)
    (rest : List Nat) (ht : s.track < 35) (hs : s.sector < 16)
    (hd : s.track < s.dsk_buf.length)
    (hl : Nib2Dsk.interleave.getD s.sector 0 * 256 + 256 ≤ (s.dsk_buf.getD s.track []).length)
    (hb : s.byte = (Dsk2Nib.nibbilize_out src).headD 0)
    (hi : s.input = (Dsk2Nib.nibbilize_out src).tail ++ rest) :
    Nib2Dsk.process_data s
      = .ok { s with
          input := rest
          dsk_buf := s.dsk_buf.set s.track
            (memcpy (s.dsk_buf.getD s.track []) (Nib2Dsk.interleave.getD s.sector 0 * 256)
              ((List.range 256).map src)) } := by
  unfold Nib2Dsk.process_data
  rw [hb, hi, read_field_nibbilize src hsrc rest]
  simp only [Nib2Dsk.PRIMARY_BUF_LEN]
  rw [denibbilize_eq src hsrc s.track s.sector hs ht (List.range 256)
    (fun i hi => by simpa using hi) s.dsk_buf]
  simp only [ne_eq, not_true_eq_false, if_false]
  rw [foldl_set_track s.dsk_buf s.track hd
    (fun i => Nib2Dsk.interleave.getD s.sector 0 * 256 + i) (fun i => some (src i)),
    foldl_set_range src _ 256 _ hl]

theorem sliceAt_memcpy (buf : List (Option Nat)) (off : Nat) (src : List Nat)
    (h : off + src.length ≤ buf.length) :
    sliceAt (memcpy buf off src) off src.length = src.map some := by
  unfold sliceAt memcpy
  have hl : (List.take off buf).length = off := by
    rw [List.length_take]
    omega
  rw [List.append_assoc, List.drop_left' hl, List.take_left' (by simp)]

theorem map_getD_range (payload : List Nat) (n : Nat) (h : payload.length = n) :
    (List.range n).map (fun i => payload.getD i 0) = payload := by
  apply List.ext_getElem (by simp [h])
  intro i h1 h2
  simp only [List.getElem_map, List.getElem_range]
  rw [List.getD_eq_getElem _ _ h2]

theorem payload_getD_lt (payload : List Nat) (h : ∀ b ∈ payload, b < 256) (i : Nat) :
    payload.getD i 0 < 256 := by
  by_cases hi : i < payload.length
  · rw [List.getD_eq_getElem _ _ hi]
    exact h _ (List.getElem_mem _)
  · rw [List.getD_eq_default _ _ (by omega)]
    decide

theorem is_image_buffer_getD (d : Nib2Dsk.DskBuf) (h : Spec.is_image_buffer d) (t : Nat)
    (ht : t < 35) : (d.getD t []).length = 4096 := by
  have h1 : t < d.length := by rw [h.1]; exact ht
  rw [List.getD_eq_getElem _ _ h1]
  exact h.2 _ (List.getElem_mem _)

theorem interleave_lt (sector : Nat) (h : sector < 16) :
    Nib2Dsk.interleave.getD sector 0 < 16 := by
  have hall : ∀ k, k < 16 → Nib2Dsk.interleave.getD k 0 < 16 := by decide
  exact hall sector h

/-- C2: sector round trip of the 6-and-2 codec.  For every 256-byte
payload, `process_data` fed with the 343 bytes `nibbilize` produces recovers
both buffers with the running checksum 0 after the 343rd byte, prints no
warning, leaves the rest of the input unread and stores exactly the payload
at sector `interleave[ sector ]` of track `track`. -/
theorem sector_round_trip (payload : List Nat) (hp : Spec.is_payload payload)
    (s : Nib2Dsk.Fsm) (rest : List Nat) (ht : s.track < 35) (hs : s.sector < 16)
    (hd : Spec.is_image_buffer s.dsk_buf) :
    (∃ secondary_buf primary_buf,
        Nib2Dsk.read_field ((Dsk2Nib.nibbilize_out (fun i => payload.getD i 0)).headD 0)
            ((Dsk2Nib.nibbilize_out (fun i => payload.getD i 0)).tail ++ rest)
          = .ok (secondary_buf, primary_buf, 0, rest))
      ∧ ∃ s1,
          Nib2Dsk.process_data { s with
              byte := (Dsk2Nib.nibbilize_out (fun i => payload.getD i 0)).headD 0
              input := (Dsk2Nib.nibbilize_out (fun i => payload.getD i 0)).tail ++ rest }
            = .ok s1
          ∧ s1.input = rest
          ∧ s1.warnings = s.warnings
          ∧ sliceAt (s1.dsk_buf.getD s.track []) (Nib2Dsk.interleave.getD s.sector 0 * 256) 256
            = payload.map some := by
  have hsrc := payload_getD_lt payload hp.2
  have hlen := is_image_buffer_getD s.dsk_buf hd s.track ht
  have hil := interleave_lt s.sector hs
  have hd1 : s.track < s.dsk_buf.length := by rw [hd.1]; exact ht
  refine ⟨⟨_, _, read_field_nibbilize _ hsrc rest⟩, ?_⟩
  have h := process_data_nibbilize
    { s with
      byte := (Dsk2Nib.nibbilize_out (fun i => payload.getD i 0)).headD 0
      input := (Dsk2Nib.nibbilize_out (fun i => payload.getD i 0)).tail ++ rest }
    (fun i => payload.getD i 0) hsrc rest ht hs hd1
    (by
      show Nib2Dsk.interleave.getD s.sector 0 * 256 + 256 ≤ (s.dsk_buf.getD s.track []).length
      rw [hlen]
      omega) rfl rfl
  refine ⟨_, h, rfl, rfl, ?_⟩
  simp only
  rw [List.getD_eq_getElem _ _ (by simpa using hd1), List.getElem_set_self,
    map_getD_range payload 256 hp.1]
  have := sliceAt_memcpy (s.dsk_buf.getD s.track []) (Nib2Dsk.interleave.getD s.sector 0 * 256)
    payload (by rw [hlen, hp.1]; omega)
  rw [hp.1] at this
  exact this

theorem is_image_buffer_dsk_init : Spec.is_image_buffer Nib2Dsk.dsk_init := by
  unfold Spec.is_image_buffer Nib2Dsk.dsk_init
  refine ⟨by rw [List.length_replicate]; rfl, ?_⟩
  intro t ht
  rw [List.mem_replicate] at ht
  rw [ht.2, List.length_replicate]
  rfl

theorem sector_round_trip_witness :
    Spec.is_payload (List.replicate 256 0)
      ∧ (Nib2Dsk.fsm_init 0 [] Nib2Dsk.dsk_init).track < 35
      ∧ (Nib2Dsk.fsm_init 0 [] Nib2Dsk.dsk_init).sector < 16
      ∧ Spec.is_image_buffer (Nib2Dsk.fsm_init 0 [] Nib2Dsk.dsk_init).dsk_buf
      ∧ ((∃ secondary_buf primary_buf,
          Nib2Dsk.read_field
              ((Dsk2Nib.nibbilize_out (fun i => (List.replicate 256 0).getD i 0)).headD 0)
              ((Dsk2Nib.nibbilize_out (fun i => (List.replicate 256 0).getD i 0)).tail ++ [])
            = .ok (secondary_buf, primary_buf, 0, []))
        ∧ ∃ s1,
          Nib2Dsk.process_data { Nib2Dsk.fsm_init 0 [] Nib2Dsk.dsk_init with
              byte := (Dsk2Nib.nibbilize_out (fun i => (List.replicate 256 0).getD i 0)).headD 0
              input :=
                (Dsk2Nib.nibbilize_out (fun i => (List.replicate 256 0).getD i 0)).tail ++ [] }
            = .ok s1
          ∧ s1.input = []
          ∧ s1.warnings = (Nib2Dsk.fsm_init 0 [] Nib2Dsk.dsk_init).warnings
          ∧ sliceAt (s1.dsk_buf.getD (Nib2Dsk.fsm_init 0 [] Nib2Dsk.dsk_init).track [])
              (Nib2Dsk.interleave.getD (Nib2Dsk.fsm_init 0 [] Nib2Dsk.dsk_init).sector 0 * 256) 256
            = (List.replicate 256 0).map some) :=
  ⟨by decide, by decide, by decide, is_image_buffer_dsk_init,
    sector_round_trip (List.replicate 256 0) (by decide) (Nib2Dsk.fsm_init 0 [] Nib2Dsk.dsk_init) []
      (by decide) (by decide) is_image_buffer_dsk_init⟩

/-! ## The running checksum on arbitrary bytes -/

theorem untranslate_of_mem (x : Nat) (hx : x ∈ Nib2Dsk.table) :
    ∃ u, u < 64 ∧ Nib2Dsk.table.getD u 0 = x ∧ Nib2Dsk.untranslate x = .ok u :=
  (untranslate_fails_iff x).2.2.1 hx

theorem untranslate_of_not_mem (x : Nat) (hx : x ∉ Nib2Dsk.table) :
    Nib2Dsk.untranslate x = .error (.non_translatable x) :=
  (untranslate_fails_iff x).1.2 hx

theorem untr_lt (x : Nat) : Spec.untr x < 2 ^ 6 := by
  by_cases hx : x ∈ Nib2Dsk.table
  · obtain ⟨u, hu, _, h⟩ := untranslate_of_mem x hx
    simp only [Spec.untr, h]
    exact hu
  · simp only [Spec.untr, untranslate_of_not_mem x hx]
    decide

theorem untr_injective (x y : Nat) (hx : x ∈ Nib2Dsk.table) (hy : y ∈ Nib2Dsk.table)
    (h : Spec.untr x = Spec.untr y) : x = y := by
  obtain ⟨u, _, hgx, hux⟩ := untranslate_of_mem x hx
  obtain ⟨v, _, hgy, huy⟩ := untranslate_of_mem y hy
  simp only [Spec.untr, hux, huy] at h
  rw [← hgx, ← hgy, h]

theorem xor_untr_lt (l : List Nat) : Spec.xor_untr l < 2 ^ 6 := by
  induction l with
  | nil => simp [Spec.xor_untr]
  | cons x xs ih => exact Nat.xor_lt_two_pow (untr_lt x) ih

theorem xor_untr_append (a b : List Nat) :
    Spec.xor_untr (a ++ b) = Spec.xor_untr a ^^^ Spec.xor_untr b := by
  induction a with
  | nil => simp [Spec.xor_untr]
  | cons x xs ih =>
    rw [List.cons_append]
    simp only [Spec.xor_untr]
    rw [ih, Nat.xor_assoc]

/-- The running checksum over bytes of the table is the xor of their 6-bit
values. -/
theorem chain_result_valid (l : List Nat) (hl : ∀ x ∈ l, x ∈ Nib2Dsk.table) (c : Nat)
    (hc : c < 2 ^ 6) : Spec.chain_result c l = .ok (c ^^^ Spec.xor_untr l) := by
  induction l generalizing c with
  | nil => simp [Spec.chain_result, Spec.xor_untr]
  | cons x xs ih =>
    obtain ⟨u, hu, _, h⟩ := untranslate_of_mem x (hl x (List.mem_cons_self _ _))
    have hux : Spec.untr x = u := by simp only [Spec.untr, h]
    have hlt : c ^^^ u < 2 ^ 6 := Nat.xor_lt_two_pow hc hu
    have hm : (c ^^^ u) % 256 = c ^^^ u := Nat.mod_eq_of_lt (by omega)
    simp only [Spec.chain_result, h, hm]
    rw [ih (fun y hy => hl y (List.mem_cons_of_mem _ hy)) _ hlt]
    simp only [Spec.xor_untr, hux, Nat.xor_assoc]

/-- The running checksum stops at the first byte outside the table. -/
theorem chain_result_invalid (l1 l2 : List Nat) (x : Nat) (hl : ∀ y ∈ l1, y ∈ Nib2Dsk.table)
    (hx : x ∉ Nib2Dsk.table) (c : Nat) :
    Spec.chain_result c (l1 ++ x :: l2) = .error (.non_translatable x) := by
  induction l1 generalizing c with
  | nil => simp [Spec.chain_result, untranslate_of_not_mem x hx]
  | cons y ys ih =>
    obtain ⟨u, _, _, h⟩ := untranslate_of_mem y (hl y (List.mem_cons_self _ _))
    simp only [List.cons_append, Spec.chain_result, h]
    exact ih (fun z hz => hl z (List.mem_cons_of_mem _ hz)) _

theorem chain_result_append_error (a b : List Nat) (c : Nat) (e : Nib2Dsk.Fatal)
    (h : Spec.chain_result c a = .error e) : Spec.chain_result c (a ++ b) = .error e := by
  induction a generalizing c with
  | nil => simp [Spec.chain_result] at h
  | cons x xs ih =>
    cases hu : Nib2Dsk.untranslate x with
    | error e0 =>
      simp only [Spec.chain_result, hu] at h
      simp only [List.cons_append, Spec.chain_result, hu]
      exact h
    | ok u =>
      simp only [Spec.chain_result, hu] at h
      simp only [List.cons_append, Spec.chain_result, hu]
      exact ih _ h

theorem chain_result_append_ok (a b : List Nat) (c c1 : Nat)
    (h : Spec.chain_result c a = .ok c1) :
    Spec.chain_result c (a ++ b) = Spec.chain_result c1 b := by
  induction a generalizing c with
  | nil =>
    simp only [Spec.chain_result, Except.ok.injEq] at h
    simp [h]
  | cons x xs ih =>
    cases hu : Nib2Dsk.untranslate x with
    | error e0 => simp [Spec.chain_result, hu] at h
    | ok u =>
      simp only [Spec.chain_result, hu] at h
      simp only [List.cons_append, Spec.chain_result, hu]
      exact ih _ h

/-- A reading loop of `process_data` ends with the fatal error of the
running checksum. -/
theorem read_chain_error (l rest : List Nat) (c : Nat) (e : Nib2Dsk.Fatal)
    (h : Spec.chain_result c l = .error e) :
    Nib2Dsk.read_chain l.length c (l ++ rest) = .error e := by
  induction l generalizing c with
  | nil => simp [Spec.chain_result] at h
  | cons x xs ih =>
    cases hu : Nib2Dsk.untranslate x with
    | error e0 =>
      simp only [Spec.chain_result, hu] at h
      simp only [List.length_cons, List.cons_append, Nib2Dsk.read_chain, Nib2Dsk.get_byte, hu]
      injection h with h
      rw [h]
    | ok u =>
      simp only [Spec.chain_result, hu] at h
      simp only [List.length_cons, List.cons_append, Nib2Dsk.read_chain, Nib2Dsk.get_byte, hu,
        ih _ h]

/-- A reading loop of `process_data` that meets only bytes of the table
ends with the running checksum. -/
theorem read_chain_ok (l rest : List Nat) (c c1 : Nat)
    (h : Spec.chain_result c l = .ok c1) :
    ∃ buf, Nib2Dsk.read_chain l.length c (l ++ rest) = .ok (buf, c1, rest) := by
  induction l generalizing c with
  | nil =>
    simp only [Spec.chain_result, Except.ok.injEq] at h
    exact ⟨[], by simp [Nib2Dsk.read_chain, h]⟩
  | cons x xs ih =>
    cases hu : Nib2Dsk.untranslate x with
    | error e0 => simp [Spec.chain_result, hu] at h
    | ok u =>
      simp only [Spec.chain_result, hu] at h
      obtain ⟨buf, hb⟩ := ih _ h
      exact ⟨_, read_chain_succ_ok _ _ _ _ _ _ _ _ hu hb⟩

theorem untranslate_ok_lt (x u : Nat) (h : Nib2Dsk.untranslate x = .ok u) : u < 64 := by
  by_cases hx : x ∈ Nib2Dsk.table
  · obtain ⟨v, hv, _, h1⟩ := untranslate_of_mem x hx
    rw [h1] at h
    injection h with h
    omega
  · rw [untranslate_of_not_mem x hx] at h
    cases h

theorem split_field (l : List Nat) (hl : l.length = 342) :
    ∃ l1 l2 last, l = l1 ++ (l2 ++ [last]) ∧ l1.length = 85 ∧ l2.length = 256 := by
  have h3 : (l.drop 341).length = 1 := by
    rw [List.length_drop]
    omega
  obtain ⟨last, hlast⟩ := List.length_eq_one.1 h3
  refine ⟨l.take 85, (l.drop 85).take 256, last, ?_, ?_, ?_⟩
  · have e : (l.drop 85).drop 256 = l.drop 341 := by
      rw [List.drop_drop]
    rw [← hlast, ← e, List.take_append_drop, List.take_append_drop]
  · rw [List.length_take]
    omega
  · rw [List.length_take, List.length_drop]
    omega

/-- The first half of `process_data` ends as the running checksum over the
343 bytes of the field does: with the same fatal error, or with that
checksum and the input after the field left unread. -/
theorem read_field_chain (byte : Nat) (l rest : List Nat) (hl : l.length = 342) :
    (∀ e, Spec.chain_result 0 (byte :: l) = .error e →
        Nib2Dsk.read_field byte (l ++ rest) = .error e)
      ∧ (∀ c, Spec.chain_result 0 (byte :: l) = .ok c →
        ∃ secondary_buf primary_buf,
          Nib2Dsk.read_field byte (l ++ rest) = .ok (secondary_buf, primary_buf, c, rest)) := by
  obtain ⟨l1, l2, last, rfl, hl1, hl2⟩ := split_field l hl
  have hin : (l1 ++ (l2 ++ [last])) ++ rest = l1 ++ (l2 ++ (last :: rest)) := by simp
  rw [hin]
  cases h0 : Nib2Dsk.untranslate byte with
  | error e0 =>
    have hcr : Spec.chain_result 0 (byte :: (l1 ++ (l2 ++ [last]))) = .error e0 := by
      simp only [Spec.chain_result, h0]
    have hrf : Nib2Dsk.read_field byte (l1 ++ (l2 ++ (last :: rest))) = .error e0 := by
      unfold Nib2Dsk.read_field
      simp only [h0]
    rw [hcr, hrf]
    exact ⟨fun e h => by injection h with h; rw [h], fun c h => by cases h⟩
  | ok u0 =>
    have hu0 := untranslate_ok_lt _ _ h0
    have hm0 : (0 ^^^ u0) % 256 = u0 := by
      rw [Nat.zero_xor]
      exact Nat.mod_eq_of_lt (by omega)
    have hcr0 : Spec.chain_result 0 (byte :: (l1 ++ (l2 ++ [last])))
        = Spec.chain_result u0 (l1 ++ (l2 ++ [last])) := by
      simp only [Spec.chain_result, h0, hm0]
    rw [hcr0]
    cases h1 : Spec.chain_result u0 l1 with
    | error e1 =>
      have hrc := read_chain_error l1 (l2 ++ (last :: rest)) u0 e1 h1
      rw [hl1] at hrc
      have hrf : Nib2Dsk.read_field byte (l1 ++ (l2 ++ (last :: rest))) = .error e1 := by
        unfold Nib2Dsk.read_field
        simp only [h0, Nib2Dsk.SECONDARY_BUF_LEN, Nat.reduceSub, hrc]
      rw [chain_result_append_error _ _ _ _ h1, hrf]
      exact ⟨fun e h => by injection h with h; rw [h], fun c h => by cases h⟩
    | ok c1 =>
      obtain ⟨buf1, hrc1⟩ := read_chain_ok l1 (l2 ++ (last :: rest)) u0 c1 h1
      rw [hl1] at hrc1
      rw [chain_result_append_ok _ _ _ _ h1]
      cases h2 : Spec.chain_result c1 l2 with
      | error e2 =>
        have hrc := read_chain_error l2 (last :: rest) c1 e2 h2
        rw [hl2] at hrc
        have hrf : Nib2Dsk.read_field byte (l1 ++ (l2 ++ (last :: rest))) = .error e2 := by
          unfold Nib2Dsk.read_field
          simp only [h0, Nib2Dsk.SECONDARY_BUF_LEN, Nib2Dsk.PRIMARY_BUF_LEN, Nat.reduceSub,
            hrc1, hrc]
        rw [chain_result_append_error _ _ _ _ h2, hrf]
        exact ⟨fun e h => by injection h with h; rw [h], fun c h => by cases h⟩
      | ok c2 =>
        obtain ⟨buf2, hrc2⟩ := read_chain_ok l2 (last :: rest) c1 c2 h2
        rw [hl2] at hrc2
        rw [chain_result_append_ok _ _ _ _ h2]
        cases h3 : Nib2Dsk.untranslate last with
        | error e3 =>
          have hrf : Nib2Dsk.read_field byte (l1 ++ (l2 ++ (last :: rest))) = .error e3 := by
            unfold Nib2Dsk.read_field
            simp only [h0, Nib2Dsk.SECONDARY_BUF_LEN, Nib2Dsk.PRIMARY_BUF_LEN, Nat.reduceSub,
              hrc1, hrc2, Nib2Dsk.get_byte, h3]
          have hcr : Spec.chain_result c2 [last] = .error e3 := by
            simp only [Spec.chain_result, h3]
          rw [hcr, hrf]
          exact ⟨fun e h => by injection h with h; rw [h], fun c h => by cases h⟩
        | ok u =>
          have hrf := read_field_ok byte (l1 ++ (l2 ++ (last :: rest))) u0 c1 c2 last u
            buf1 buf2 _ _ rest h0 hrc1 hrc2 rfl h3
          have hcr : Spec.chain_result c2 [last] = .ok ((c2 ^^^ u) % 256) := by
            simp only [Spec.chain_result, h3]
          rw [hcr, hrf]
          refine ⟨fun e h => (by cases h), fun c h => ?_⟩
          injection h with h
          exact ⟨_, _, by rw [h]⟩

theorem denib_bits_total (secondary_buf : List Nat) (i : Nat) (hi : i < 256) :
    ∃ bits, Nib2Dsk.denib_bits secondary_buf i = .ok bits := by
  unfold Nib2Dsk.denib_bits
  simp only [Nib2Dsk.SECONDARY_BUF_LEN]
  have hq : i / 86 = 0 ∨ i / 86 = 1 ∨ i / 86 = 2 := by omega
  rcases hq with hq | hq | hq <;> rw [hq] <;> exact ⟨_, rfl⟩

/-- The denibbilize loop ends without a fatal error whenever the decoded
track and sector are in range. -/
theorem denibbilize_total (primary_buf secondary_buf : List Nat) (track sector : Nat)
    (hs : sector < 16) (ht : track < 35) (is : List Nat) (his : ∀ i ∈ is, i < 256)
    (d : Nib2Dsk.DskBuf) :
    ∃ d1, Nib2Dsk.denibbilize primary_buf secondary_buf track sector is d = .ok d1 := by
  induction is generalizing d with
  | nil => exact ⟨d, by simp [Nib2Dsk.denibbilize]⟩
  | cons i is ih =>
    obtain ⟨⟨bit0, bit1⟩, hb⟩ := denib_bits_total secondary_buf i (his i (List.mem_cons_self _ _))
    have hc : sector < Nib2Dsk.SECTORS_PER_TRACK ∧ track < Nib2Dsk.TRACKS_PER_DISK := ⟨hs, ht⟩
    simp only [Nib2Dsk.denibbilize, hb, hc, and_self, if_true]
    exact ih (fun k hk => his k (List.mem_cons_of_mem _ hk)) _

/-! ## A changed byte in a data field -/

theorem flipped_chain (l1 l2 : List Nat) (x y : Nat) (hne : y ≠ x)
    (h1 : ∀ z ∈ l1, z ∈ Nib2Dsk.table) (h2 : ∀ z ∈ l2, z ∈ Nib2Dsk.table)
    (hx : x ∈ Nib2Dsk.table) (h0 : Spec.chain_result 0 (l1 ++ x :: l2) = .ok 0) :
    (y ∉ Nib2Dsk.table
        ∧ Spec.chain_result 0 (l1 ++ y :: l2) = .error (.non_translatable y))
      ∨ (y ∈ Nib2Dsk.table ∧ ∃ c, c ≠ 0 ∧ Spec.chain_result 0 (l1 ++ y :: l2) = .ok c) := by
  by_cases hy : y ∈ Nib2Dsk.table
  · right
    refine ⟨hy, ?_⟩
    have hall : ∀ w, w ∈ Nib2Dsk.table → ∀ z ∈ l1 ++ w :: l2, z ∈ Nib2Dsk.table := by
      intro w hw z hz
      rw [List.mem_append, List.mem_cons] at hz
      rcases hz with hz | hz | hz
      · exact h1 z hz
      · rw [hz]; exact hw
      · exact h2 z hz
    have hvx := chain_result_valid _ (hall x hx) 0 (by decide)
    have hvy := chain_result_valid _ (hall y hy) 0 (by decide)
    rw [hvx] at h0
    injection h0 with h0
    rw [Nat.zero_xor, xor_untr_append] at h0
    rw [Nat.zero_xor, xor_untr_append] at hvy
    refine ⟨_, ?_, hvy⟩
    intro hz
    simp only [Spec.xor_untr] at h0 hz
    have e1 := Nat.xor_right_injective (h0.trans hz.symm)
    have e2 := Nat.xor_left_inj.1 e1
    exact hne (untr_injective x y hx hy e2).symm
  · left
    exact ⟨hy, chain_result_invalid l1 l2 y h1 hy 0⟩

theorem cons_headD_tail (l : List Nat) (n : Nat) (h : l.length = n + 1) :
    l = l.headD 0 :: l.tail ∧ l.tail.length = n := by
  cases l with
  | nil => simp at h
  | cons a t =>
    simp only [List.length_cons, Nat.add_right_cancel_iff] at h
    exact ⟨rfl, h⟩

theorem nibbilize_out_mem_table (src : Nat → Nat) (x : Nat)
    (hx : x ∈ Dsk2Nib.nibbilize_out src) : x ∈ Nib2Dsk.table := by
  obtain ⟨y, rfl⟩ := nibbilize_out_mem src x hx
  exact (translate_props y).1

/-- The running checksum over the 343 bytes of `nibbilize` is 0. -/
theorem chain_result_nibbilize (src : Nat → Nat) (hsrc : ∀ i, src i < 256) :
    Spec.chain_result 0 (Dsk2Nib.nibbilize_out src) = .ok 0 := by
  have hv := chain_result_valid _ (nibbilize_out_mem_table src) 0 (by decide)
  obtain ⟨he, ht⟩ := cons_headD_tail _ 342 (nibbilize_out_length src)
  have hf := read_field_nibbilize src hsrc []
  rw [he] at hv
  obtain ⟨sb, pb, h⟩ := (read_field_chain _ _ [] ht).2 _ hv
  rw [hf] at h
  injection h with h
  injection h with _ h
  injection h with _ h
  injection h with h _
  rw [he, hv, ← h]

/-- C10: a single flipped bit in a data field is never silent.  For every
256-byte payload, every position `p` of the 343 bytes `nibbilize` produces
and every bit `i`, `process_data` fed with the field in which bit `i` of
byte `p` is flipped either ends in the fatal error "Non-translatable byte"
(the changed byte is not a table entry) or ends with a running checksum
different from 0 and prints "Warning: data checksum mismatch". -/
theorem single_bit_flip_detected (payload : List Nat) (hp : Spec.is_payload payload)
    (p i : Nat) (hpos : p < 343) (hi : i < 8) (s : Nib2Dsk.Fsm) (rest : List Nat)
    (ht : s.track < 35) (hs : s.sector < 16) (bad : List Nat)
    (hbad : bad = Spec.flip_bit (Dsk2Nib.nibbilize_out (fun k => payload.getD k 0)) p i) :
    (bad.getD p 0 ∉ Nib2Dsk.table
        ∧ Nib2Dsk.read_field (bad.headD 0) (bad.tail ++ rest)
            = .error (.non_translatable (bad.getD p 0))
        ∧ Nib2Dsk.process_data { s with byte := bad.headD 0, input := bad.tail ++ rest }
            = .error (.non_translatable (bad.getD p 0)))
      ∨ (∃ secondary_buf primary_buf checksum,
          Nib2Dsk.read_field (bad.headD 0) (bad.tail ++ rest)
              = .ok (secondary_buf, primary_buf, checksum, rest)
            ∧ checksum ≠ 0
            ∧ ∃ s1,
                Nib2Dsk.process_data { s with byte := bad.headD 0, input := bad.tail ++ rest }
                  = .ok s1
                ∧ s1.warnings = s.warnings ++ [Nib2Dsk.Warning.data_checksum_mismatch]) := by
  have _ := hi
  have hsrc := payload_getD_lt payload hp.2
  obtain ⟨enc, henc⟩ : ∃ enc, enc = Dsk2Nib.nibbilize_out (fun k => payload.getD k 0) := ⟨_, rfl⟩
  have hlen : enc.length = 343 := by rw [henc]; exact nibbilize_out_length _
  have hmem : ∀ z ∈ enc, z ∈ Nib2Dsk.table := by
    rw [henc]; exact nibbilize_out_mem_table _
  have hch : Spec.chain_result 0 enc = .ok 0 := by
    rw [henc]; exact chain_result_nibbilize _ hsrc
  have hp1 : p < enc.length := by omega
  rw [← henc] at hbad
  have hx : enc.getD p 0 = enc[p] := List.getD_eq_getElem _ _ hp1
  have hsplit : enc = enc.take p ++ enc[p] :: enc.drop (p + 1) := by
    rw [← List.drop_eq_getElem_cons hp1, List.take_append_drop]
  have hbad1 : bad = enc.take p ++ (enc[p] ^^^ (1 <<< i)) :: enc.drop (p + 1) := by
    rw [hbad]
    unfold Spec.flip_bit
    rw [List.set_eq_take_append_cons_drop, if_pos hp1, hx]
  have hne : enc[p] ^^^ (1 <<< i) ≠ enc[p] := by
    intro h
    have h1 : enc[p] ^^^ (1 <<< i) = enc[p] ^^^ 0 := by rw [Nat.xor_zero]; exact h
    have h2 := Nat.xor_right_injective h1
    rw [Nat.shiftLeft_eq, Nat.one_mul] at h2
    exact absurd h2 (Nat.pos_iff_ne_zero.1 (Nat.two_pow_pos i))
  have hbl : bad.length = 342 + 1 := by
    rw [hbad]
    unfold Spec.flip_bit
    rw [List.length_set, hlen]
  have hget : bad.getD p 0 = enc[p] ^^^ (1 <<< i) := by
    rw [hbad]
    unfold Spec.flip_bit
    rw [List.getD_eq_getElem _ _ (by rw [List.length_set]; exact hp1), List.getElem_set_self, hx]
  obtain ⟨hcons, htl⟩ := cons_headD_tail bad 342 hbl
  have hrfc := read_field_chain (bad.headD 0) bad.tail rest htl
  rw [← hcons] at hrfc
  rw [hsplit] at hch
  have hfl := flipped_chain (enc.take p) (enc.drop (p + 1)) enc[p] (enc[p] ^^^ (1 <<< i)) hne
    (fun z hz => hmem z (List.mem_of_mem_take hz))
    (fun z hz => hmem z (List.mem_of_mem_drop hz))
    (hmem _ (List.getElem_mem _)) hch
  rw [← hbad1, ← hget] at hfl
  rcases hfl with ⟨hnot, herr⟩ | ⟨_, c, hc, hok⟩
  · left
    have hrf := hrfc.1 _ herr
    refine ⟨hnot, hrf, ?_⟩
    unfold Nib2Dsk.process_data
    simp only [hrf]
  · right
    obtain ⟨sb, pb, hrf⟩ := hrfc.2 _ hok
    refine ⟨sb, pb, c, hrf, hc, ?_⟩
    obtain ⟨d1, hd1⟩ := denibbilize_total pb sb s.track s.sector hs ht (List.range 256)
      (fun k hk => by simpa using hk) s.dsk_buf
    refine ⟨{ s with
        byte := bad.headD 0
        input := rest
        warnings := s.warnings ++ [Nib2Dsk.Warning.data_checksum_mismatch]
        dsk_buf := d1 }, ?_, rfl⟩
    unfold Nib2Dsk.process_data
    simp only [hrf, Nib2Dsk.PRIMARY_BUF_LEN, hd1, ne_eq, hc, not_false_eq_true, if_true]

theorem single_bit_flip_detected_witness :
    Spec.is_payload (List.replicate 256 0) ∧ 0 < 343 ∧ 0 < 8
      ∧ (Nib2Dsk.fsm_init 0 [] Nib2Dsk.dsk_init).track < 35
      ∧ (Nib2Dsk.fsm_init 0 [] Nib2Dsk.dsk_init).sector < 16
      ∧ ((((Spec.flip_bit (Dsk2Nib.nibbilize_out (fun k => (List.replicate 256 0).getD k 0))
              0 0).getD 0 0 ∉ Nib2Dsk.table
          ∧ Nib2Dsk.read_field
              ((Spec.flip_bit (Dsk2Nib.nibbilize_out (fun k => (List.replicate 256 0).getD k 0))
                0 0).headD 0)
              ((Spec.flip_bit (Dsk2Nib.nibbilize_out (fun k => (List.replicate 256 0).getD k 0))
                0 0).tail ++ [])
            = .error (.non_translatable
                ((Spec.flip_bit
                  (Dsk2Nib.nibbilize_out (fun k => (List.replicate 256 0).getD k 0)) 0 0).getD 0 0))
          ∧ Nib2Dsk.process_data { Nib2Dsk.fsm_init 0 [] Nib2Dsk.dsk_init with
              byte := (Spec.flip_bit
                (Dsk2Nib.nibbilize_out (fun k => (List.replicate 256 0).getD k 0)) 0 0).headD 0
              input := (Spec.flip_bit
                (Dsk2Nib.nibbilize_out (fun k => (List.replicate 256 0).getD k 0)) 0 0).tail ++ [] }
            = .error (.non_translatable
                ((Spec.flip_bit
                  (Dsk2Nib.nibbilize_out (fun k => (List.replicate 256 0).getD k 0)) 0 0).getD 0 0)))
        ∨ (∃ secondary_buf primary_buf checksum,
          Nib2Dsk.read_field
              ((Spec.flip_bit (Dsk2Nib.nibbilize_out (fun k => (List.replicate 256 0).getD k 0))
                0 0).headD 0)
              ((Spec.flip_bit (Dsk2Nib.nibbilize_out (fun k => (List.replicate 256 0).getD k 0))
                0 0).tail ++ [])
              = .ok (secondary_buf, primary_buf, checksum, [])
            ∧ checksum ≠ 0
            ∧ ∃ s1,
                Nib2Dsk.process_data { Nib2Dsk.fsm_init 0 [] Nib2Dsk.dsk_init with
                  byte := (Spec.flip_bit
                    (Dsk2Nib.nibbilize_out (fun k => (List.replicate 256 0).getD k 0)) 0 0).headD 0
                  input := (Spec.flip_bit
                    (Dsk2Nib.nibbilize_out (fun k => (List.replicate 256 0).getD k 0)) 0 0).tail
                      ++ [] }
                  = .ok s1
                ∧ s1.warnings = (Nib2Dsk.fsm_init 0 [] Nib2Dsk.dsk_init).warnings
                    ++ [Nib2Dsk.Warning.data_checksum_mismatch]))) :=
  ⟨by decide, by decide, by decide, by decide, by decide,
    single_bit_flip_detected (List.replicate 256 0) (by decide) 0 0 (by decide) (by decide)
      (Nib2Dsk.fsm_init 0 [] Nib2Dsk.dsk_init) [] (by decide) (by decide) _ rfl⟩

/-! ## Buffers made of equal blocks -/

theorem block_index (a B p : Nat) (hB : 0 < B) :
    (p * B ≤ a ∧ a < p * B + B) ↔ a / B = p := by
  constructor
  · intro h
    exact Nat.div_eq_of_lt_le h.1 (by rw [Nat.succ_mul]; exact h.2)
  · intro h
    subst h
    have h1 := Nat.div_mul_le_self a B
    have h2 := Nat.div_add_mod a B
    have h3 := Nat.mod_lt a hB
    rw [Nat.mul_comm] at h2
    constructor
    · exact h1
    · omega

theorem block_offset (a B : Nat) : a - a / B * B = a % B := by
  have h2 := Nat.div_add_mod a B
  rw [Nat.mul_comm] at h2
  omega

theorem flatten_blocks_length (blk : Nat → List α) (B n : Nat)
    (hb : ∀ p, p < n → (blk p).length = B) :
    ((List.range n).map blk).flatten.length = n * B := by
  induction n with
  | zero => simp
  | succ n ih =>
    rw [List.range_succ, List.map_append, List.flatten_append, List.length_append,
      ih (fun p hp => hb p (by omega))]
    simp only [List.map_cons, List.map_nil, List.flatten_cons, List.flatten_nil,
      List.append_nil, hb n (by omega), Nat.succ_mul]

/-- Cell `a` of a concatenation of blocks of `B` cells. -/
theorem getElem?_flatten_blocks (blk : Nat → List α) (B n : Nat) (hB : 0 < B)
    (hb : ∀ p, p < n → (blk p).length = B) (a : Nat) (ha : a < n * B) :
    ((List.range n).map blk).flatten[a]? = (blk (a / B))[a % B]? := by
  induction n with
  | zero => simp at ha
  | succ n ih =>
    have hlen := flatten_blocks_length blk B n (fun p hp => hb p (by omega))
    rw [List.range_succ, List.map_append, List.flatten_append]
    simp only [List.map_cons, List.map_nil, List.flatten_cons, List.flatten_nil,
      List.append_nil]
    by_cases h : a < n * B
    · rw [List.getElem?_append_left (by rw [hlen]; exact h)]
      exact ih (fun p hp => hb p (by omega)) h
    · rw [List.getElem?_append_right (by rw [hlen]; omega), hlen]
      rw [Nat.succ_mul] at ha
      have hq : a / B = n := (block_index a B n hB).1 ⟨by omega, ha⟩
      have ho := block_offset a B
      rw [hq] at ho
      rw [hq, ho]

theorem foldl_memcpy_length (B : Nat) (pos : Nat → Nat) (rec : Nat → List Nat) (ks : List Nat)
    (trk : List (Option Nat)) (hr : ∀ k ∈ ks, (rec k).length = B)
    (hp : ∀ k ∈ ks, pos k * B + B ≤ trk.length) :
    (ks.foldl (fun trk k => memcpy trk (pos k * B) (rec k)) trk).length = trk.length := by
  induction ks generalizing trk with
  | nil => rfl
  | cons k ks ih =>
    have hk := hr k (List.mem_cons_self _ _)
    have hl := memcpy_length trk (pos k * B) (rec k)
      (by rw [hk]; exact hp k (List.mem_cons_self _ _))
    simp only [List.foldl_cons]
    rw [ih _ (fun j hj => hr j (List.mem_cons_of_mem _ hj))
      (fun j hj => by rw [hl]; exact hp j (List.mem_cons_of_mem _ hj)), hl]

/-- A cell outside every block that a sequence of `memcpy`s fills keeps its
content. -/
theorem foldl_memcpy_untouched (B : Nat) (hB : 0 < B) (pos : Nat → Nat) (rec : Nat → List Nat)
    (ks : List Nat) (trk : List (Option Nat)) (hr : ∀ k ∈ ks, (rec k).length = B)
    (hp : ∀ k ∈ ks, pos k * B + B ≤ trk.length) (a : Nat)
    (hno : ∀ k ∈ ks, pos k ≠ a / B) :
    (ks.foldl (fun trk k => memcpy trk (pos k * B) (rec k)) trk)[a]? = trk[a]? := by
  induction ks generalizing trk with
  | nil => rfl
  | cons k ks ih =>
    have hk := hr k (List.mem_cons_self _ _)
    have hpk := hp k (List.mem_cons_self _ _)
    have hl := memcpy_length trk (pos k * B) (rec k) (by rw [hk]; exact hpk)
    simp only [List.foldl_cons]
    rw [ih _ (fun j hj => hr j (List.mem_cons_of_mem _ hj))
      (fun j hj => by rw [hl]; exact hp j (List.mem_cons_of_mem _ hj))
      (fun j hj => hno j (List.mem_cons_of_mem _ hj))]
    rw [getElem?_memcpy _ _ _ _ (by rw [hk]; exact hpk), hk]
    have hne := hno k (List.mem_cons_self _ _)
    have hbi := block_index a B (pos k) hB
    by_cases h1 : a < pos k * B
    · simp only [h1, if_true]
    · by_cases h2 : a < pos k * B + B
      · exact absurd (hbi.1 ⟨by omega, h2⟩).symm hne
      · simp only [h1, h2, if_false]

/-- A cell inside the block of `k` holds the byte of `rec k` after a
sequence of `memcpy`s in which no later one fills the same block. -/
theorem foldl_memcpy_written (B : Nat) (hB : 0 < B) (pos : Nat → Nat) (rec : Nat → List Nat)
    (ks : List Nat) (trk : List (Option Nat)) (hr : ∀ k ∈ ks, (rec k).length = B)
    (hp : ∀ k ∈ ks, pos k * B + B ≤ trk.length) (a k : Nat) (hk : k ∈ ks)
    (hpos : pos k = a / B) (hinj : ∀ j ∈ ks, pos j = pos k → j = k) :
    (ks.foldl (fun trk k => memcpy trk (pos k * B) (rec k)) trk)[a]?
      = ((rec k)[a % B]?).map some := by
  induction ks generalizing trk with
  | nil => cases hk
  | cons k0 ks ih =>
    have hk0 := hr k0 (List.mem_cons_self _ _)
    have hpk0 := hp k0 (List.mem_cons_self _ _)
    have hl := memcpy_length trk (pos k0 * B) (rec k0) (by rw [hk0]; exact hpk0)
    simp only [List.foldl_cons]
    by_cases hin : k ∈ ks
    · exact ih _ (fun j hj => hr j (List.mem_cons_of_mem _ hj))
        (fun j hj => by rw [hl]; exact hp j (List.mem_cons_of_mem _ hj)) hin
        (fun j hj => hinj j (List.mem_cons_of_mem _ hj))
    · have hk0k : k0 = k := by
        rcases List.mem_cons.1 hk with h | h
        · exact h.symm
        · exact absurd h hin
      subst hk0k
      rw [foldl_memcpy_untouched B hB pos rec ks _
        (fun j hj => hr j (List.mem_cons_of_mem _ hj))
        (fun j hj => by rw [hl]; exact hp j (List.mem_cons_of_mem _ hj)) a
        (fun j hj hj2 => hin (by
          have := hinj j (List.mem_cons_of_mem _ hj) (hj2.trans hpos.symm)
          rw [← this]; exact hj))]
      rw [getElem?_memcpy _ _ _ _ (by rw [hk0]; exact hpk0), hk0]
      have hbi := (block_index a B (pos k0) hB).2 hpos.symm
      have h1 : ¬ (a < pos k0 * B) := by omega
      simp only [h1, hbi.2, if_false, if_true]
      rw [hpos, block_offset]

/-- Filling every block of a buffer, each once, gives the concatenation of
the blocks, whatever the order of the `memcpy`s. -/
theorem foldl_memcpy_all (B n : Nat) (hB : 0 < B) (pos : Nat → Nat) (rec : Nat → List Nat)
    (blk : Nat → List Nat) (ks : List Nat) (trk : List (Option Nat)) (hlen : trk.length = n * B)
    (hr : ∀ k ∈ ks, (rec k).length = B) (hpn : ∀ k ∈ ks, pos k < n)
    (hinj : ∀ j ∈ ks, ∀ k ∈ ks, pos j = pos k → j = k)
    (hsurj : ∀ p, p < n → ∃ k ∈ ks, pos k = p ∧ rec k = blk p) :
    ks.foldl (fun trk k => memcpy trk (pos k * B) (rec k)) trk
      = (((List.range n).map blk).flatten).map some := by
  have hp : ∀ k ∈ ks, pos k * B + B ≤ trk.length := by
    intro k hk
    have h1 := hpn k hk
    have h2 : (pos k + 1) * B ≤ n * B := Nat.mul_le_mul_right B h1
    rw [Nat.succ_mul] at h2
    rw [hlen]
    exact h2
  have hbl : ∀ p, p < n → (blk p).length = B := by
    intro p hp1
    obtain ⟨k, hk, _, hk2⟩ := hsurj p hp1
    rw [← hk2]
    exact hr k hk
  have hfl := flatten_blocks_length blk B n hbl
  have hl1 := foldl_memcpy_length B pos rec ks trk hr hp
  apply List.ext_getElem (by rw [hl1, hlen, List.length_map, hfl])
  intro a h1 h2
  rw [hl1, hlen] at h1
  have hq : a / B < n := (Nat.div_lt_iff_lt_mul hB).2 h1
  obtain ⟨k, hk, hk1, hk2⟩ := hsurj (a / B) hq
  have hw := foldl_memcpy_written B hB pos rec ks trk hr hp a k hk hk1
    (fun j hj => hinj j hj k hk)
  have hf := getElem?_flatten_blocks blk B n hB hbl a h1
  have e1 : (ks.foldl (fun trk k => memcpy trk (pos k * B) (rec k)) trk)[a]?
      = ((((List.range n).map blk).flatten).map some)[a]? := by
    rw [hw, List.getElem?_map, hf, hk2]
  rw [List.getElem?_eq_getElem (by rw [hl1, hlen]; exact h1),
    List.getElem?_eq_getElem h2] at e1
  exact Option.some.inj e1

theorem foldl_update_track {α : Type} (d : List (List α)) (t : Nat) (ht : t < d.length)
    {β : Type} (F : β → List α → List α) (is : List β) :
    is.foldl (fun d i => d.set t (F i (d.getD t []))) d
      = d.set t (is.foldl (fun trk i => F i trk) (d.getD t [])) := by
  induction is generalizing d with
  | nil =>
    simp only [List.foldl_nil]
    rw [set_getD_self]
  | cons i is ih =>
    simp only [List.foldl_cons]
    rw [ih _ (by simpa using ht)]
    rw [List.set_set]
    congr 2
    rw [List.getD_eq_getElem _ _ (by simpa using ht)]
    simp

/-! ## The track framing of the encoder -/

theorem record_length (v t k : Nat) (field : List Nat) (h : field.length = 343) :
    (Spec.record v t k field).length = 416 := by
  simp only [Spec.record, Spec.odd_even, List.length_append, List.length_replicate,
    List.length_cons, List.length_nil, h]

theorem sector_record_length (dsk_buf : Dsk2Nib.DskBuf) (v t k : Nat) :
    (Spec.sector_record dsk_buf v t k).length = 416 :=
  record_length _ _ _ _ (nibbilize_out_length _)

theorem main_init_inited (v : Nat) : Spec.sector_inited v (Dsk2Nib.main_init v) := by
  unfold Spec.sector_inited Dsk2Nib.main_init
  exact ⟨rfl, rfl, rfl, rfl, rfl, rfl, rfl⟩

/-- One pass of the inner loop of `main`: the record is copied to slot
`phys_interleave[sec]` of the track. -/
theorem main_sector_eq (dsk_buf : Dsk2Nib.DskBuf) (v t k : Nat) (st : Dsk2Nib.MainState)
    (hi : Spec.sector_inited v st.nib_sector) :
    (Dsk2Nib.main_sector dsk_buf v t st k).nib_buf
        = st.nib_buf.set t (memcpy (st.nib_buf.getD t [])
            (Dsk2Nib.phys_interleave.getD k 0 * 416) (Spec.sector_record dsk_buf v t k))
      ∧ Spec.sector_inited v (Dsk2Nib.main_sector dsk_buf v t st k).nib_sector := by
  obtain ⟨h1, h2, h3, h4, h5, h6, h7⟩ := hi
  constructor
  · unfold Dsk2Nib.main_sector
    simp only [Dsk2Nib.BYTES_PER_NIB_SECTOR]
    congr 2
    simp only [Dsk2Nib.nib_sector_t.bytes, Dsk2Nib.addr_t.bytes, Dsk2Nib.data_t.bytes,
      Dsk2Nib.nibbilize, h1, h2, h3, h4, h5, h6, h7, Spec.sector_record, Spec.record,
      Spec.odd_even, Dsk2Nib.odd_even_encode, Dsk2Nib.nibbilize_out, List.append_assoc,
      List.cons_append, List.nil_append]
  · unfold Dsk2Nib.main_sector Spec.sector_inited
    exact ⟨h1, h2, h3, h4, h5, h6, h7⟩

theorem main_sectors_eq (dsk_buf : Dsk2Nib.DskBuf) (v t : Nat) (ks : List Nat)
    (st : Dsk2Nib.MainState) (hi : Spec.sector_inited v st.nib_sector)
    (ht : t < st.nib_buf.length) :
    (ks.foldl (Dsk2Nib.main_sector dsk_buf v t) st).nib_buf
        = st.nib_buf.set t (ks.foldl (fun trk k => memcpy trk
            (Dsk2Nib.phys_interleave.getD k 0 * 416) (Spec.sector_record dsk_buf v t k))
            (st.nib_buf.getD t []))
      ∧ Spec.sector_inited v (ks.foldl (Dsk2Nib.main_sector dsk_buf v t) st).nib_sector := by
  induction ks generalizing st with
  | nil =>
    simp only [List.foldl_nil]
    exact ⟨(set_getD_self _ _ _).symm, hi⟩
  | cons k ks ih =>
    obtain ⟨hb, hi1⟩ := main_sector_eq dsk_buf v t k st hi
    have ht1 : t < (Dsk2Nib.main_sector dsk_buf v t st k).nib_buf.length := by
      rw [hb, List.length_set]
      exact ht
    obtain ⟨hb2, hi2⟩ := ih _ hi1 ht1
    simp only [List.foldl_cons]
    refine ⟨?_, hi2⟩
    rw [hb2, hb, List.set_set]
    congr 2
    rw [List.getD_eq_getElem _ _ (by rw [List.length_set]; exact ht), List.getElem_set_self]

theorem phys_interleave_facts :
    (∀ k, k < 16 → Dsk2Nib.phys_interleave.getD k 0 < 16)
      ∧ (∀ j, j < 16 → ∀ k, k < 16 →
          Dsk2Nib.phys_interleave.getD j 0 = Dsk2Nib.phys_interleave.getD k 0 → j = k)
      ∧ (∀ p, p < 16 → Spec.slot_index p < 16
          ∧ Dsk2Nib.phys_interleave.getD (Spec.slot_index p) 0 = p)
      ∧ (∀ k, k < 16 → Spec.slot_index (Dsk2Nib.phys_interleave.getD k 0) = k) := by
  refine ⟨by decide, by decide, by decide, by decide⟩

/-- The outer loop body of `main` fills the whole of track `trk`: its 16
records tile the 6656 cells. -/
theorem main_track_eq (dsk_buf : Dsk2Nib.DskBuf) (v t : Nat) (st : Dsk2Nib.MainState)
    (hi : Spec.sector_inited v st.nib_sector) (ht : t < st.nib_buf.length)
    (hl : (st.nib_buf.getD t []).length = 6656) :
    (Dsk2Nib.main_track dsk_buf v st t).nib_buf
        = st.nib_buf.set t ((Spec.nib_track dsk_buf v t).map some)
      ∧ Spec.sector_inited v (Dsk2Nib.main_track dsk_buf v st t).nib_sector := by
  obtain ⟨hb, hi1⟩ := main_sectors_eq dsk_buf v t (List.range 16) st hi ht
  unfold Dsk2Nib.main_track
  simp only [Dsk2Nib.SECTORS_PER_TRACK]
  refine ⟨?_, hi1⟩
  rw [hb]
  obtain ⟨f1, f2, f3, _⟩ := phys_interleave_facts
  have hl1 : (st.nib_buf.getD t []).length = 16 * 416 := hl
  have h := foldl_memcpy_all 416 16 (Nat.succ_pos _) (fun k => Dsk2Nib.phys_interleave.getD k 0)
    (Spec.sector_record dsk_buf v t)
    (fun p => Spec.sector_record dsk_buf v t (Spec.slot_index p)) (List.range 16)
    (st.nib_buf.getD t []) hl1
    (fun k _ => sector_record_length _ _ _ _)
    (fun k hk => f1 k (List.mem_range.1 hk))
    (fun j hj k hk h => f2 j (List.mem_range.1 hj) k (List.mem_range.1 hk) h)
    (fun p hp => ⟨Spec.slot_index p, List.mem_range.2 (f3 p hp).1, (f3 p hp).2, rfl⟩)
  rw [h]
  rfl

theorem nib_track_length (dsk_buf : Dsk2Nib.DskBuf) (v t : Nat) :
    (Spec.nib_track dsk_buf v t).length = 6656 := by
  unfold Spec.nib_track
  rw [flatten_blocks_length _ 416 16 (fun p _ => sector_record_length _ _ _ _)]

theorem main_tracks_eq (dsk_buf : Dsk2Nib.DskBuf) (v n : Nat) (hn : n ≤ 35) :
    ((List.range n).foldl (Dsk2Nib.main_track dsk_buf v)
        { nib_sector := Dsk2Nib.main_init v, nib_buf := Dsk2Nib.nib_init }).nib_buf
        = (List.range 35).map (fun t =>
            if t < n then (Spec.nib_track dsk_buf v t).map some
            else List.replicate 6656 none)
      ∧ Spec.sector_inited v ((List.range n).foldl (Dsk2Nib.main_track dsk_buf v)
        { nib_sector := Dsk2Nib.main_init v, nib_buf := Dsk2Nib.nib_init }).nib_sector := by
  induction n with
  | zero =>
    simp only [List.range_zero, List.foldl_nil, Dsk2Nib.nib_init, Dsk2Nib.TRACKS_PER_DISK,
      Dsk2Nib.BYTES_PER_NIB_TRACK, Nat.not_lt_zero, if_false]
    refine ⟨?_, main_init_inited v⟩
    apply List.ext_getElem (by simp only [List.length_replicate, List.length_map,
      List.length_range])
    intro i h1 h2
    simp only [List.getElem_replicate, List.getElem_map]
  | succ n ih =>
    obtain ⟨hb, hi⟩ := ih (by omega)
    rw [List.range_succ, List.foldl_append]
    simp only [List.foldl_cons, List.foldl_nil]
    have hlen : n < ((List.range n).foldl (Dsk2Nib.main_track dsk_buf v)
        { nib_sector := Dsk2Nib.main_init v, nib_buf := Dsk2Nib.nib_init }).nib_buf.length := by
      rw [hb, List.length_map, List.length_range]
      omega
    have hl : ((((List.range n).foldl (Dsk2Nib.main_track dsk_buf v)
        { nib_sector := Dsk2Nib.main_init v, nib_buf := Dsk2Nib.nib_init }).nib_buf).getD n
          []).length = 6656 := by
      rw [List.getD_eq_getElem _ _ hlen]
      simp only [hb, List.getElem_map, List.getElem_range, Nat.lt_irrefl, if_false,
        List.length_replicate]
    obtain ⟨hb2, hi2⟩ := main_track_eq dsk_buf v n _ hi hlen hl
    refine ⟨?_, hi2⟩
    rw [hb2, hb]
    apply List.ext_getElem (by simp only [List.length_set, List.length_map, List.length_range])
    intro i h1 h2
    simp only [List.length_map, List.length_range] at h2
    simp only [List.getElem_set, List.getElem_map, List.getElem_range]
    by_cases h : n = i
    · subst h
      simp
    · by_cases h3 : i < n
      · have : i < n + 1 := by omega
        simp [h, h3, this]
      · have : ¬ i < n + 1 := by omega
        simp only [h, h3, this, if_false]

/-- The NIB image buffer after the loops of `main`: track `t` is the
concatenation of its 16 records in physical order. -/
theorem main_convert_eq (dsk_buf : Dsk2Nib.DskBuf) (v : Nat) :
    Dsk2Nib.main_convert dsk_buf v
      = (List.range 35).map (fun t => (Spec.nib_track dsk_buf v t).map some) := by
  unfold Dsk2Nib.main_convert
  simp only [Dsk2Nib.TRACKS_PER_DISK]
  rw [(main_tracks_eq dsk_buf v 35 (le_refl _)).1]
  apply List.map_congr_left
  intro t ht
  have : t < 35 := by simpa using ht
  simp only [this, if_true]

theorem sliceAt_flatten_blocks (blk : Nat → List α) (B n : Nat) (hB : 0 < B)
    (hb : ∀ p, p < n → (blk p).length = B) (p : Nat) (hp : p < n) :
    sliceAt ((List.range n).map blk).flatten (p * B) B = blk p := by
  have hfl := flatten_blocks_length blk B n hb
  have hle : (p + 1) * B ≤ n * B := Nat.mul_le_mul_right B hp
  rw [Nat.succ_mul] at hle
  unfold sliceAt
  apply List.ext_getElem
  · rw [List.length_take, List.length_drop, hfl, hb p hp]
    omega
  · intro j h1 h2
    have hj : j < B := by rw [hb p hp] at h2; exact h2
    have e : ((List.drop (p * B) ((List.range n).map blk).flatten).take B)[j]?
        = (blk p)[j]? := by
      rw [List.getElem?_take_of_lt hj, List.getElem?_drop,
        getElem?_flatten_blocks blk B n hB hb _ (by omega)]
      have hq : (p * B + j) / B = p := (block_index _ B p hB).1 ⟨by omega, by omega⟩
      have ho := block_offset (p * B + j) B
      rw [hq] at ho
      rw [hq, ← ho]
      congr 1
      omega
    rw [List.getElem?_eq_getElem h1, List.getElem?_eq_getElem h2] at e
    exact Option.some.inj e

theorem sliceAt_map {α β : Type} (f : α → β) (l : List α) (off len : Nat) :
    sliceAt (l.map f) off len = (sliceAt l off len).map f := by
  unfold sliceAt
  rw [List.map_take, List.map_drop]

theorem main_convert_getD (dsk_buf : Dsk2Nib.DskBuf) (v t : Nat) (ht : t < 35) :
    (Dsk2Nib.main_convert dsk_buf v).getD t [] = (Spec.nib_track dsk_buf v t).map some := by
  rw [main_convert_eq, List.getD_eq_getElem _ _ (by simpa using ht)]
  simp only [List.getElem_map, List.getElem_range]

/-- C4: track framing.  For every disk image, volume, track `t` and
write-order index `k`, the 416 cells at offset `416 * phys_interleave[k]`
of track `t` of the NIB image buffer hold the reference record (48 gap
bytes, address prolog, the 4-and-4 pairs of volume, track, `k` and their
xor, address epilog, 5 gap bytes, data prolog, the 343 bytes `nibbilize`
produces for logical sector `soft_interleave[k]`, data epilog); the track
has 6656 cells, none left unwritten, and is the concatenation of the 16
records in the order of their slots. -/
theorem track_framing (dsk_buf : Dsk2Nib.DskBuf) (v t k : Nat) (hv : v < 256) (ht : t < 35)
    (hk : k < 16) :
    sliceAt ((Dsk2Nib.main_convert dsk_buf v).getD t [])
        (416 * Dsk2Nib.phys_interleave.getD k 0) 416
        = (Spec.record v t k (Dsk2Nib.nibbilize_out
            (Dsk2Nib.dsk_get dsk_buf t (Dsk2Nib.soft_interleave.getD k 0)))).map some
      ∧ ((Dsk2Nib.main_convert dsk_buf v).getD t []).length = 6656
      ∧ (∀ c ∈ (Dsk2Nib.main_convert dsk_buf v).getD t [], c ≠ none)
      ∧ (Dsk2Nib.main_convert dsk_buf v).getD t []
        = (((List.range 16).map (fun p => Spec.record v t (Spec.slot_index p)
            (Dsk2Nib.nibbilize_out (Dsk2Nib.dsk_get dsk_buf t
              (Dsk2Nib.soft_interleave.getD (Spec.slot_index p) 0))))).flatten).map some := by
  have _ := hv
  obtain ⟨f1, _, _, f4⟩ := phys_interleave_facts
  rw [main_convert_getD dsk_buf v t ht]
  refine ⟨?_, ?_, ?_, rfl⟩
  · rw [sliceAt_map, Nat.mul_comm]
    unfold Spec.nib_track
    rw [sliceAt_flatten_blocks _ 416 16 (Nat.succ_pos _)
      (fun p _ => sector_record_length _ _ _ _) _ (f1 k hk)]
    simp only [f4 k hk]
    rfl
  · rw [List.length_map, nib_track_length]
  · intro c hc
    rw [List.mem_map] at hc
    obtain ⟨b, _, rfl⟩ := hc
    exact Option.some_ne_none b

theorem track_framing_witness :
    (254 < 256) ∧ (17 < 35) ∧ (3 < 16)
      ∧ (sliceAt ((Dsk2Nib.main_convert (List.replicate 35 (List.replicate 4096 0)) 254).getD 17 [])
          (416 * Dsk2Nib.phys_interleave.getD 3 0) 416
          = (Spec.record 254 17 3 (Dsk2Nib.nibbilize_out
              (Dsk2Nib.dsk_get (List.replicate 35 (List.replicate 4096 0)) 17 (Dsk2Nib.soft_interleave.getD 3 0)))).map some
        ∧ ((Dsk2Nib.main_convert (List.replicate 35 (List.replicate 4096 0)) 254).getD 17 []).length = 6656
        ∧ (∀ c ∈ (Dsk2Nib.main_convert (List.replicate 35 (List.replicate 4096 0)) 254).getD 17 [], c ≠ none)
        ∧ (Dsk2Nib.main_convert (List.replicate 35 (List.replicate 4096 0)) 254).getD 17 []
          = (((List.range 16).map (fun p => Spec.record 254 17 (Spec.slot_index p)
              (Dsk2Nib.nibbilize_out (Dsk2Nib.dsk_get (List.replicate 35 (List.replicate 4096 0)) 17
                (Dsk2Nib.soft_interleave.getD (Spec.slot_index p) 0))))).flatten).map some) :=
  ⟨by decide, by decide, by decide, track_framing (List.replicate 35 (List.replicate 4096 0)) 254 17 3 (by decide) (by decide) (by decide)⟩

/-! ## The synchronizer on one sector record -/

theorem loop_step (fuel : Nat) (s s1 : Nib2Dsk.Fsm) (hs : s.state ≠ Nib2Dsk.STATE_DONE)
    (h : Nib2Dsk.step s = .ok s1) :
    Nib2Dsk.convert_loop (fuel + 1) s = Nib2Dsk.convert_loop fuel s1 := by
  simp only [Nib2Dsk.convert_loop, hs, if_false, h]

theorem loop_done (fuel : Nat) (s : Nib2Dsk.Fsm) (hs : s.state = Nib2Dsk.STATE_DONE) :
    Nib2Dsk.convert_loop fuel s = .done s := by
  cases fuel with
  | zero => simp only [Nib2Dsk.convert_loop, hs, if_true]
  | succ n => simp only [Nib2Dsk.convert_loop, hs, if_true]

/-- State 0 skips gap bytes. -/
theorem run_gap0 (n : Nat) (fuel b : Nat) (rest : List Nat) (s : Nib2Dsk.Fsm)
    (hs : s.state = 0) (hb : s.byte = 0xFF)
    (hi : s.input = List.replicate n 0xFF ++ b :: rest) :
    Nib2Dsk.convert_loop (fuel + (n + 1)) s
      = Nib2Dsk.convert_loop fuel { s with addr_prolog_index := 0, byte := b, input := rest } := by
  induction n generalizing s with
  | zero =>
    obtain ⟨input, state, byte, api, aei, dpi, dei, vol, trk, sec, ex, dsk, w⟩ := s
    simp only at hs hb hi
    subst hs hb hi
    simp [Nib2Dsk.convert_loop, Nib2Dsk.step, Nib2Dsk.STATE_DONE, Nib2Dsk.get_byte,
      Nib2Dsk.addr_prolog]
  | succ n ih =>
    obtain ⟨input, state, byte, api, aei, dpi, dei, vol, trk, sec, ex, dsk, w⟩ := s
    simp only at hs hb hi
    subst hs hb hi
    have e : fuel + (n + 1 + 1) = (fuel + (n + 1)) + 1 := by omega
    rw [e, loop_step (fuel + (n + 1)) _
      { input := List.replicate n 0xFF ++ b :: rest, state := 0, byte := 0xFF,
        addr_prolog_index := 0, addr_epilog_index := aei, data_prolog_index := dpi,
        data_epilog_index := dei, volume := vol, track := trk, sector := sec, extra := ex,
        dsk_buf := dsk, warnings := w }
      (by simp [Nib2Dsk.STATE_DONE])
      (by simp [Nib2Dsk.step, Nib2Dsk.get_byte, Nib2Dsk.addr_prolog, List.replicate_succ])]
    rw [ih _ rfl rfl rfl]

/-- The address field: prolog, four 4-and-4 pairs and the first two bytes
of the epilog; the byte after them is fetched and not compared. -/
theorem run_header (fuel : Nat) (s : Nib2Dsk.Fsm) (hs : s.state = 0) (hb : s.byte = 0xD5)
    (v0 v1 t0 t1 k0 k1 c0 c1 x : Nat) (rest : List Nat)
    (hi : s.input = 0xAA :: 0x96 :: v0 :: v1 :: t0 :: t1 :: k0 :: k1 :: c0 :: c1
      :: 0xDE :: 0xAA :: x :: rest) :
    Nib2Dsk.convert_loop (fuel + 9) s
      = Nib2Dsk.convert_loop fuel { s with
          input := rest, state := 9, byte := x, addr_prolog_index := 3, addr_epilog_index := 1,
          volume := Nib2Dsk.odd_even_decode v0 v1, track := Nib2Dsk.odd_even_decode t0 t1,
          sector := Nib2Dsk.odd_even_decode k0 k1 } := by
  obtain ⟨input, state, byte, api, aei, dpi, dei, vol, trk, sec, ex, dsk, w⟩ := s
  simp only at hs hb hi
  subst hs hb hi
  simp [Nib2Dsk.convert_loop, Nib2Dsk.step, Nib2Dsk.STATE_DONE, Nib2Dsk.get_byte,
    Nib2Dsk.addr_prolog, Nib2Dsk.addr_epilog, Nib2Dsk.next_or_ueof, Nib2Dsk.read_pair]

/-- State 9 skips bytes other than 0xD5. -/
theorem run_gap9 (n : Nat) (fuel b : Nat) (rest : List Nat) (s : Nib2Dsk.Fsm)
    (hs : s.state = 9) (hb : s.byte ≠ 0xD5)
    (hi : s.input = List.replicate n 0xFF ++ b :: rest) :
    Nib2Dsk.convert_loop (fuel + (n + 1)) s
      = Nib2Dsk.convert_loop fuel { s with data_prolog_index := 0, byte := b, input := rest } := by
  induction n generalizing s with
  | zero =>
    obtain ⟨input, state, byte, api, aei, dpi, dei, vol, trk, sec, ex, dsk, w⟩ := s
    simp only at hs hb hi
    subst hs hi
    simp [Nib2Dsk.convert_loop, Nib2Dsk.step, Nib2Dsk.STATE_DONE, Nib2Dsk.get_byte,
      Nib2Dsk.data_prolog, Nib2Dsk.next_or_ueof, hb]
  | succ n ih =>
    obtain ⟨input, state, byte, api, aei, dpi, dei, vol, trk, sec, ex, dsk, w⟩ := s
    simp only at hs hb hi
    subst hs hi
    have e : fuel + (n + 1 + 1) = (fuel + (n + 1)) + 1 := by omega
    rw [e, loop_step (fuel + (n + 1)) _
      { input := List.replicate n 0xFF ++ b :: rest, state := 9, byte := 0xFF,
        addr_prolog_index := api, addr_epilog_index := aei, data_prolog_index := 0,
        data_epilog_index := dei, volume := vol, track := trk, sector := sec, extra := ex,
        dsk_buf := dsk, warnings := w }
      (by simp [Nib2Dsk.STATE_DONE])
      (by simp [Nib2Dsk.step, Nib2Dsk.get_byte, Nib2Dsk.data_prolog, Nib2Dsk.next_or_ueof,
        List.replicate_succ, hb])]
    rw [ih _ rfl (by simp) rfl]

/-- The data prolog. -/
theorem run_data_prolog (fuel : Nat) (s : Nib2Dsk.Fsm) (hs : s.state = 9) (hb : s.byte = 0xD5)
    (x : Nat) (rest : List Nat) (hi : s.input = 0xAA :: 0xAD :: x :: rest) :
    Nib2Dsk.convert_loop (fuel + 3) s
      = Nib2Dsk.convert_loop fuel { s with
          input := rest, state := 12, byte := x, data_prolog_index := 3 } := by
  obtain ⟨input, state, byte, api, aei, dpi, dei, vol, trk, sec, ex, dsk, w⟩ := s
  simp only at hs hb hi
  subst hs hb hi
  simp [Nib2Dsk.convert_loop, Nib2Dsk.step, Nib2Dsk.STATE_DONE, Nib2Dsk.get_byte,
    Nib2Dsk.data_prolog, Nib2Dsk.next_or_ueof]

/-- The data field of an encoded sector and the first two bytes of the
data epilog. -/
theorem run_data (fuel : Nat) (s : Nib2Dsk.Fsm) (src : Nat → Nat) (hsrc : ∀ i, src i < 256)
    (more : List Nat) (hs : s.state = 12) (hex : s.extra = 0)
    (ht : s.track < 35) (hsec : s.sector < 16) (hd : s.track < s.dsk_buf.length)
    (hl : Nib2Dsk.interleave.getD s.sector 0 * 256 + 256 ≤ (s.dsk_buf.getD s.track []).length)
    (hb : s.byte = (Dsk2Nib.nibbilize_out src).headD 0)
    (hi : s.input = (Dsk2Nib.nibbilize_out src).tail ++ 0xDE :: 0xAA :: 0xEB :: more) :
    Nib2Dsk.convert_loop (fuel + 3) s
      = Nib2Dsk.convert_loop fuel { s with
          input := more, state := 15, byte := 0xEB, data_epilog_index := 2
          dsk_buf := s.dsk_buf.set s.track
            (memcpy (s.dsk_buf.getD s.track []) (Nib2Dsk.interleave.getD s.sector 0 * 256)
              ((List.range 256).map src)) } := by
  have hp := process_data_nibbilize s src hsrc (0xDE :: 0xAA :: 0xEB :: more) ht hsec hd hl hb hi
  obtain ⟨input, state, byte, api, aei, dpi, dei, vol, trk, sec, ex, dsk, w⟩ := s
  simp only at hs hex hp
  subst hs hex
  simp [Nib2Dsk.convert_loop, Nib2Dsk.step, Nib2Dsk.STATE_DONE, Nib2Dsk.get_byte,
    Nib2Dsk.data_epilog, Nib2Dsk.next_or_ueof, hp]

/-- The last byte of the data epilog, with more input behind it. -/
theorem run_epilog_more (fuel : Nat) (s : Nib2Dsk.Fsm) (hs : s.state = 15) (hb : s.byte = 0xEB)
    (hx : s.data_epilog_index = 2) (b : Nat) (rest : List Nat) (hi : s.input = b :: rest) :
    Nib2Dsk.convert_loop (fuel + 1) s
      = Nib2Dsk.convert_loop fuel { s with input := rest, state := 0, byte := b } := by
  obtain ⟨input, state, byte, api, aei, dpi, dei, vol, trk, sec, ex, dsk, w⟩ := s
  simp only at hs hb hi hx
  subst hs hb hi hx
  simp [Nib2Dsk.convert_loop, Nib2Dsk.step, Nib2Dsk.STATE_DONE, Nib2Dsk.get_byte,
    Nib2Dsk.data_epilog]

/-- The last byte of the data epilog at the end of the input. -/
theorem run_epilog_end (fuel : Nat) (s : Nib2Dsk.Fsm) (hs : s.state = 15) (hb : s.byte = 0xEB)
    (hx : s.data_epilog_index = 2) (hi : s.input = []) :
    Nib2Dsk.convert_loop (fuel + 1) s = .done { s with state := Nib2Dsk.STATE_DONE } := by
  obtain ⟨input, state, byte, api, aei, dpi, dei, vol, trk, sec, ex, dsk, w⟩ := s
  simp only at hs hb hi hx
  subst hs hb hi hx
  rw [loop_step fuel _
    { input := [], state := Nib2Dsk.STATE_DONE, byte := 0xEB, addr_prolog_index := api,
      addr_epilog_index := aei, data_prolog_index := dpi, data_epilog_index := 2,
      volume := vol, track := trk, sector := sec, extra := ex, dsk_buf := dsk, warnings := w }
    (by simp [Nib2Dsk.STATE_DONE])
    (by simp [Nib2Dsk.step, Nib2Dsk.get_byte, Nib2Dsk.data_epilog])]
  exact loop_done _ _ rfl

theorem odd_even_decode_pair (b : Nat) (hb : b < 256) :
    Nib2Dsk.odd_even_decode (((b >>> 1) &&& 0x55) ||| 0xAA) ((b &&& 0x55) ||| 0xAA) = b :=
  (odd_even_round_trip b hb).1

/-- A sector record followed by `more`, byte by byte. -/
theorem sector_record_bytes (dsk_buf : Dsk2Nib.DskBuf) (v t k : Nat) (more : List Nat) :
    Spec.sector_record dsk_buf v t k ++ more
      = 0xFF :: (List.replicate 47 0xFF ++ 0xD5 :: (0xAA :: 0x96
          :: (((v >>> 1) &&& 0x55) ||| 0xAA) :: ((v &&& 0x55) ||| 0xAA)
          :: (((t >>> 1) &&& 0x55) ||| 0xAA) :: ((t &&& 0x55) ||| 0xAA)
          :: (((k >>> 1) &&& 0x55) ||| 0xAA) :: ((k &&& 0x55) ||| 0xAA)
          :: ((((v ^^^ t ^^^ k) >>> 1) &&& 0x55) ||| 0xAA) :: (((v ^^^ t ^^^ k) &&& 0x55) ||| 0xAA)
          :: 0xDE :: 0xAA :: 0xEB :: (List.replicate 5 0xFF ++ 0xD5 :: (0xAA :: 0xAD
          :: (Dsk2Nib.nibbilize_out (Dsk2Nib.dsk_get dsk_buf t
                (Dsk2Nib.soft_interleave.getD k 0))).headD 0
          :: ((Dsk2Nib.nibbilize_out (Dsk2Nib.dsk_get dsk_buf t
                (Dsk2Nib.soft_interleave.getD k 0))).tail
              ++ 0xDE :: 0xAA :: 0xEB :: more))))) := by
  obtain ⟨he, _⟩ := cons_headD_tail _ 342
    (nibbilize_out_length (Dsk2Nib.dsk_get dsk_buf t (Dsk2Nib.soft_interleave.getD k 0)))
  have h48 : List.replicate 48 0xFF = 0xFF :: List.replicate 47 0xFF := rfl
  unfold Spec.sector_record Spec.record Spec.odd_even
  rw [h48]
  conv => lhs; rw [he]
  simp only [List.append_assoc, List.cons_append, List.nil_append]

theorem image_update_buffer (dsk_buf : Dsk2Nib.DskBuf) (d : Nib2Dsk.DskBuf) (r : Nat × Nat)
    (hd : Spec.is_image_buffer d) (hr : r.1 < 35 ∧ r.2 < 16) :
    Spec.is_image_buffer (Spec.image_update dsk_buf d r) := by
  have hl := is_image_buffer_getD d hd r.1 hr.1
  have hil := interleave_lt r.2 hr.2
  unfold Spec.image_update
  refine ⟨by rw [List.length_set]; exact hd.1, ?_⟩
  intro x hx
  rcases List.mem_or_eq_of_mem_set hx with h | h
  · exact hd.2 x h
  · rw [h, memcpy_length _ _ _ (by rw [hl, List.length_map, List.length_range]; omega)]
    exact hl

/-- The synchronizer on one sector record of the encoder, from the first
gap byte to the last byte of the data epilog: 69 passes, no warning, and
the payload stored into the image. -/
theorem run_record (dsk_buf : Dsk2Nib.DskBuf) (hdsk : ∀ t s i, Dsk2Nib.dsk_get dsk_buf t s i < 256)
    (v t k : Nat) (ht : t < 35) (hk : k < 16) (s : Nib2Dsk.Fsm) (more : List Nat)
    (hs : s.state = 0) (hex : s.extra = 0) (hbuf : Spec.is_image_buffer s.dsk_buf)
    (hin : s.byte :: s.input = Spec.sector_record dsk_buf v t k ++ more) :
    ∃ s15, (∀ fuel, Nib2Dsk.convert_loop (fuel + 69) s = Nib2Dsk.convert_loop fuel s15)
      ∧ s15.state = 15 ∧ s15.byte = 0xEB ∧ s15.data_epilog_index = 2 ∧ s15.input = more
      ∧ s15.extra = 0 ∧ s15.warnings = s.warnings
      ∧ s15.dsk_buf = Spec.image_update dsk_buf s.dsk_buf (t, k) := by
  rw [sector_record_bytes] at hin
  injection hin with hb hi
  obtain ⟨input, state, byte, api, aei, dpi, dei, vol, trk, sec, ex, dsk, w⟩ := s
  simp only at hs hex hb hi hbuf
  subst hs hex hb hi
  have htd : Nib2Dsk.odd_even_decode (((t >>> 1) &&& 0x55) ||| 0xAA) ((t &&& 0x55) ||| 0xAA) = t :=
    odd_even_decode_pair t (by omega)
  have hkd : Nib2Dsk.odd_even_decode (((k >>> 1) &&& 0x55) ||| 0xAA) ((k &&& 0x55) ||| 0xAA) = k :=
    odd_even_decode_pair k (by omega)
  have hl := is_image_buffer_getD dsk hbuf t ht
  have hil := interleave_lt k hk
  refine ⟨
    { input := more, state := 15, byte := 0xEB, addr_prolog_index := 3,
      addr_epilog_index := 1, data_prolog_index := 3, data_epilog_index := 2,
      volume := Nib2Dsk.odd_even_decode (((v >>> 1) &&& 0x55) ||| 0xAA) ((v &&& 0x55) ||| 0xAA),
      track := t, sector := k, extra := 0,
      dsk_buf := Spec.image_update dsk_buf dsk (t, k), warnings := w },
    fun fuel => ?_, rfl, rfl, rfl, rfl, rfl, rfl, rfl⟩
  have e : fuel + 69 = ((((fuel + 3) + 3) + (5 + 1)) + 9) + (47 + 1) := by omega
  rw [e, run_gap0 47 _ _ _ _ rfl rfl rfl]
  rw [run_header _ _ rfl rfl _ _ _ _ _ _ _ _ _ _ rfl]
  rw [run_gap9 5 _ _ _ _ rfl (by simp) rfl]
  rw [run_data_prolog _ _ rfl rfl _ _ rfl]
  rw [run_data _ _ (Dsk2Nib.dsk_get dsk_buf t (Dsk2Nib.soft_interleave.getD k 0))
    (hdsk _ _) more rfl rfl (by simp only [htd]; exact ht) (by simp only [hkd]; exact hk)
    (by simp only [htd]; rw [hbuf.1]; exact ht)
    (by simp only [htd, hkd, hl]; omega) rfl rfl]
  simp only [htd, hkd, Spec.image_update]

/-! ## The synchronizer on a whole NIB image -/

theorem sector_record_cons (dsk_buf : Dsk2Nib.DskBuf) (v t k : Nat) :
    ∃ tl, Spec.sector_record dsk_buf v t k = 0xFF :: tl := by
  have h := sector_record_bytes dsk_buf v t k []
  rw [List.append_nil] at h
  exact ⟨_, h⟩

/-- The synchronizer on a sequence of sector records of the encoder that
ends the input: 70 passes for each record, then `STATE_DONE`; no warning,
and every payload stored into the image. -/
theorem run_records (dsk_buf : Dsk2Nib.DskBuf)
    (hdsk : ∀ t s i, Dsk2Nib.dsk_get dsk_buf t s i < 256) (v : Nat) (rs : List (Nat × Nat))
    (hrs : ∀ r ∈ rs, r.1 < 35 ∧ r.2 < 16) (hne : rs ≠ []) (s : Nib2Dsk.Fsm)
    (hs : s.state = 0) (hex : s.extra = 0) (hbuf : Spec.is_image_buffer s.dsk_buf)
    (hin : s.byte :: s.input
      = (rs.map (fun r => Spec.sector_record dsk_buf v r.1 r.2)).flatten) :
    ∃ s1, (∀ fuel, Nib2Dsk.convert_loop (fuel + 70 * rs.length) s = .done s1)
      ∧ s1.warnings = s.warnings
      ∧ s1.dsk_buf = rs.foldl (Spec.image_update dsk_buf) s.dsk_buf := by
  induction rs generalizing s with
  | nil => exact absurd rfl hne
  | cons r rs ih =>
    have hr := hrs r (List.mem_cons_self _ _)
    cases rs with
    | nil =>
      simp only [List.map_cons, List.map_nil, List.flatten_cons, List.flatten_nil] at hin
      obtain ⟨s15, hrun, h1, h2, h3, h4, _, h6, h7⟩ :=
        run_record dsk_buf hdsk v r.1 r.2 hr.1 hr.2 s [] hs hex hbuf hin
      refine ⟨{ s15 with state := Nib2Dsk.STATE_DONE }, fun fuel => ?_, h6, ?_⟩
      · have e : fuel + 70 * [r].length = (fuel + 1) + 69 := by
          simp only [List.length_cons, List.length_nil]
        rw [e, hrun, run_epilog_end fuel s15 h1 h2 h3 h4]
      · simp only [List.foldl_cons, List.foldl_nil]
        exact h7
    | cons r2 rs2 =>
      obtain ⟨tl, htl⟩ := sector_record_cons dsk_buf v r2.1 r2.2
      have hin2 : s.byte :: s.input = Spec.sector_record dsk_buf v r.1 r.2
          ++ 0xFF :: (tl ++ (rs2.map (fun r => Spec.sector_record dsk_buf v r.1 r.2)).flatten) := by
        rw [hin]
        simp only [List.map_cons, List.flatten_cons, htl, List.cons_append]
      obtain ⟨s15, hrun, h1, h2, h3, h4, h5, h6, h7⟩ :=
        run_record dsk_buf hdsk v r.1 r.2 hr.1 hr.2 s _ hs hex hbuf hin2
      obtain ⟨s1, hrun1, hw1, hd1⟩ := ih (fun x hx => hrs x (List.mem_cons_of_mem _ hx))
        (List.cons_ne_nil _ _)
        { s15 with
          input := tl ++ (rs2.map (fun r => Spec.sector_record dsk_buf v r.1 r.2)).flatten
          state := 0
          byte := 0xFF }
        rfl h5
        (by
          show Spec.is_image_buffer s15.dsk_buf
          rw [h7]
          exact image_update_buffer dsk_buf s.dsk_buf (r.1, r.2) hbuf hr)
        (by simp only [List.map_cons, List.flatten_cons, htl, List.cons_append])
      refine ⟨s1, fun fuel => ?_, ?_, ?_⟩
      · have e : fuel + 70 * (r :: r2 :: rs2).length
            = ((fuel + 70 * (r2 :: rs2).length) + 1) + 69 := by
          simp only [List.length_cons]
          omega
        rw [e, hrun, run_epilog_more _ s15 h1 h2 h3 _ _ h4, hrun1]
      · rw [hw1]
        exact h6
      · rw [hd1]
        simp only [List.foldl_cons]
        rw [h7]

theorem record_order_facts :
    Spec.record_order.length = 560 ∧ ∀ r ∈ Spec.record_order, r.1 < 35 ∧ r.2 < 16 := by
  refine ⟨by decide, by decide⟩

theorem nib_image_eq (dsk_buf : Dsk2Nib.DskBuf) (v : Nat) :
    Spec.nib_image dsk_buf v
      = (Spec.record_order.map (fun r => Spec.sector_record dsk_buf v r.1 r.2)).flatten := by
  unfold Spec.nib_image Spec.record_order Spec.nib_track
  rw [List.map_flatten, List.flatten_flatten]
  simp only [List.map_map]
  rfl

theorem nib_image_length (dsk_buf : Dsk2Nib.DskBuf) (v : Nat) :
    (Spec.nib_image dsk_buf v).length = 232960 := by
  unfold Spec.nib_image
  rw [flatten_blocks_length _ 6656 35 (fun t _ => nib_track_length dsk_buf v t)]

theorem dsk_track_length (dsk_buf : Dsk2Nib.DskBuf) (t : Nat) :
    (Spec.dsk_track dsk_buf t).length = 4096 := by
  unfold Spec.dsk_track
  rw [flatten_blocks_length _ 256 16 (fun l _ => by simp)]

theorem interleave_facts :
    Nib2Dsk.interleave = Dsk2Nib.soft_interleave
      ∧ (∀ p, p < 16 → Nib2Dsk.interleave.getD (Spec.slot_index p) 0 < 16)
      ∧ (∀ j, j < 16 → ∀ k, k < 16 →
          Nib2Dsk.interleave.getD (Spec.slot_index j) 0
            = Nib2Dsk.interleave.getD (Spec.slot_index k) 0 → j = k)
      ∧ (∀ l, l < 16 → ∃ p, p < 16 ∧ Nib2Dsk.interleave.getD (Spec.slot_index p) 0 = l) := by
  refine ⟨rfl, by decide, by decide, by decide⟩

/-- Decoding the 16 records of a track, in the order of their physical
slots, stores the whole track. -/
theorem image_update_track (dsk_buf : Dsk2Nib.DskBuf) (d : Nib2Dsk.DskBuf) (t : Nat)
    (hd : Spec.is_image_buffer d) (ht : t < 35) :
    ((List.range 16).map (fun p => (t, Spec.slot_index p))).foldl (Spec.image_update dsk_buf) d
      = d.set t ((Spec.dsk_track dsk_buf t).map some) := by
  obtain ⟨g0, g1, g2, g3⟩ := interleave_facts
  have hl : (d.getD t []).length = 16 * 256 := is_image_buffer_getD d hd t ht
  rw [List.foldl_map]
  unfold Spec.image_update
  simp only
  rw [foldl_update_track d t (by rw [hd.1]; exact ht)
    (fun p trk => memcpy trk (Nib2Dsk.interleave.getD (Spec.slot_index p) 0 * 256)
      ((List.range 256).map (Dsk2Nib.dsk_get dsk_buf t
        (Dsk2Nib.soft_interleave.getD (Spec.slot_index p) 0)))) (List.range 16)]
  have h := foldl_memcpy_all 256 16 (Nat.succ_pos _)
    (fun p => Nib2Dsk.interleave.getD (Spec.slot_index p) 0)
    (fun p => (List.range 256).map (Dsk2Nib.dsk_get dsk_buf t
        (Dsk2Nib.soft_interleave.getD (Spec.slot_index p) 0)))
    (fun l => (List.range 256).map (Dsk2Nib.dsk_get dsk_buf t l)) (List.range 16)
    (d.getD t []) hl
    (fun p _ => by simp only [List.length_map, List.length_range])
    (fun p hp => g1 p (List.mem_range.1 hp))
    (fun j hj k hk h => g2 j (List.mem_range.1 hj) k (List.mem_range.1 hk) h)
    (fun l hl1 => by
      obtain ⟨p, hp, hpl⟩ := g3 l hl1
      refine ⟨p, List.mem_range.2 hp, hpl, ?_⟩
      simp only [← g0, hpl])
  rw [h]
  rfl

theorem image_update_tracks (dsk_buf : Dsk2Nib.DskBuf) (n : Nat) (hn : n ≤ 35) :
    (List.range n).foldl
        (fun d t => ((List.range 16).map (fun p => (t, Spec.slot_index p))).foldl
          (Spec.image_update dsk_buf) d) Nib2Dsk.dsk_init
      = (List.range 35).map (fun t =>
          if t < n then (Spec.dsk_track dsk_buf t).map some else List.replicate 4096 none) := by
  induction n with
  | zero =>
    simp only [List.range_zero, List.foldl_nil, Nib2Dsk.dsk_init, Nib2Dsk.TRACKS_PER_DISK,
      Nib2Dsk.BYTES_PER_TRACK, Nat.not_lt_zero, if_false]
    apply List.ext_getElem (by simp only [List.length_replicate, List.length_map,
      List.length_range])
    intro i h1 h2
    simp only [List.getElem_replicate, List.getElem_map]
  | succ n ih =>
    rw [show List.range (n + 1) = List.range n ++ [n] from List.range_succ n,
      List.foldl_append, ih (by omega)]
    simp only [List.foldl_cons, List.foldl_nil]
    have hbuf : Spec.is_image_buffer ((List.range 35).map (fun t =>
        if t < n then (Spec.dsk_track dsk_buf t).map some else List.replicate 4096 none)) := by
      refine ⟨by simp only [List.length_map, List.length_range], ?_⟩
      intro x hx
      rw [List.mem_map] at hx
      obtain ⟨t, _, rfl⟩ := hx
      split
      · rw [List.length_map, dsk_track_length]
      · rw [List.length_replicate]
    rw [image_update_track dsk_buf _ n hbuf (by omega)]
    apply List.ext_getElem (by simp only [List.length_set, List.length_map, List.length_range])
    intro i h1 h2
    simp only [List.length_map, List.length_range] at h2
    simp only [List.getElem_set, List.getElem_map, List.getElem_range]
    by_cases h : n = i
    · subst h
      simp
    · by_cases h3 : i < n
      · have : i < n + 1 := by omega
        simp [h, h3, this]
      · have : ¬ i < n + 1 := by omega
        simp only [h, h3, this, if_false]

/-- Decoding all records of a NIB image stores every track of the DSK
image. -/
theorem image_update_all (dsk_buf : Dsk2Nib.DskBuf) :
    Spec.record_order.foldl (Spec.image_update dsk_buf) Nib2Dsk.dsk_init
      = (List.range 35).map (fun t => (Spec.dsk_track dsk_buf t).map some) := by
  unfold Spec.record_order
  rw [List.foldl_flatten, List.foldl_map, image_update_tracks dsk_buf 35 (le_refl _)]
  apply List.map_congr_left
  intro t ht
  have : t < 35 := List.mem_range.1 ht
  simp only [this, if_true]

/-! ## The end-to-end round trip -/

theorem getD_lt_of_forall (l : List Nat) (h : ∀ b ∈ l, b < 256) (i : Nat) : l.getD i 0 < 256 := by
  rw [List.getD_eq_getElem?_getD]
  cases e : l[i]? with
  | none => exact Nat.succ_pos _
  | some b => exact h b (List.getElem?_mem e)

theorem dsk_read_eq (file : List Nat) (hlen : file.length = 143360) :
    Dsk2Nib.dsk_read file
      = .ok ((List.range 35).map (fun i => sliceAt file (i * 4096) 4096)) := by
  unfold Dsk2Nib.dsk_read
  rw [if_pos (by rw [hlen]; exact Nat.le_refl _)]
  rfl

theorem dsk_get_lt (dsk_buf : Dsk2Nib.DskBuf) (h : ∀ trk ∈ dsk_buf, ∀ b ∈ trk, b < 256)
    (t s i : Nat) : Dsk2Nib.dsk_get dsk_buf t s i < 256 := by
  unfold Dsk2Nib.dsk_get
  apply getD_lt_of_forall
  rw [List.getD_eq_getElem?_getD]
  cases e : dsk_buf[t]? with
  | none => intro b hb; cases hb
  | some trk => exact h trk (List.getElem?_mem e)

theorem mem_sliceAt {α : Type} (l : List α) (off len : Nat) (x : α)
    (h : x ∈ sliceAt l off len) : x ∈ l :=
  List.mem_of_mem_drop (List.mem_of_mem_take h)

theorem sliceAt_length {α : Type} (l : List α) (off len : Nat) (h : off + len ≤ l.length) :
    (sliceAt l off len).length = len := by
  unfold sliceAt
  rw [List.length_take, List.length_drop]
  omega

/-- A track of the encoder's image buffer, read sector by sector through
`dsk_get`, is the track. -/
theorem dsk_track_eq (dsk_buf : Dsk2Nib.DskBuf) (t : Nat)
    (h : (dsk_buf.getD t []).length = 4096) :
    Spec.dsk_track dsk_buf t = dsk_buf.getD t [] := by
  apply List.ext_getElem?
  intro a
  by_cases ha : a < 16 * 256
  · unfold Spec.dsk_track
    rw [getElem?_flatten_blocks _ 256 16 (Nat.succ_pos _) (fun l _ => by
      simp only [List.length_map, List.length_range]) a ha]
    have hm : a % 256 < 256 := Nat.mod_lt _ (Nat.succ_pos _)
    have hd := Nat.div_add_mod a 256
    rw [List.getElem?_map, List.getElem?_range hm, Option.map_some']
    unfold Dsk2Nib.dsk_get Dsk2Nib.BYTES_PER_SECTOR
    have e : a / 256 * 256 + a % 256 = a := by omega
    rw [e, List.getD_eq_getElem?_getD, List.getElem?_eq_getElem (by rw [h]; omega)]
    rfl
  · rw [List.getElem?_eq_none (by rw [dsk_track_length]; omega),
      List.getElem?_eq_none (by omega)]

/-- A list cut into `n` blocks of `B` cells and put together again. -/
theorem flatten_slices {α : Type} (l : List α) (B n : Nat) (hB : 0 < B) (h : l.length = n * B) :
    ((List.range n).map (fun i => sliceAt l (i * B) B)).flatten = l := by
  have hb : ∀ p, p < n → (sliceAt l (p * B) B).length = B := by
    intro p hp
    apply sliceAt_length
    have : (p + 1) * B ≤ n * B := Nat.mul_le_mul_right B hp
    rw [Nat.succ_mul] at this
    omega
  apply List.ext_getElem?
  intro a
  by_cases ha : a < n * B
  · rw [getElem?_flatten_blocks _ B n hB hb a ha]
    unfold sliceAt
    rw [List.getElem?_take_of_lt (Nat.mod_lt _ hB), List.getElem?_drop]
    have hd := Nat.div_add_mod a B
    have e : a / B * B + a % B = a := by rw [Nat.mul_comm]; exact hd
    rw [e]
  · rw [List.getElem?_eq_none (by rw [flatten_blocks_length _ B n hb]; omega),
      List.getElem?_eq_none (by omega)]

/-- The cells `dsk_write` writes when every track has been stored. -/
theorem dsk_write_tracks (file : List Nat) (hlen : file.length = 143360) :
    Nib2Dsk.dsk_write ((List.range 35).map (fun t =>
      (Spec.dsk_track ((List.range 35).map (fun i => sliceAt file (i * 4096) 4096)) t).map some))
      = file.map some := by
  unfold Nib2Dsk.dsk_write Nib2Dsk.TRACKS_PER_DISK
  have e : (List.range 35).map (fun i =>
        ((List.range 35).map (fun t =>
          (Spec.dsk_track ((List.range 35).map (fun i => sliceAt file (i * 4096) 4096)) t).map
            some)).getD i [])
      = (List.range 35).map (fun i => (sliceAt file (i * 4096) 4096).map some) := by
    apply List.map_congr_left
    intro t ht
    have ht1 : t < 35 := List.mem_range.1 ht
    have hg : ((List.range 35).map (fun i => sliceAt file (i * 4096) 4096)).getD t []
        = sliceAt file (t * 4096) 4096 := by
      rw [List.getD_eq_getElem _ _ (by simpa using ht1)]
      simp only [List.getElem_map, List.getElem_range]
    rw [List.getD_eq_getElem _ _ (by simpa using ht1)]
    simp only [List.getElem_map, List.getElem_range]
    rw [dsk_track_eq _ t (by rw [hg]; exact sliceAt_length _ _ _ (by omega)), hg]
  rw [e]
  have e2 : (List.range 35).map (fun i => (sliceAt file (i * 4096) 4096).map some)
      = ((List.range 35).map (fun i => sliceAt file (i * 4096) 4096)).map (List.map some) := by
    rw [List.map_map]
    rfl
  rw [e2, ← List.map_flatten, flatten_slices file 4096 35 (Nat.succ_pos _) hlen]

/-- The cells `nib_write` writes after the loops of `main`. -/
theorem nib_write_eq (dsk_buf : Dsk2Nib.DskBuf) (v : Nat) :
    Dsk2Nib.nib_write (Dsk2Nib.main_convert dsk_buf v)
      = (Spec.nib_image dsk_buf v).map some := by
  unfold Dsk2Nib.nib_write Dsk2Nib.TRACKS_PER_DISK Spec.nib_image
  have e : (List.range 35).map (fun i => (Dsk2Nib.main_convert dsk_buf v).getD i [])
      = ((List.range 35).map (Spec.nib_track dsk_buf v)).map (List.map some) := by
    rw [List.map_map]
    apply List.map_congr_left
    intro t ht
    exact main_convert_getD dsk_buf v t (List.mem_range.1 ht)
  rw [e, ← List.map_flatten]

/-- C1: end-to-end round trip.  For every DSK file of 143,360 bytes and every
volume (in particular every volume in 0..255), `dsk2nib` writes a NIB file of 232,960 bytes, none of them
left unwritten; on that file `nib2dsk` reaches `STATE_DONE` without a fatal
error (39,200 passes of the FSM loop suffice) and writes exactly the bytes
of the DSK file, every cell of every sector of every track having been
stored. -/
theorem round_trip (file : List Nat) (volume : Nat) (hlen : file.length = 143360)
    (hbytes : ∀ b ∈ file, b < 256) :
    ∃ nib : List Nat, nib.length = 232960
      ∧ Dsk2Nib.dsk2nib file volume = .ok (nib.map some)
      ∧ ∀ fuel, 39200 ≤ fuel → Nib2Dsk.nib2dsk fuel nib = some (.ok (file.map some)) := by
  have hdsk : ∀ t s i, Dsk2Nib.dsk_get
      ((List.range 35).map (fun i => sliceAt file (i * 4096) 4096)) t s i < 256 := by
    apply dsk_get_lt
    intro trk htrk b hb
    rw [List.mem_map] at htrk
    obtain ⟨i, _, rfl⟩ := htrk
    exact hbytes b (mem_sliceAt _ _ _ b hb)
  refine ⟨Spec.nib_image ((List.range 35).map (fun i => sliceAt file (i * 4096) 4096)) volume,
    nib_image_length _ _, ?_, ?_⟩
  · unfold Dsk2Nib.dsk2nib
    rw [dsk_read_eq file hlen]
    simp only
    rw [nib_write_eq]
  · intro fuel hfuel
    obtain ⟨h560, hrs⟩ := record_order_facts
    have hne : Spec.record_order ≠ [] := by
      intro h
      rw [h] at h560
      cases h560
    have hnib := nib_image_eq ((List.range 35).map (fun i => sliceAt file (i * 4096) 4096)) volume
    cases hr : Spec.record_order with
    | nil => exact absurd hr hne
    | cons r rs =>
      obtain ⟨tl, htl⟩ := sector_record_cons
        ((List.range 35).map (fun i => sliceAt file (i * 4096) 4096)) volume r.1 r.2
      have hin : Spec.nib_image ((List.range 35).map (fun i => sliceAt file (i * 4096) 4096))
          volume = 0xFF :: (tl ++ (rs.map (fun r => Spec.sector_record
            ((List.range 35).map (fun i => sliceAt file (i * 4096) 4096)) volume r.1 r.2)).flatten) := by
        rw [hnib, hr]
        simp only [List.map_cons, List.flatten_cons, htl, List.cons_append]
      obtain ⟨s1, hrun, _, hd⟩ := run_records
        ((List.range 35).map (fun i => sliceAt file (i * 4096) 4096)) hdsk volume
        Spec.record_order hrs hne
        (Nib2Dsk.fsm_init 0xFF (tl ++ (rs.map (fun r => Spec.sector_record
            ((List.range 35).map (fun i => sliceAt file (i * 4096) 4096)) volume r.1 r.2)).flatten)
          Nib2Dsk.dsk_init)
        rfl rfl is_image_buffer_dsk_init
        (by
          rw [← hnib]
          exact hin.symm)
      have hf : fuel = (fuel - 39200) + 70 * Spec.record_order.length := by
        rw [h560]
        omega
      unfold Nib2Dsk.nib2dsk Nib2Dsk.convert_image
      rw [hin]
      simp only [Nib2Dsk.get_byte]
      rw [hf, hrun]
      simp only
      rw [hd]
      have hd2 : (Nib2Dsk.fsm_init 0xFF (tl ++ (rs.map (fun r => Spec.sector_record
            ((List.range 35).map (fun i => sliceAt file (i * 4096) 4096)) volume r.1 r.2)).flatten)
          Nib2Dsk.dsk_init).dsk_buf = Nib2Dsk.dsk_init := rfl
      rw [hd2, image_update_all, dsk_write_tracks file hlen]

theorem round_trip_witness :
    Spec.pattern_image.length = 143360 ∧ (∀ b ∈ Spec.pattern_image, b < 256)
      ∧ ∃ nib : List Nat, nib.length = 232960
        ∧ Dsk2Nib.dsk2nib Spec.pattern_image 254 = .ok (nib.map some)
        ∧ ∀ fuel, 39200 ≤ fuel →
          Nib2Dsk.nib2dsk fuel nib = some (.ok (Spec.pattern_image.map some)) :=
  have hlen : Spec.pattern_image.length = 143360 := by
    unfold Spec.pattern_image
    rw [List.length_map, List.length_range]
  have hbytes : ∀ b ∈ Spec.pattern_image, b < 256 := by
    intro b hb
    unfold Spec.pattern_image at hb
    rw [List.mem_map] at hb
    obtain ⟨a, _, rfl⟩ := hb
    exact Nat.mod_lt _ (Nat.succ_pos _)
  ⟨hlen, hbytes, round_trip Spec.pattern_image 254 hlen hbytes⟩

/-! ## The marks of the synchronizer -/

/-- C18: the interleave tables are permutations.  `soft_interleave` and
`phys_interleave` of `dsk2nib.c` are rearrangements of 0..15 (16 entries,
none repeated, each value of 0..15 present); the table `interleave` of
`nib2dsk.c` is `soft_interleave` entry for entry.  The encoder takes the
record with transmitted sector number `k` from logical sector
`soft_interleave[k]` and transmits `k` in the address field; the decoder
stores the payload of a record whose decoded sector number is `k` at byte
offset `256 * soft_interleave[k]` of the track, the slot the encoder took
it from. -/
theorem interleave_permutations :
    Dsk2Nib.soft_interleave.length = 16 ∧ Dsk2Nib.phys_interleave.length = 16
      ∧ Dsk2Nib.soft_interleave.Nodup ∧ Dsk2Nib.phys_interleave.Nodup
      ∧ List.Perm Dsk2Nib.soft_interleave (List.range 16)
      ∧ List.Perm Dsk2Nib.phys_interleave (List.range 16)
      ∧ (∀ k, k < 16 → Dsk2Nib.soft_interleave.getD k 0 < 16
          ∧ Dsk2Nib.phys_interleave.getD k 0 < 16)
      ∧ (∀ j, j < 16 → (∃ k, k < 16 ∧ Dsk2Nib.soft_interleave.getD k 0 = j)
          ∧ (∃ k, k < 16 ∧ Dsk2Nib.phys_interleave.getD k 0 = j))
      ∧ Nib2Dsk.interleave = Dsk2Nib.soft_interleave
      ∧ (∀ k, k < 16 → Nib2Dsk.interleave.getD k 0 = Dsk2Nib.soft_interleave.getD k 0)
      ∧ (∀ (dsk_buf : Dsk2Nib.DskBuf) (volume trk k : Nat) (st : Dsk2Nib.MainState),
          (Dsk2Nib.main_sector dsk_buf volume trk st k).nib_sector.addr.sector
              = Dsk2Nib.odd_even_encode k
            ∧ (Dsk2Nib.main_sector dsk_buf volume trk st k).nib_sector.data.data
                ++ [(Dsk2Nib.main_sector dsk_buf volume trk st k).nib_sector.data.data_checksum]
              = Dsk2Nib.nibbilize_out
                  (Dsk2Nib.dsk_get dsk_buf trk (Dsk2Nib.soft_interleave.getD k 0)))
      ∧ (∀ (s : Nib2Dsk.Fsm) (src : Nat → Nat) (rest : List Nat),
          (∀ i, src i < 256) → s.track < 35 → s.sector < 16 → Spec.is_image_buffer s.dsk_buf →
          s.byte = (Dsk2Nib.nibbilize_out src).headD 0 →
          s.input = (Dsk2Nib.nibbilize_out src).tail ++ rest →
          Nib2Dsk.process_data s
            = .ok { s with
                input := rest
                dsk_buf := s.dsk_buf.set s.track
                  (memcpy (s.dsk_buf.getD s.track [])
                    (Dsk2Nib.soft_interleave.getD s.sector 0 * 256)
                    ((List.range 256).map src)) }) := by
  refine ⟨by decide, by decide, by decide, by decide, by decide, by decide, by decide,
    by decide, rfl, fun _ _ => rfl, fun _ _ _ _ _ => ⟨rfl, rfl⟩, ?_⟩
  intro s src rest hsrc ht hs hbuf hb hi
  have hl := is_image_buffer_getD s.dsk_buf hbuf s.track ht
  have hil := interleave_lt s.sector hs
  exact process_data_nibbilize s src hsrc rest ht hs (by rw [hbuf.1]; exact ht)
    (by rw [hl]; omega) hb hi

/-- C14: a data-epilog mismatch is fatal.  From the pass of state 13 that
matches the first data-epilog byte 0xDE: when the next byte is not 0xAA,
the loop ends two passes later in the fatal error "data epilog mismatch"
with that byte; when it is 0xAA and the byte after it is not 0xEB, the loop
ends three passes later in the same fatal error with that byte.  The
program ends there: no pass follows. -/
theorem data_epilog_mismatch_fatal (s : Nib2Dsk.Fsm) (b1 : Nat) (rest : List Nat)
    (hs : s.state = 13) (hb : s.byte = 0xDE) (hi : s.input = b1 :: rest) :
    (b1 ≠ 0xAA →
        (∀ fuel, Nib2Dsk.convert_loop (fuel + 2) s = .fatal (.data_epilog_mismatch b1)))
      ∧ (∀ b2 rest2, b1 = 0xAA → rest = b2 :: rest2 → b2 ≠ 0xEB →
        (∀ fuel, Nib2Dsk.convert_loop (fuel + 3) s = .fatal (.data_epilog_mismatch b2))) := by
  obtain ⟨input, state, byte, api, aei, dpi, dei, vol, trk, sec, ex, dsk, w⟩ := s
  simp only at hs hb hi
  subst hs hb hi
  refine ⟨fun h1 fuel => ?_, fun b2 rest2 h1 h2 h3 fuel => ?_⟩
  · by_cases hex : ex = 0
    · simp [Nib2Dsk.convert_loop, Nib2Dsk.step, Nib2Dsk.STATE_DONE, Nib2Dsk.get_byte,
        Nib2Dsk.data_epilog, Nib2Dsk.next_or_ueof, h1, hex]
    · simp [Nib2Dsk.convert_loop, Nib2Dsk.step, Nib2Dsk.STATE_DONE, Nib2Dsk.get_byte,
        Nib2Dsk.data_epilog, Nib2Dsk.next_or_ueof, h1, hex]
  · subst h1 h2
    by_cases hex : ex = 0
    · simp [Nib2Dsk.convert_loop, Nib2Dsk.step, Nib2Dsk.STATE_DONE, Nib2Dsk.get_byte,
        Nib2Dsk.data_epilog, Nib2Dsk.next_or_ueof, h3, hex]
    · simp [Nib2Dsk.convert_loop, Nib2Dsk.step, Nib2Dsk.STATE_DONE, Nib2Dsk.get_byte,
        Nib2Dsk.data_epilog, Nib2Dsk.next_or_ueof, h3, hex]

theorem data_epilog_mismatch_fatal_witness :
    (13 : Nat) = 13 ∧ (0xDE : Nat) = 0xDE
      ∧ ((0xFF : Nat) ≠ 0xAA →
        (∀ fuel, Nib2Dsk.convert_loop (fuel + 2)
            { Nib2Dsk.fsm_init 0xDE [0xFF, 0xEB] Nib2Dsk.dsk_init with state := 13 }
          = .fatal (.data_epilog_mismatch 0xFF)))
      ∧ (∀ b2 rest2, (0xFF : Nat) = 0xAA → [0xEB] = b2 :: rest2 → b2 ≠ 0xEB →
        (∀ fuel, Nib2Dsk.convert_loop (fuel + 3)
            { Nib2Dsk.fsm_init 0xDE [0xFF, 0xEB] Nib2Dsk.dsk_init with state := 13 }
          = .fatal (.data_epilog_mismatch b2))) :=
  ⟨rfl, rfl, data_epilog_mismatch_fatal
    { Nib2Dsk.fsm_init 0xDE [0xFF, 0xEB] Nib2Dsk.dsk_init with state := 13 } 0xFF [0xEB]
    rfl rfl rfl⟩

/-- C20: mark mismatches resynchronize.  In states 1 and 2 (second and third
address-prolog byte) and in states 7 and 8 (first and second address-epilog
byte) a byte other than the mark byte the state compares with sends the
machine to state 0; in states 10 and 11 (second and third data-prolog byte)
it sends the machine to state 9, not to state 0.  In every such pass no
byte is fetched: `byte` and the unread input are as before, so the scan
state examines the same byte; the image buffer and the decoded volume,
track and sector are as before as well. -/
theorem mark_mismatch_resync (s : Nib2Dsk.Fsm) :
    ((s.state = 1 ∨ s.state = 2) →
        s.byte ≠ Nib2Dsk.addr_prolog.getD s.addr_prolog_index 0 →
        Nib2Dsk.step s = .ok { s with state := 0 })
      ∧ (s.state = 7 → s.byte ≠ 0xDE →
        Nib2Dsk.step s = .ok { s with state := 0, addr_epilog_index := 0 })
      ∧ (s.state = 8 → s.byte ≠ Nib2Dsk.addr_epilog.getD s.addr_epilog_index 0 →
        Nib2Dsk.step s = .ok { s with state := 0 })
      ∧ ((s.state = 10 ∨ s.state = 11) →
        s.byte ≠ Nib2Dsk.data_prolog.getD s.data_prolog_index 0 →
        Nib2Dsk.step s = .ok { s with state := 9 })
      ∧ (Nib2Dsk.addr_prolog.getD 1 0 = 0xAA ∧ Nib2Dsk.addr_prolog.getD 2 0 = 0x96
          ∧ Nib2Dsk.addr_epilog.getD 1 0 = 0xAA ∧ Nib2Dsk.data_prolog.getD 1 0 = 0xAA
          ∧ Nib2Dsk.data_prolog.getD 2 0 = 0xAD) := by
  obtain ⟨input, state, byte, api, aei, dpi, dei, vol, trk, sec, ex, dsk, w⟩ := s
  refine ⟨?_, ?_, ?_, ?_, by decide⟩
  · rintro (h | h) hb <;> simp only at h hb <;> subst h <;>
      simp only [Nib2Dsk.step, hb, if_false]
  · intro h hb
    simp only at h hb
    subst h
    simp [Nib2Dsk.step, Nib2Dsk.addr_epilog, hb]
  · intro h hb
    simp only at h hb
    subst h
    simp only [Nib2Dsk.step, hb, if_false]
  · rintro (h | h) hb <;> simp only at h hb <;> subst h <;>
      simp only [Nib2Dsk.step, hb, if_false]

/-! ## The end of the input -/

/-- State 0 on an input without the byte 0xD5: every byte is skipped and the
loop is left at the end of the input. -/
theorem run_scan0 (input : List Nat) (s : Nib2Dsk.Fsm) (hs : s.state = 0) (hb : s.byte ≠ 0xD5)
    (hi : s.input = input) (hx : ∀ x ∈ input, x ≠ 0xD5) :
    ∃ s1, (∀ fuel, Nib2Dsk.convert_loop (fuel + (input.length + 1)) s = .done s1)
      ∧ s1.state = Nib2Dsk.STATE_DONE ∧ s1.dsk_buf = s.dsk_buf ∧ s1.warnings = s.warnings := by
  induction input generalizing s with
  | nil =>
    obtain ⟨input, state, byte, api, aei, dpi, dei, vol, trk, sec, ex, dsk, w⟩ := s
    simp only at hs hb hi
    subst hs hi
    refine ⟨⟨[], Nib2Dsk.STATE_DONE, byte, 0, aei, dpi, dei, vol, trk, sec, ex, dsk, w⟩,
      fun fuel => ?_, rfl, rfl, rfl⟩
    rw [List.length_nil, loop_step _ _
      (⟨[], Nib2Dsk.STATE_DONE, byte, 0, aei, dpi, dei, vol, trk, sec, ex, dsk, w⟩ : Nib2Dsk.Fsm)
      (by simp [Nib2Dsk.STATE_DONE])
      (by simp [Nib2Dsk.step, Nib2Dsk.get_byte, Nib2Dsk.addr_prolog, hb])]
    exact loop_done _ _ rfl
  | cons b rest ih =>
    obtain ⟨input, state, byte, api, aei, dpi, dei, vol, trk, sec, ex, dsk, w⟩ := s
    simp only at hs hb hi
    subst hs hi
    obtain ⟨s1, hrun, h1, h2, h3⟩ := ih
      { input := rest, state := 0, byte := b, addr_prolog_index := 0,
        addr_epilog_index := aei, data_prolog_index := dpi, data_epilog_index := dei,
        volume := vol, track := trk, sector := sec, extra := ex, dsk_buf := dsk, warnings := w }
      rfl (hx b (List.mem_cons_self _ _)) rfl (fun x h => hx x (List.mem_cons_of_mem _ h))
    refine ⟨s1, fun fuel => ?_, h1, h2, h3⟩
    have e : fuel + ((b :: rest).length + 1) = (fuel + (rest.length + 1)) + 1 := by
      simp only [List.length_cons]
      omega
    rw [e, loop_step _ _
      (⟨rest, 0, b, 0, aei, dpi, dei, vol, trk, sec, ex, dsk, w⟩ : Nib2Dsk.Fsm)
      (by simp [Nib2Dsk.STATE_DONE])
      (by simp [Nib2Dsk.step, Nib2Dsk.get_byte, Nib2Dsk.addr_prolog, hb])]
    exact hrun fuel

/-- C12 as stated fails on the empty stream: `convert_image` ends in the
fatal error "Unexpected End of File" at its first `get_byte`, before the FSM
loop is entered, and no DSK file is written. -/
theorem empty_stream_fatal :
    Nib2Dsk.nib2dsk 100 [] = some (.error .ueof)
      ∧ (∀ fuel, Nib2Dsk.convert_image fuel [] Nib2Dsk.dsk_init = .fatal .ueof)
      ∧ ¬ (∃ fuel s, Nib2Dsk.convert_image fuel [] Nib2Dsk.dsk_init = .done s) := by
  refine ⟨rfl, fun _ => rfl, ?_⟩
  rintro ⟨fuel, s, h⟩
  cases h

/-- C12, amended: clean termination on a non-empty stream.  When the input
is exhausted in a pass of state 0 (ScanAddrProlog), that pass leaves the
loop with `STATE_DONE`: no fatal error, the image buffer and the warnings as
they were.  In particular on every non-empty stream in which the byte 0xD5
does not occur (a stream of gap bytes) `nib2dsk` ends without a fatal error
after one pass for each byte, and writes the image buffer as `dsk_init`
left it. -/
theorem clean_termination :
    (∀ s : Nib2Dsk.Fsm, s.state = 0 → s.input = [] →
        ∃ s1, (∀ fuel, Nib2Dsk.convert_loop (fuel + 1) s = .done s1)
          ∧ Nib2Dsk.step s = .ok s1
          ∧ s1.state = Nib2Dsk.STATE_DONE ∧ s1.dsk_buf = s.dsk_buf
          ∧ s1.warnings = s.warnings)
      ∧ (∀ (b : Nat) (gap : List Nat), b ≠ 0xD5 → (∀ x ∈ gap, x ≠ 0xD5) →
        ∀ fuel, gap.length + 1 ≤ fuel →
          Nib2Dsk.nib2dsk fuel (b :: gap) = some (.ok (Nib2Dsk.dsk_write Nib2Dsk.dsk_init))) := by
  constructor
  · intro s hs hi
    obtain ⟨input, state, byte, api, aei, dpi, dei, vol, trk, sec, ex, dsk, w⟩ := s
    simp only at hs hi
    subst hs hi
    by_cases hb : byte = 0xD5
    · refine ⟨⟨[], Nib2Dsk.STATE_DONE, byte, 1, aei, dpi, dei, vol, trk, sec, ex, dsk, w⟩,
        fun fuel => ?_, ?_, rfl, rfl, rfl⟩
      · rw [loop_step _ _
          (⟨[], Nib2Dsk.STATE_DONE, byte, 1, aei, dpi, dei, vol, trk, sec, ex, dsk, w⟩ :
            Nib2Dsk.Fsm)
          (by simp [Nib2Dsk.STATE_DONE])
          (by simp [Nib2Dsk.step, Nib2Dsk.get_byte, Nib2Dsk.addr_prolog, hb])]
        exact loop_done _ _ rfl
      · simp [Nib2Dsk.step, Nib2Dsk.get_byte, Nib2Dsk.addr_prolog, hb]
    · refine ⟨⟨[], Nib2Dsk.STATE_DONE, byte, 0, aei, dpi, dei, vol, trk, sec, ex, dsk, w⟩,
        fun fuel => ?_, ?_, rfl, rfl, rfl⟩
      · rw [loop_step _ _
          (⟨[], Nib2Dsk.STATE_DONE, byte, 0, aei, dpi, dei, vol, trk, sec, ex, dsk, w⟩ :
            Nib2Dsk.Fsm)
          (by simp [Nib2Dsk.STATE_DONE])
          (by simp [Nib2Dsk.step, Nib2Dsk.get_byte, Nib2Dsk.addr_prolog, hb])]
        exact loop_done _ _ rfl
      · simp [Nib2Dsk.step, Nib2Dsk.get_byte, Nib2Dsk.addr_prolog, hb]
  · intro b gap hb hgap fuel hfuel
    obtain ⟨s1, hrun, _, h2, _⟩ := run_scan0 gap (Nib2Dsk.fsm_init b gap Nib2Dsk.dsk_init)
      rfl hb rfl hgap
    have hf : fuel = (fuel - (gap.length + 1)) + (gap.length + 1) := by omega
    unfold Nib2Dsk.nib2dsk Nib2Dsk.convert_image
    simp only [Nib2Dsk.get_byte]
    rw [hf, hrun]
    simp only
    rw [h2]
    rfl

theorem clean_termination_witness :
    (∃ s1, (∀ fuel, Nib2Dsk.convert_loop (fuel + 1)
          (Nib2Dsk.fsm_init 0xFF [] Nib2Dsk.dsk_init) = .done s1)
        ∧ Nib2Dsk.step (Nib2Dsk.fsm_init 0xFF [] Nib2Dsk.dsk_init) = .ok s1
        ∧ s1.state = Nib2Dsk.STATE_DONE ∧ s1.dsk_buf = Nib2Dsk.dsk_init ∧ s1.warnings = [])
      ∧ Nib2Dsk.nib2dsk 3 [0xFF, 0xFF, 0xFF] = some (.ok (Nib2Dsk.dsk_write Nib2Dsk.dsk_init)) :=
  ⟨clean_termination.1 (Nib2Dsk.fsm_init 0xFF [] Nib2Dsk.dsk_init) rfl rfl,
    clean_termination.2 0xFF [0xFF, 0xFF] (by decide) (by decide) 3 (by decide)⟩

/-! ## Truncated input -/

/-- A reading loop of `process_data` on bytes of the table: fatal at the end
of the input when fewer than `n` bytes are left, and otherwise `n` bytes
are read. -/
theorem read_chain_valid (n : Nat) (c : Nat) (l : List Nat)
    (hl : ∀ x ∈ l, x ∈ Nib2Dsk.table) :
    (l.length < n → Nib2Dsk.read_chain n c l = .error .ueof)
      ∧ (n ≤ l.length → ∃ buf c1, Nib2Dsk.read_chain n c l = .ok (buf, c1, l.drop n)) := by
  induction n generalizing c l with
  | zero =>
    refine ⟨fun h => absurd h (Nat.not_lt_zero _), fun _ => ⟨[], c, ?_⟩⟩
    simp only [Nib2Dsk.read_chain, List.drop_zero]
  | succ n ih =>
    cases l with
    | nil =>
      refine ⟨fun _ => ?_, fun h => absurd h (by simp)⟩
      simp only [Nib2Dsk.read_chain, Nib2Dsk.get_byte]
    | cons x xs =>
      obtain ⟨u, _, _, hu⟩ := untranslate_of_mem x (hl x (List.mem_cons_self _ _))
      obtain ⟨ih1, ih2⟩ := ih ((c ^^^ u) % 256) xs (fun y hy => hl y (List.mem_cons_of_mem _ hy))
      constructor
      · intro h
        simp only [List.length_cons, Nat.add_lt_add_iff_right] at h
        simp only [Nib2Dsk.read_chain, Nib2Dsk.get_byte, hu, ih1 h]
      · intro h
        simp only [List.length_cons, Nat.add_le_add_iff_right] at h
        obtain ⟨buf, c1, hr⟩ := ih2 h
        exact ⟨_, c1, read_chain_succ_ok _ _ _ _ _ _ _ _ hu hr⟩

/-- The first half of `process_data` on bytes of the table that end before
the 343 bytes of the field are read: fatal at the end of the input. -/
theorem read_field_short (byte : Nat) (l : List Nat) (hb : byte ∈ Nib2Dsk.table)
    (hl : ∀ x ∈ l, x ∈ Nib2Dsk.table) (hlen : l.length < 342) :
    Nib2Dsk.read_field byte l = .error .ueof := by
  obtain ⟨u, _, _, hu⟩ := untranslate_of_mem byte hb
  unfold Nib2Dsk.read_field
  simp only [hu, Nib2Dsk.SECONDARY_BUF_LEN, Nib2Dsk.PRIMARY_BUF_LEN, Nat.reduceSub]
  obtain ⟨a1, a2⟩ := read_chain_valid 85 u l hl
  by_cases h1 : l.length < 85
  · simp only [a1 h1]
  · obtain ⟨buf, c1, hr⟩ := a2 (by omega)
    simp only [hr]
    obtain ⟨b1, b2⟩ := read_chain_valid 256 c1 (l.drop 85)
      (fun y hy => hl y (List.mem_of_mem_drop hy))
    by_cases h2 : (l.drop 85).length < 256
    · simp only [b1 h2]
    · obtain ⟨buf2, c2, hr2⟩ := b2 (by omega)
      simp only [hr2]
      have h3 : (l.drop 85).drop 256 = [] := by
        apply List.eq_nil_of_length_eq_zero
        rw [List.length_drop, List.length_drop]
        omega
      simp only [h3, Nib2Dsk.get_byte]

/-- A reading loop of `process_data` that ends otherwise than at the end of
the input ends the same way with more bytes behind the input. -/
theorem read_chain_more (n : Nat) (c : Nat) (l more : List Nat) :
    (∀ buf c1 rest, Nib2Dsk.read_chain n c l = .ok (buf, c1, rest) →
        Nib2Dsk.read_chain n c (l ++ more) = .ok (buf, c1, rest ++ more))
      ∧ (∀ e, e ≠ Nib2Dsk.Fatal.ueof → Nib2Dsk.read_chain n c l = .error e →
        Nib2Dsk.read_chain n c (l ++ more) = .error e) := by
  induction n generalizing c l with
  | zero =>
    refine ⟨fun buf c1 rest h => ?_, fun e _ h => ?_⟩
    · simp only [Nib2Dsk.read_chain, Except.ok.injEq, Prod.mk.injEq] at h
      obtain ⟨h1, h2, h3⟩ := h
      simp only [Nib2Dsk.read_chain, h1, h2, h3]
    · simp only [Nib2Dsk.read_chain] at h
      cases h
  | succ n ih =>
    cases l with
    | nil =>
      refine ⟨fun buf c1 rest h => ?_, fun e he h => ?_⟩
      · simp only [Nib2Dsk.read_chain, Nib2Dsk.get_byte] at h
        cases h
      · simp only [Nib2Dsk.read_chain, Nib2Dsk.get_byte] at h
        injection h with h
        exact absurd h.symm he
    | cons x xs =>
      cases hu : Nib2Dsk.untranslate x with
      | error e0 =>
        refine ⟨fun buf c1 rest h => ?_, fun e he h => ?_⟩
        · simp only [Nib2Dsk.read_chain, Nib2Dsk.get_byte, hu] at h
          cases h
        · simp only [Nib2Dsk.read_chain, Nib2Dsk.get_byte, hu] at h
          simp only [List.cons_append, Nib2Dsk.read_chain, Nib2Dsk.get_byte, hu]
          exact h
      | ok u =>
        obtain ⟨ih1, ih2⟩ := ih ((c ^^^ u) % 256) xs
        cases hr : Nib2Dsk.read_chain n ((c ^^^ u) % 256) xs with
        | error e1 =>
          refine ⟨fun buf c1 rest h => ?_, fun e he h => ?_⟩
          · simp only [Nib2Dsk.read_chain, Nib2Dsk.get_byte, hu, hr] at h
            cases h
          · simp only [Nib2Dsk.read_chain, Nib2Dsk.get_byte, hu, hr] at h
            injection h with h
            subst h
            simp only [List.cons_append, Nib2Dsk.read_chain, Nib2Dsk.get_byte, hu, ih2 _ he hr]
        | ok r =>
          obtain ⟨buf0, c0, rest0⟩ := r
          refine ⟨fun buf c1 rest h => ?_, fun e he h => ?_⟩
          · simp only [Nib2Dsk.read_chain, Nib2Dsk.get_byte, hu, hr, Except.ok.injEq,
              Prod.mk.injEq] at h
            obtain ⟨h1, h2, h3⟩ := h
            subst h1 h2 h3
            simp only [List.cons_append, Nib2Dsk.read_chain, Nib2Dsk.get_byte, hu,
              ih1 _ _ _ hr]
          · simp only [Nib2Dsk.read_chain, Nib2Dsk.get_byte, hu, hr] at h
            cases h

/-- The first half of `process_data`, when it ends otherwise than at the end
of the input, ends the same way with more bytes behind the input. -/
theorem read_field_more (byte : Nat) (l more : List Nat) :
    (∀ sb pb c rest, Nib2Dsk.read_field byte l = .ok (sb, pb, c, rest) →
        Nib2Dsk.read_field byte (l ++ more) = .ok (sb, pb, c, rest ++ more))
      ∧ (∀ e, e ≠ Nib2Dsk.Fatal.ueof → Nib2Dsk.read_field byte l = .error e →
        Nib2Dsk.read_field byte (l ++ more) = .error e) := by
  unfold Nib2Dsk.read_field
  cases hu : Nib2Dsk.untranslate byte with
  | error e0 => exact ⟨fun _ _ _ _ h => (by cases h), fun e _ h => h⟩
  | ok u =>
    simp only
    obtain ⟨a1, a2⟩ := read_chain_more (Nib2Dsk.SECONDARY_BUF_LEN - 1) u l more
    cases h1 : Nib2Dsk.read_chain (Nib2Dsk.SECONDARY_BUF_LEN - 1) u l with
    | error e1 =>
      refine ⟨fun _ _ _ _ h => (by cases h), fun e he h => ?_⟩
      injection h with h
      subst h
      simp only [a2 _ he h1]
    | ok r1 =>
      obtain ⟨buf1, c1, rest1⟩ := r1
      simp only [a1 _ _ _ h1]
      obtain ⟨b1, b2⟩ := read_chain_more Nib2Dsk.PRIMARY_BUF_LEN c1 rest1 more
      cases h2 : Nib2Dsk.read_chain Nib2Dsk.PRIMARY_BUF_LEN c1 rest1 with
      | error e2 =>
        refine ⟨fun _ _ _ _ h => (by cases h), fun e he h => ?_⟩
        injection h with h
        subst h
        simp only [b2 _ he h2]
      | ok r2 =>
        obtain ⟨buf2, c2, rest2⟩ := r2
        simp only [b1 _ _ _ h2]
        cases rest2 with
        | nil =>
          refine ⟨fun _ _ _ _ h => (by cases h), fun e he h => ?_⟩
          simp only [Nib2Dsk.get_byte] at h
          injection h with h
          exact absurd h.symm he
        | cons x xs =>
          simp only [List.cons_append, Nib2Dsk.get_byte]
          cases hx : Nib2Dsk.untranslate x with
          | error e3 => exact ⟨fun _ _ _ _ h => (by cases h), fun e _ h => h⟩
          | ok u3 =>
            refine ⟨fun sb pb c rest h => ?_, fun e _ h => by cases h⟩
            simp only [Except.ok.injEq, Prod.mk.injEq] at h
            obtain ⟨h1, h2, h3, h4⟩ := h
            subst h1 h2 h3 h4
            rfl

/-- The function `process_data`, when it ends otherwise than at the end of
the input, ends the same way with more bytes behind the input. -/
theorem process_data_more (s : Nib2Dsk.Fsm) (more : List Nat) :
    (∀ s1, Nib2Dsk.process_data s = .ok s1 →
        Nib2Dsk.process_data (Spec.with_more s more) = .ok (Spec.with_more s1 more))
      ∧ (∀ e, e ≠ Nib2Dsk.Fatal.ueof → Nib2Dsk.process_data s = .error e →
        Nib2Dsk.process_data (Spec.with_more s more) = .error e) := by
  obtain ⟨a1, a2⟩ := read_field_more s.byte s.input more
  unfold Nib2Dsk.process_data
  have hi : (Spec.with_more s more).input = s.input ++ more := rfl
  have hb : (Spec.with_more s more).byte = s.byte := rfl
  rw [hi, hb]
  cases h1 : Nib2Dsk.read_field s.byte s.input with
  | error e1 =>
    refine ⟨fun _ h => (by cases h), fun e he h => ?_⟩
    injection h with h
    subst h
    simp only [a2 _ he h1]
  | ok r =>
    obtain ⟨sb, pb, c, rest⟩ := r
    simp only [a1 _ _ _ _ h1]
    have hd : (Spec.with_more s more).dsk_buf = s.dsk_buf := rfl
    have ht : (Spec.with_more s more).track = s.track := rfl
    have hs : (Spec.with_more s more).sector = s.sector := rfl
    rw [hd, ht, hs]
    cases h2 : Nib2Dsk.denibbilize pb sb s.track s.sector (List.range Nib2Dsk.PRIMARY_BUF_LEN)
        s.dsk_buf with
    | error e2 => exact ⟨fun _ h => (by cases h), fun e _ h => h⟩
    | ok d =>
      refine ⟨fun s1 h => ?_, fun e _ h => by cases h⟩
      simp only [Except.ok.injEq] at h
      subst h
      rfl

/-- A pass of the FSM in one of the states 1 to 14 that ends otherwise than
in the fatal error "Unexpected End of File" ends the same way with more
bytes behind the input. -/
theorem step_more (s : Nib2Dsk.Fsm) (h1 : 1 ≤ s.state) (h2 : s.state ≤ 14) (more : List Nat) :
    (∀ s1, Nib2Dsk.step s = .ok s1 →
        Nib2Dsk.step (Spec.with_more s more) = .ok (Spec.with_more s1 more))
      ∧ (∀ e, e ≠ Nib2Dsk.Fatal.ueof → Nib2Dsk.step s = .error e →
        Nib2Dsk.step (Spec.with_more s more) = .error e) := by
  by_cases h12 : s.state = 12
  · obtain ⟨a1, a2⟩ := process_data_more s more
    have hst : (Spec.with_more s more).state = 12 := h12
    have e1 : Nib2Dsk.step s = (match Nib2Dsk.process_data s with
        | .error e => .error e
        | .ok s => Nib2Dsk.next_or_ueof { s with state := s.state + 1 }) := by
      obtain ⟨input, state, byte, api, aei, dpi, dei, vol, trk, sec, ex, dsk, w⟩ := s
      simp only at h12
      subst h12
      rfl
    have e2 : Nib2Dsk.step (Spec.with_more s more)
        = (match Nib2Dsk.process_data (Spec.with_more s more) with
        | .error e => .error e
        | .ok s => Nib2Dsk.next_or_ueof { s with state := s.state + 1 }) := by
      obtain ⟨input, state, byte, api, aei, dpi, dei, vol, trk, sec, ex, dsk, w⟩ := s
      simp only at h12
      subst h12
      rfl
    rw [e1, e2]
    cases hp : Nib2Dsk.process_data s with
    | error e0 =>
      refine ⟨fun _ h => (by cases h), fun e he h => ?_⟩
      injection h with h
      subst h
      simp only [a2 _ he hp]
    | ok s1 =>
      simp only [a1 _ hp]
      obtain ⟨input, state, byte, api, aei, dpi, dei, vol, trk, sec, ex, dsk, w⟩ := s1
      cases input with
      | nil =>
        refine ⟨fun _ h => (by cases h), fun e he h => ?_⟩
        simp only [Nib2Dsk.next_or_ueof, Nib2Dsk.get_byte] at h
        injection h with h
        exact absurd h.symm he
      | cons b r =>
        refine ⟨fun s2 h => ?_, fun e _ h => by cases h⟩
        simp only [Nib2Dsk.next_or_ueof, Nib2Dsk.get_byte, Except.ok.injEq] at h
        subst h
        rfl
  · obtain ⟨input, state, byte, api, aei, dpi, dei, vol, trk, sec, ex, dsk, w⟩ := s
    simp only at h1 h2 h12
    interval_cases state
    all_goals first
      | exact absurd rfl h12
      | (rcases input with _ | ⟨b, _ | ⟨b2, r⟩⟩ <;>
          simp only [Nib2Dsk.step, Nib2Dsk.next_or_ueof, Nib2Dsk.read_pair, Nib2Dsk.get_byte,
            Spec.with_more] <;>
          (try split_ifs) <;>
          (refine ⟨fun s1 h => ?_, fun e he h => ?_⟩) <;>
          (first
            | (injection h with h; subst h; rfl)
            | (injection h with h; exact absurd h.symm he)
            | cases h))

/-- The function `process_data` leaves the state of the FSM as it is. -/
theorem process_data_state (s s1 : Nib2Dsk.Fsm) (h : Nib2Dsk.process_data s = .ok s1) :
    s1.state = s.state := by
  unfold Nib2Dsk.process_data at h
  cases h1 : Nib2Dsk.read_field s.byte s.input with
  | error e1 =>
    rw [h1] at h
    cases h
  | ok r =>
    obtain ⟨sb, pb, c, rest⟩ := r
    rw [h1] at h
    simp only at h
    cases h2 : Nib2Dsk.denibbilize pb sb s.track s.sector (List.range Nib2Dsk.PRIMARY_BUF_LEN)
        s.dsk_buf with
    | error e2 =>
      rw [h2] at h
      cases h
    | ok d =>
      rw [h2] at h
      simp only [Except.ok.injEq] at h
      subst h
      rfl

/-- A pass of the FSM in one of the states 1 to 14 never leaves the loop. -/
theorem step_not_done (s s1 : Nib2Dsk.Fsm) (h1 : 1 ≤ s.state) (h2 : s.state ≤ 14)
    (h : Nib2Dsk.step s = .ok s1) : s1.state ≠ Nib2Dsk.STATE_DONE := by
  by_cases h12 : s.state = 12
  · have e1 : Nib2Dsk.step s = (match Nib2Dsk.process_data s with
        | .error e => .error e
        | .ok s => Nib2Dsk.next_or_ueof { s with state := s.state + 1 }) := by
      obtain ⟨input, state, byte, api, aei, dpi, dei, vol, trk, sec, ex, dsk, w⟩ := s
      simp only at h12
      subst h12
      rfl
    rw [e1] at h
    cases hp : Nib2Dsk.process_data s with
    | error e0 =>
      rw [hp] at h
      cases h
    | ok s2 =>
      have hs2 : s2.state = 12 := by
        rw [process_data_state s s2 hp]
        exact h12
      rw [hp] at h
      simp only [Nib2Dsk.next_or_ueof] at h
      split at h
      · cases h
      · injection h with h
        subst h
        simp only [hs2]
        decide
  · obtain ⟨input, state, byte, api, aei, dpi, dei, vol, trk, sec, ex, dsk, w⟩ := s
    simp only at h1 h2 h12
    interval_cases state
    all_goals first
      | exact absurd rfl h12
      | (rcases input with _ | ⟨b, _ | ⟨b2, r⟩⟩ <;>
          simp only [Nib2Dsk.step, Nib2Dsk.next_or_ueof, Nib2Dsk.read_pair, Nib2Dsk.get_byte]
            at h <;>
          (try split_ifs at h) <;>
          (first
            | (injection h with h; subst h; simp [Nib2Dsk.STATE_DONE])
            | cases h))

/-- C11: truncation is fatal.  For a pass of the FSM in any of the states 1
to 14 (every state other than ScanAddrProlog and the state that compares
the third data-epilog byte):
the pass never leaves the loop with `STATE_DONE`;
a pass that ends in the fatal error "Unexpected End of File" ends the
program with that error;
the pass either ends in that fatal error, or it found every byte it asked
for, its result being the same whatever bytes follow the unread input;
and the input running out is fatal in each of these states: with the unread
input empty after the second or third address-prolog byte, the first or
second address-epilog byte, the second or third data-prolog byte or the
second data-epilog byte matched, and in the two scanning states 9 and 13;
with fewer than two bytes unread in the states that read the volume, track,
sector and checksum pairs; with fewer than 342 bytes, all of the table,
unread inside the data field; and with nothing unread after the data
field.  (The bound 14 is sharp: in state 15, once the third data-epilog
byte has matched, the end of the input leaves the loop with `STATE_DONE`,
as in state 0.) -/
theorem truncation_fatal (s : Nib2Dsk.Fsm) (h1 : 1 ≤ s.state) (h2 : s.state ≤ 14) :
    (∀ s1, Nib2Dsk.step s = .ok s1 → s1.state ≠ Nib2Dsk.STATE_DONE)
      ∧ (Nib2Dsk.step s = .error .ueof →
          ∀ fuel, Nib2Dsk.convert_loop (fuel + 1) s = .fatal .ueof)
      ∧ (Nib2Dsk.step s = .error .ueof
          ∨ ∀ more, (∃ s1, Nib2Dsk.step s = .ok s1
                ∧ Nib2Dsk.step (Spec.with_more s more) = .ok (Spec.with_more s1 more))
              ∨ (∃ e, Nib2Dsk.step s = .error e
                ∧ Nib2Dsk.step (Spec.with_more s more) = .error e))
      ∧ ((((s.state = 1 ∨ s.state = 2)
              ∧ s.byte = Nib2Dsk.addr_prolog.getD s.addr_prolog_index 0)
            ∨ (s.state = 7 ∧ s.byte = 0xDE)
            ∨ (s.state = 8 ∧ s.byte = Nib2Dsk.addr_epilog.getD s.addr_epilog_index 0)
            ∨ s.state = 9
            ∨ ((s.state = 10 ∨ s.state = 11)
              ∧ s.byte = Nib2Dsk.data_prolog.getD s.data_prolog_index 0)
            ∨ s.state = 13
            ∨ (s.state = 14 ∧ s.byte = Nib2Dsk.data_epilog.getD s.data_epilog_index 0)) →
          s.input = [] → Nib2Dsk.step s = .error .ueof)
      ∧ ((3 ≤ s.state ∧ s.state ≤ 6) → s.input.length < 2 → Nib2Dsk.step s = .error .ueof)
      ∧ (s.state = 12 → s.byte ∈ Nib2Dsk.table → (∀ x ∈ s.input, x ∈ Nib2Dsk.table) →
          s.input.length < 342 → Nib2Dsk.step s = .error .ueof)
      ∧ (s.state = 12 → ∀ s1, Nib2Dsk.process_data s = .ok s1 → s1.input = [] →
          Nib2Dsk.step s = .error .ueof)
      ∧ (∀ s15 : Nib2Dsk.Fsm, s15.state = 15 →
          s15.byte = Nib2Dsk.data_epilog.getD s15.data_epilog_index 0 → s15.input = [] →
          Nib2Dsk.step s15 = .ok { s15 with state := Nib2Dsk.STATE_DONE }) := by
  have hnd : s.state ≠ Nib2Dsk.STATE_DONE := by
    simp only [Nib2Dsk.STATE_DONE]
    omega
  refine ⟨fun s1 h => step_not_done s s1 h1 h2 h, fun h fuel => ?_, ?_, ?_, ?_, ?_, ?_, ?_⟩
  · simp only [Nib2Dsk.convert_loop, hnd, if_false, h]
  · cases hst : Nib2Dsk.step s with
    | error e =>
      by_cases he : e = Nib2Dsk.Fatal.ueof
      · left
        rw [he]
      · right
        intro more
        exact Or.inr ⟨e, rfl, (step_more s h1 h2 more).2 e he hst⟩
    | ok s1 =>
      right
      intro more
      exact Or.inl ⟨s1, rfl, (step_more s h1 h2 more).1 s1 hst⟩
  · obtain ⟨input, state, byte, api, aei, dpi, dei, vol, trk, sec, ex, dsk, w⟩ := s
    intro h hi
    simp only at h hi
    subst hi
    rcases h with ⟨h | h, hb⟩ | ⟨h, hb⟩ | ⟨h, hb⟩ | h | ⟨h | h, hb⟩ | h | ⟨h, hb⟩
    · subst h
      simp only [Nib2Dsk.step, if_pos hb, Nib2Dsk.next_or_ueof, Nib2Dsk.get_byte]
    · subst h
      simp only [Nib2Dsk.step, if_pos hb, Nib2Dsk.next_or_ueof, Nib2Dsk.get_byte]
    · subst h hb
      simp [Nib2Dsk.step, Nib2Dsk.next_or_ueof, Nib2Dsk.get_byte, Nib2Dsk.addr_epilog]
    · subst h
      simp only [Nib2Dsk.step, if_pos hb, Nib2Dsk.next_or_ueof, Nib2Dsk.get_byte]
    · subst h
      simp only [Nib2Dsk.step]
      split_ifs <;> simp only [Nib2Dsk.next_or_ueof, Nib2Dsk.get_byte]
    · subst h
      simp only [Nib2Dsk.step, if_pos hb, Nib2Dsk.next_or_ueof, Nib2Dsk.get_byte]
    · subst h
      simp only [Nib2Dsk.step, if_pos hb, Nib2Dsk.next_or_ueof, Nib2Dsk.get_byte]
    · subst h
      simp only [Nib2Dsk.step]
      split_ifs <;> simp only [Nib2Dsk.next_or_ueof, Nib2Dsk.get_byte]
    · subst h
      simp only [Nib2Dsk.step, if_pos hb, Nib2Dsk.next_or_ueof, Nib2Dsk.get_byte]
  · obtain ⟨input, state, byte, api, aei, dpi, dei, vol, trk, sec, ex, dsk, w⟩ := s
    intro h hi
    simp only at h hi
    obtain ⟨h3, h6⟩ := h
    interval_cases state <;>
      rcases input with _ | ⟨b, _ | ⟨b2, r⟩⟩ <;>
      first
        | (simp only [List.length_cons] at hi; omega)
        | simp [Nib2Dsk.step, Nib2Dsk.next_or_ueof, Nib2Dsk.read_pair, Nib2Dsk.get_byte]
  · intro h hb hx hlen
    have hrf := read_field_short s.byte s.input hb hx hlen
    obtain ⟨input, state, byte, api, aei, dpi, dei, vol, trk, sec, ex, dsk, w⟩ := s
    simp only at h hrf
    subst h
    simp only [Nib2Dsk.step, Nib2Dsk.process_data, hrf]
  · intro h s1 hp hi
    obtain ⟨input, state, byte, api, aei, dpi, dei, vol, trk, sec, ex, dsk, w⟩ := s
    simp only at h
    subst h
    obtain ⟨input1, state1, byte1, api1, aei1, dpi1, dei1, vol1, trk1, sec1, ex1, dsk1, w1⟩ := s1
    simp only at hi
    subst hi
    simp only [Nib2Dsk.step, hp, Nib2Dsk.next_or_ueof, Nib2Dsk.get_byte]
  · intro s15 hs hb hi
    obtain ⟨input, state, byte, api, aei, dpi, dei, vol, trk, sec, ex, dsk, w⟩ := s15
    simp only at hs hb hi
    subst hs hi
    simp only [Nib2Dsk.step, if_pos hb, Nib2Dsk.get_byte]

theorem truncation_fatal_witness :
    (1 ≤ 5 ∧ 5 ≤ 14)
      ∧ Nib2Dsk.step { Nib2Dsk.fsm_init 0xAA [] Nib2Dsk.dsk_init with state := 5 }
          = .error .ueof
      ∧ (Spec.nib_track Spec.zero_image 254 0).take 56
          = List.replicate 48 0xFF ++ [0xD5, 0xAA, 0x96, 0xFF, 0xFE, 0xAA, 0xAA, 0xAA]
      ∧ Nib2Dsk.nib2dsk 100 ((Spec.nib_track Spec.zero_image 254 0).take 56)
          = some (.error .ueof) :=
  ⟨⟨by decide, by decide⟩,
    (truncation_fatal { Nib2Dsk.fsm_init 0xAA [] Nib2Dsk.dsk_init with state := 5 }
      (by decide) (by decide)).2.2.2.2.1 ⟨by decide, by decide⟩ (by decide),
    by decide, by decide⟩

/-! ## Data fields that are not the output of the encoder -/

theorem first_invalid (l : List Nat) (h : ∃ b ∈ l, b ∉ Nib2Dsk.table) :
    ∃ l1 x l2, l = l1 ++ x :: l2 ∧ (∀ y ∈ l1, y ∈ Nib2Dsk.table) ∧ x ∉ Nib2Dsk.table := by
  induction l with
  | nil =>
    obtain ⟨b, hb, _⟩ := h
    cases hb
  | cons a as ih =>
    by_cases ha : a ∈ Nib2Dsk.table
    · obtain ⟨b, hb, hbt⟩ := h
      rcases List.mem_cons.1 hb with hb | hb
      · rw [hb] at hbt
        exact absurd ha hbt
      · obtain ⟨l1, x, l2, e, h1, hx⟩ := ih ⟨b, hb, hbt⟩
        refine ⟨a :: l1, x, l2, by rw [e, List.cons_append], ?_, hx⟩
        intro y hy
        rcases List.mem_cons.1 hy with hy | hy
        · rw [hy]
          exact ha
        · exact h1 y hy
    · exact ⟨[], a, as, rfl, fun y hy => (by cases hy), ha⟩

/-- The denibbilize loop stores the byte `denib_value` gives for each index,
whenever the decoded track and sector are in range. -/
theorem denibbilize_value (primary_buf secondary_buf : List Nat) (track sector : Nat)
    (hs : sector < 16) (ht : track < 35) (is : List Nat) (his : ∀ i ∈ is, i < 256)
    (d : Nib2Dsk.DskBuf) :
    Nib2Dsk.denibbilize primary_buf secondary_buf track sector is d
      = .ok (is.foldl (fun d i => d.set track
          ((d.getD track []).set (Nib2Dsk.interleave.getD sector 0 * 256 + i)
            (some (Spec.denib_value primary_buf secondary_buf i)))) d) := by
  induction is generalizing d with
  | nil => simp [Nib2Dsk.denibbilize]
  | cons i is ih =>
    obtain ⟨⟨bit0, bit1⟩, hb⟩ := denib_bits_total secondary_buf i (his i (List.mem_cons_self _ _))
    have hc : sector < Nib2Dsk.SECTORS_PER_TRACK ∧ track < Nib2Dsk.TRACKS_PER_DISK := ⟨hs, ht⟩
    simp only [Nib2Dsk.denibbilize, hb, hc, and_self, if_true, List.foldl_cons,
      Nib2Dsk.BYTES_PER_SECTOR, Spec.denib_value]
    exact ih (fun k hk => his k (List.mem_cons_of_mem _ hk)) _

/-- The function `process_data` on a field of 343 bytes of the table: the
checksum is the xor of their 6-bit values, a warning is added when it is
not 0, and in both cases the 256 bytes of `denib_value` are stored at sector
`interleave[ sector ]` of track `track`. -/
theorem process_data_valid (s : Nib2Dsk.Fsm) (l rest : List Nat)
    (ht : s.track < 35) (hs : s.sector < 16) (hbuf : Spec.is_image_buffer s.dsk_buf)
    (hi : s.input = l ++ rest) (hlen : l.length = 342)
    (hvalid : ∀ x ∈ s.byte :: l, x ∈ Nib2Dsk.table) :
    ∃ secondary_buf primary_buf,
      Nib2Dsk.read_field s.byte s.input
          = .ok (secondary_buf, primary_buf, Spec.xor_untr (s.byte :: l), rest)
        ∧ Nib2Dsk.process_data s
          = .ok { s with
              input := rest
              warnings :=
                if Spec.xor_untr (s.byte :: l) ≠ 0 then
                  s.warnings ++ [Nib2Dsk.Warning.data_checksum_mismatch]
                else s.warnings
              dsk_buf := s.dsk_buf.set s.track
                (memcpy (s.dsk_buf.getD s.track []) (Nib2Dsk.interleave.getD s.sector 0 * 256)
                  ((List.range 256).map (Spec.denib_value primary_buf secondary_buf))) } := by
  have hc := chain_result_valid (s.byte :: l) hvalid 0 (by decide)
  rw [Nat.zero_xor] at hc
  obtain ⟨sb, pb, hrf⟩ := (read_field_chain s.byte l rest hlen).2 _ hc
  rw [← hi] at hrf
  refine ⟨sb, pb, hrf, ?_⟩
  have hl := is_image_buffer_getD s.dsk_buf hbuf s.track ht
  have hil := interleave_lt s.sector hs
  unfold Nib2Dsk.process_data
  rw [hrf]
  simp only [Nib2Dsk.PRIMARY_BUF_LEN]
  rw [denibbilize_value pb sb s.track s.sector hs ht (List.range 256)
    (fun i hi => by simpa using hi) s.dsk_buf]
  simp only
  rw [foldl_set_track s.dsk_buf s.track (by rw [hbuf.1]; exact ht)
    (fun i => Nib2Dsk.interleave.getD s.sector 0 * 256 + i)
    (fun i => some (Spec.denib_value pb sb i)),
    foldl_set_range (Spec.denib_value pb sb) _ 256 _ (by rw [hl]; omega)]

/-- The pass of state 12: `process_data`, then the fetch of the next byte. -/
theorem step_process_data (s : Nib2Dsk.Fsm) (hs : s.state = 12) :
    Nib2Dsk.step s = (match Nib2Dsk.process_data s with
      | .error e => .error e
      | .ok s => Nib2Dsk.next_or_ueof { s with state := s.state + 1 }) := by
  obtain ⟨input, state, byte, api, aei, dpi, dei, vol, trk, sec, ex, dsk, w⟩ := s
  simp only at hs
  subst hs
  rfl

/-- C15: a byte outside the table in a data field is fatal.  When the FSM is
in state 12 (ProcessData), at least 343 bytes are there for the field (the
current byte and 342 unread ones) and one of them is not an entry of the
table, the pass ends in the fatal error "Non-translatable byte" for the
first such byte `x`: the error arises in the reading loops of
`process_data` (`read_field`), before the loop that stores into the image
buffer is entered, and it ends the program, so that nothing is stored for
the sector and no DSK file is written. -/
theorem invalid_byte_fatal (s : Nib2Dsk.Fsm) (hs : s.state = 12)
    (hlen : 342 ≤ s.input.length)
    (hbad : ∃ b ∈ s.byte :: s.input.take 342, b ∉ Nib2Dsk.table) :
    ∃ l1 x l2, s.byte :: s.input.take 342 = l1 ++ x :: l2
      ∧ (∀ y ∈ l1, y ∈ Nib2Dsk.table) ∧ x ∉ Nib2Dsk.table
      ∧ Nib2Dsk.read_field s.byte s.input = .error (.non_translatable x)
      ∧ Nib2Dsk.process_data s = .error (.non_translatable x)
      ∧ Nib2Dsk.step s = .error (.non_translatable x)
      ∧ (∀ fuel, Nib2Dsk.convert_loop (fuel + 1) s = .fatal (.non_translatable x)) := by
  obtain ⟨l1, x, l2, e, h1, hx⟩ := first_invalid _ hbad
  have hc : Spec.chain_result 0 (s.byte :: s.input.take 342) = .error (.non_translatable x) := by
    rw [e]
    exact chain_result_invalid l1 l2 x h1 hx 0
  have hrf : Nib2Dsk.read_field s.byte s.input = .error (.non_translatable x) := by
    have h := (read_field_chain s.byte (s.input.take 342) (s.input.drop 342)
      (by rw [List.length_take]; omega)).1 _ hc
    rw [List.take_append_drop] at h
    exact h
  have hpd : Nib2Dsk.process_data s = .error (.non_translatable x) := by
    unfold Nib2Dsk.process_data
    rw [hrf]
  have hst : Nib2Dsk.step s = .error (.non_translatable x) := by
    rw [step_process_data s hs, hpd]
  refine ⟨l1, x, l2, e, h1, hx, hrf, hpd, hst, fun fuel => ?_⟩
  have hnd : s.state ≠ Nib2Dsk.STATE_DONE := by
    rw [hs]
    decide
  simp only [Nib2Dsk.convert_loop, hnd, if_false, hst]

theorem invalid_byte_fatal_witness :
    ∃ l1 x l2, (0x96 : Nat) :: (List.replicate 342 0x00).take 342 = l1 ++ x :: l2
      ∧ (∀ y ∈ l1, y ∈ Nib2Dsk.table) ∧ x ∉ Nib2Dsk.table
      ∧ Nib2Dsk.read_field 0x96 (List.replicate 342 0x00) = .error (.non_translatable x)
      ∧ Nib2Dsk.process_data
          { Nib2Dsk.fsm_init 0x96 (List.replicate 342 0x00) Nib2Dsk.dsk_init with state := 12 }
          = .error (.non_translatable x)
      ∧ Nib2Dsk.step
          { Nib2Dsk.fsm_init 0x96 (List.replicate 342 0x00) Nib2Dsk.dsk_init with state := 12 }
          = .error (.non_translatable x)
      ∧ (∀ fuel, Nib2Dsk.convert_loop (fuel + 1)
          { Nib2Dsk.fsm_init 0x96 (List.replicate 342 0x00) Nib2Dsk.dsk_init with state := 12 }
          = .fatal (.non_translatable x)) :=
  invalid_byte_fatal
    { Nib2Dsk.fsm_init 0x96 (List.replicate 342 0x00) Nib2Dsk.dsk_init with state := 12 }
    rfl (by simp [Nib2Dsk.fsm_init])
    ⟨0, by simp [Nib2Dsk.fsm_init], by decide⟩

/-- C16: a data checksum mismatch is not fatal.  For a data field of 343
bytes of the table (the current byte and the 342 bytes `field_tail`) whose
running xor is not 0, and a decoded track below 35 and sector below 16:
`process_data` reads the whole field, the checksum it ends with being that
xor; it does not end in a fatal error; it adds the warning "data checksum
mismatch"; and it stores the 256 denibbilized bytes of the field into the
image buffer at byte offset `256 * interleave[ sector ]` of track
`track`. -/
theorem checksum_mismatch_not_fatal (s : Nib2Dsk.Fsm) (field_tail rest : List Nat)
    (ht : s.track < 35) (hs : s.sector < 16) (hbuf : Spec.is_image_buffer s.dsk_buf)
    (hi : s.input = field_tail ++ rest) (hlen : field_tail.length = 342)
    (hvalid : ∀ x ∈ s.byte :: field_tail, x ∈ Nib2Dsk.table)
    (hxor : Spec.xor_untr (s.byte :: field_tail) ≠ 0) :
    ∃ secondary_buf primary_buf checksum,
      Nib2Dsk.read_field s.byte s.input = .ok (secondary_buf, primary_buf, checksum, rest)
        ∧ checksum = Spec.xor_untr (s.byte :: field_tail) ∧ checksum ≠ 0
        ∧ Nib2Dsk.process_data s
          = .ok { s with
              input := rest
              warnings := s.warnings ++ [Nib2Dsk.Warning.data_checksum_mismatch]
              dsk_buf := s.dsk_buf.set s.track
                (memcpy (s.dsk_buf.getD s.track []) (Nib2Dsk.interleave.getD s.sector 0 * 256)
                  ((List.range 256).map (Spec.denib_value primary_buf secondary_buf))) } := by
  obtain ⟨sb, pb, hrf, hpd⟩ := process_data_valid s field_tail rest ht hs hbuf hi hlen hvalid
  refine ⟨sb, pb, _, hrf, rfl, hxor, ?_⟩
  rw [hpd, if_pos hxor]

theorem checksum_mismatch_not_fatal_witness :
    ∃ secondary_buf primary_buf checksum,
      Nib2Dsk.read_field 0x97 (List.replicate 342 0x97 ++ [0xDE])
          = .ok (secondary_buf, primary_buf, checksum, [0xDE])
        ∧ checksum = Spec.xor_untr (0x97 :: List.replicate 342 0x97) ∧ checksum ≠ 0
        ∧ Nib2Dsk.process_data
            { Nib2Dsk.fsm_init 0x97 (List.replicate 342 0x97 ++ [0xDE]) Nib2Dsk.dsk_init with
              state := 12 }
          = .ok { Nib2Dsk.fsm_init 0x97 (List.replicate 342 0x97 ++ [0xDE]) Nib2Dsk.dsk_init with
              state := 12
              input := [0xDE]
              warnings := [Nib2Dsk.Warning.data_checksum_mismatch]
              dsk_buf := Nib2Dsk.dsk_init.set 0
                (memcpy (Nib2Dsk.dsk_init.getD 0 []) (Nib2Dsk.interleave.getD 0 0 * 256)
                  ((List.range 256).map (Spec.denib_value primary_buf secondary_buf))) } :=
  checksum_mismatch_not_fatal
    { Nib2Dsk.fsm_init 0x97 (List.replicate 342 0x97 ++ [0xDE]) Nib2Dsk.dsk_init with
      state := 12 }
    (List.replicate 342 0x97) [0xDE] (by decide) (by decide) is_image_buffer_dsk_init rfl
    (List.length_replicate _ _)
    (by
      intro x hx
      have hx1 : x = 0x97 := by
        rcases List.mem_cons.1 hx with h | h
        · exact h
        · exact List.eq_of_mem_replicate h
      rw [hx1]
      decide)
    (by decide)

/-- The pass of state 12 on a data field of 343 bytes of the table whose
running xor is not 0, with a byte `b` behind the field: a warning, the
payload stored, and the machine in state 13 with `b` as its byte. -/
theorem step_data_mismatch (s : Nib2Dsk.Fsm) (field_tail : List Nat) (b : Nat)
    (rest : List Nat) (hst : s.state = 12)
    (ht : s.track < 35) (hs : s.sector < 16) (hbuf : Spec.is_image_buffer s.dsk_buf)
    (hi : s.input = field_tail ++ b :: rest) (hlen : field_tail.length = 342)
    (hvalid : ∀ x ∈ s.byte :: field_tail, x ∈ Nib2Dsk.table)
    (hxor : Spec.xor_untr (s.byte :: field_tail) ≠ 0) :
    ∃ secondary_buf primary_buf,
      Nib2Dsk.step s
        = .ok { s with
            state := 13
            byte := b
            input := rest
            warnings := s.warnings ++ [Nib2Dsk.Warning.data_checksum_mismatch]
            dsk_buf := s.dsk_buf.set s.track
              (memcpy (s.dsk_buf.getD s.track []) (Nib2Dsk.interleave.getD s.sector 0 * 256)
                ((List.range 256).map (Spec.denib_value primary_buf secondary_buf))) } := by
  obtain ⟨sb, pb, _, hpd⟩ := process_data_valid s field_tail (b :: rest) ht hs hbuf hi hlen hvalid
  refine ⟨sb, pb, ?_⟩
  rw [step_process_data s hst, hpd, if_pos hxor]
  simp only [Nib2Dsk.next_or_ueof, Nib2Dsk.get_byte, hst]

/-- The pass of state 6: the two bytes of the checksum pair are consumed,
the next byte is fetched, and the machine is in state 7 whatever the two
bytes are. -/
theorem step_read_checksum (s : Nib2Dsk.Fsm) (c2 b : Nat) (rest : List Nat) (hst : s.state = 6)
    (hi : s.input = c2 :: b :: rest) :
    Nib2Dsk.step s = .ok { s with state := 7, byte := b, input := rest } := by
  obtain ⟨input, state, byte, api, aei, dpi, dei, vol, trk, sec, ex, dsk, w⟩ := s
  simp only at hst hi
  subst hst hi
  simp [Nib2Dsk.step, Nib2Dsk.read_pair, Nib2Dsk.next_or_ueof, Nib2Dsk.get_byte]

/-- The first cell of a sector after `process_data` has stored into it. -/
theorem stored_cell (d : Nib2Dsk.DskBuf) (hd : Spec.is_image_buffer d) (t o : Nat) (ht : t < 35)
    (ho : o + 256 ≤ 4096) (f : Nat → Nat) :
    ((d.set t (memcpy (d.getD t []) o ((List.range 256).map f))).getD t [])[o]?
      = some (some (f 0)) := by
  have hl := is_image_buffer_getD d hd t ht
  have hlen : ((List.range 256).map f).length = 256 := by
    rw [List.length_map, List.length_range]
  rw [List.getD_eq_getElem?_getD, List.getElem?_set_self (by rw [hd.1]; exact ht)]
  simp only [Option.getD_some]
  rw [getElem?_memcpy _ _ _ _ (by rw [hl, hlen]; omega), hlen]
  have h1 : ¬ (o < o) := Nat.lt_irrefl _
  have h2 : o < o + 256 := by omega
  simp only [h1, h2, if_false, if_true, Nat.sub_self]
  rfl

/-- C19 as stated fails.  On the data field of 343 bytes 0x97, whose running
xor is 1, the pass of state 12 adds the warning, stores the payload, and
leaves the machine in state 13 (ScanDataEpilog1), not in state 0, cell 0
of track 0 of the image buffer now holding a byte; and with
volume 254, track 0 and sector 0 decoded, the pass of state 6 on the
checksum pair FF FF (which decodes to 0xFF, not to 254) leaves the machine
in state 7 (MatchAddrEpilog1), not in state 0. -/
theorem checksum_resync_counterexample :
    Spec.xor_untr (0x97 :: List.replicate 342 0x97) = 1
      ∧ (∃ s1, Nib2Dsk.step
            { Nib2Dsk.fsm_init 0x97 (List.replicate 342 0x97 ++ [0xDE, 0xAA, 0xEB])
                Nib2Dsk.dsk_init with state := 12 } = .ok s1
          ∧ s1.state = 13 ∧ s1.state ≠ 0 ∧ s1.byte = 0xDE ∧ s1.input = [0xAA, 0xEB]
          ∧ s1.warnings = [Nib2Dsk.Warning.data_checksum_mismatch]
          ∧ ∃ value, (s1.dsk_buf.getD 0 [])[0]? = some (some value))
      ∧ Nib2Dsk.odd_even_decode 0xFF 0xFF = 0xFF ∧ 254 ^^^ 0 ^^^ 0 ≠ 0xFF
      ∧ (∃ s1, Nib2Dsk.step
            { Nib2Dsk.fsm_init 0xFF [0xFF, 0xDE, 0xAA, 0xEB] Nib2Dsk.dsk_init with
              state := 6, volume := 254 } = .ok s1
          ∧ s1.state = 7 ∧ s1.state ≠ 0 ∧ s1.byte = 0xDE ∧ s1.input = [0xAA, 0xEB]) := by
  refine ⟨by decide, ?_, by decide, by decide, ?_⟩
  · obtain ⟨sb, pb, h⟩ := step_data_mismatch
      { Nib2Dsk.fsm_init 0x97 (List.replicate 342 0x97 ++ [0xDE, 0xAA, 0xEB])
          Nib2Dsk.dsk_init with state := 12 }
      (List.replicate 342 0x97) 0xDE [0xAA, 0xEB] rfl (by decide) (by decide)
      is_image_buffer_dsk_init rfl (List.length_replicate _ _)
      (by
        intro x hx
        have hx1 : x = 0x97 := by
          rcases List.mem_cons.1 hx with h | h
          · exact h
          · exact List.eq_of_mem_replicate h
        rw [hx1]
        decide)
      (by decide)
    refine ⟨_, h, rfl, (by simp), rfl, rfl, rfl, Spec.denib_value pb sb 0, ?_⟩
    exact stored_cell Nib2Dsk.dsk_init is_image_buffer_dsk_init 0 0 (by decide) (by decide) _
  · exact ⟨_, step_read_checksum _ 0xFF 0xDE [0xAA, 0xEB] rfl rfl, rfl, (by simp), rfl, rfl⟩

/-- C19, amended: a checksum mismatch does not resynchronize.  A data field
of 343 bytes of the table whose running xor is not 0 (decoded track below
35, sector below 16) is reported by a warning only: the pass of state 12
stores the payload and leaves the machine in state 13 (ScanDataEpilog1)
with the byte that follows the field, not in state 0.  The address-field
checksum is not compared with anything: whatever the two bytes of the
checksum pair are, the pass of state 6 leaves the machine in state 7
(MatchAddrEpilog1) with the byte that follows them. -/
theorem checksum_mismatch_no_resync :
    (∀ (s : Nib2Dsk.Fsm) (field_tail : List Nat) (b : Nat) (rest : List Nat),
        s.state = 12 → s.track < 35 → s.sector < 16 → Spec.is_image_buffer s.dsk_buf →
        s.input = field_tail ++ b :: rest → field_tail.length = 342 →
        (∀ x ∈ s.byte :: field_tail, x ∈ Nib2Dsk.table) →
        Spec.xor_untr (s.byte :: field_tail) ≠ 0 →
        ∃ secondary_buf primary_buf,
          Nib2Dsk.step s
            = .ok { s with
                state := 13
                byte := b
                input := rest
                warnings := s.warnings ++ [Nib2Dsk.Warning.data_checksum_mismatch]
                dsk_buf := s.dsk_buf.set s.track
                  (memcpy (s.dsk_buf.getD s.track [])
                    (Nib2Dsk.interleave.getD s.sector 0 * 256)
                    ((List.range 256).map (Spec.denib_value primary_buf secondary_buf))) })
      ∧ (∀ (s : Nib2Dsk.Fsm) (c1 c2 b : Nat) (rest : List Nat),
        s.state = 6 → s.byte = c1 → s.input = c2 :: b :: rest →
        Nib2Dsk.step s = .ok { s with state := 7, byte := b, input := rest }) :=
  ⟨fun s field_tail b rest hst ht hs hbuf hi hlen hvalid hxor =>
      step_data_mismatch s field_tail b rest hst ht hs hbuf hi hlen hvalid hxor,
    fun s _ c2 b rest hst _ hi => step_read_checksum s c2 b rest hst hi⟩

/-! ## Extra bytes before the data epilog -/

/-- State 13 skips and counts the bytes before the first 0xDE; the pass that
meets 0xDE prints the warning when the count is not 0 and resets it. -/
theorem run_extra (extra : List Nat) (hx : ∀ b ∈ extra, b ≠ 0xDE) (x : Nat) (rest : List Nat)
    (s : Nib2Dsk.Fsm) (hs : s.state = 13)
    (hin : s.byte :: s.input = extra ++ 0xDE :: x :: rest) (fuel : Nat) :
    Nib2Dsk.convert_loop (fuel + (extra.length + 1)) s
      = Nib2Dsk.convert_loop fuel { s with
          state := 14
          byte := x
          input := rest
          data_epilog_index := 1
          extra := 0
          warnings :=
            if s.extra + extra.length ≠ 0 then
              s.warnings ++ [Nib2Dsk.Warning.extra_bytes (s.extra + extra.length)]
            else s.warnings } := by
  induction extra generalizing s with
  | nil =>
    obtain ⟨input, state, byte, api, aei, dpi, dei, vol, trk, sec, ex, dsk, w⟩ := s
    simp only [List.nil_append, List.cons.injEq] at hs hin
    obtain ⟨hb, hi⟩ := hin
    subst hs hb hi
    by_cases hex : ex = 0
    · subst hex
      simp [Nib2Dsk.convert_loop, Nib2Dsk.step, Nib2Dsk.STATE_DONE, Nib2Dsk.get_byte,
        Nib2Dsk.data_epilog, Nib2Dsk.next_or_ueof]
    · simp [Nib2Dsk.convert_loop, Nib2Dsk.step, Nib2Dsk.STATE_DONE, Nib2Dsk.get_byte,
        Nib2Dsk.data_epilog, Nib2Dsk.next_or_ueof, hex]
  | cons b bs ih =>
    obtain ⟨input, state, byte, api, aei, dpi, dei, vol, trk, sec, ex, dsk, w⟩ := s
    simp only [List.cons_append, List.cons.injEq] at hs hin
    obtain ⟨hb, hi⟩ := hin
    subst hs hb hi
    have hb : byte ≠ 0xDE := hx byte (List.mem_cons_self _ _)
    obtain ⟨b1, tl, e⟩ : ∃ b1 tl, bs ++ 0xDE :: x :: rest = b1 :: tl := by
      cases bs with
      | nil => exact ⟨_, _, rfl⟩
      | cons c cs => exact ⟨_, _, rfl⟩
    have hstep : Nib2Dsk.step
        (⟨bs ++ 0xDE :: x :: rest, 13, byte, api, aei, dpi, dei, vol, trk, sec, ex, dsk, w⟩ :
          Nib2Dsk.Fsm)
        = .ok (⟨tl, 13, b1, api, aei, dpi, 0, vol, trk, sec, ex + 1, dsk, w⟩ : Nib2Dsk.Fsm) := by
      rw [e]
      simp [Nib2Dsk.step, Nib2Dsk.get_byte, Nib2Dsk.data_epilog, Nib2Dsk.next_or_ueof, hb]
    have ef : fuel + ((byte :: bs).length + 1) = (fuel + (bs.length + 1)) + 1 := by
      simp only [List.length_cons]
      omega
    rw [ef, loop_step _ _ _ (by simp [Nib2Dsk.STATE_DONE]) hstep,
      ih (fun c hc => hx c (List.mem_cons_of_mem _ hc)) _ rfl e.symm]
    have e1 : ex + 1 + bs.length = ex + (bs.length + 1) := by omega
    have e2 : ex + 1 + bs.length ≠ 0 := by omega
    have e3 : ex + (byte :: bs).length ≠ 0 := by
      simp only [List.length_cons]
      omega
    simp only [e2, e3, ne_eq, not_false_eq_true, if_true, List.length_cons, e1]

/-- The data field of an encoded sector, the extra bytes behind it and the
first two bytes of the data epilog. -/
theorem run_data_extra (fuel : Nat) (s : Nib2Dsk.Fsm) (src : Nat → Nat)
    (hsrc : ∀ i, src i < 256) (extra more : List Nat) (hx : ∀ b ∈ extra, b ≠ 0xDE)
    (hs : s.state = 12) (hex : s.extra = 0)
    (ht : s.track < 35) (hsec : s.sector < 16) (hd : s.track < s.dsk_buf.length)
    (hl : Nib2Dsk.interleave.getD s.sector 0 * 256 + 256 ≤ (s.dsk_buf.getD s.track []).length)
    (hb : s.byte = (Dsk2Nib.nibbilize_out src).headD 0)
    (hi : s.input = (Dsk2Nib.nibbilize_out src).tail ++ (extra ++ 0xDE :: 0xAA :: 0xEB :: more)) :
    Nib2Dsk.convert_loop (fuel + (extra.length + 3)) s
      = Nib2Dsk.convert_loop fuel { s with
          input := more, state := 15, byte := 0xEB, data_epilog_index := 2
          warnings :=
            if extra.length ≠ 0 then
              s.warnings ++ [Nib2Dsk.Warning.extra_bytes extra.length]
            else s.warnings
          dsk_buf := s.dsk_buf.set s.track
            (memcpy (s.dsk_buf.getD s.track []) (Nib2Dsk.interleave.getD s.sector 0 * 256)
              ((List.range 256).map src)) } := by
  have hp := process_data_nibbilize s src hsrc (extra ++ 0xDE :: 0xAA :: 0xEB :: more)
    ht hsec hd hl hb hi
  obtain ⟨b1, tl, e⟩ : ∃ b1 tl, extra ++ 0xDE :: 0xAA :: 0xEB :: more = b1 :: tl := by
    cases extra with
    | nil => exact ⟨_, _, rfl⟩
    | cons c cs => exact ⟨_, _, rfl⟩
  rw [e] at hp
  obtain ⟨input, state, byte, api, aei, dpi, dei, vol, trk, sec, ex, dsk, w⟩ := s
  simp only at hs hex hp
  subst hs hex
  have hstep : Nib2Dsk.step
      (⟨input, 12, byte, api, aei, dpi, dei, vol, trk, sec, 0, dsk, w⟩ : Nib2Dsk.Fsm)
      = .ok (⟨tl, 13, b1, api, aei, dpi, dei, vol, trk, sec, 0,
          dsk.set trk (memcpy (dsk.getD trk []) (Nib2Dsk.interleave.getD sec 0 * 256)
            ((List.range 256).map src)), w⟩ : Nib2Dsk.Fsm) := by
    simp [Nib2Dsk.step, Nib2Dsk.get_byte, Nib2Dsk.next_or_ueof, hp]
  have ef : fuel + (extra.length + 3) = ((fuel + 1) + (extra.length + 1)) + 1 := by omega
  rw [ef, loop_step _ _ _ (by simp [Nib2Dsk.STATE_DONE]) hstep,
    run_extra extra hx 0xAA (0xEB :: more) _ rfl e.symm]
  simp [Nib2Dsk.convert_loop, Nib2Dsk.step, Nib2Dsk.STATE_DONE, Nib2Dsk.get_byte,
    Nib2Dsk.data_epilog, Nib2Dsk.next_or_ueof]

/-- A sector record with extra bytes before its data epilog, followed by
`more`, byte by byte. -/
theorem record_extra_bytes (v t k : Nat) (field extra more : List Nat)
    (hf : field.length = 343) :
    Spec.record_extra v t k field extra ++ more
      = 0xFF :: (List.replicate 47 0xFF ++ 0xD5 :: (0xAA :: 0x96
          :: (((v >>> 1) &&& 0x55) ||| 0xAA) :: ((v &&& 0x55) ||| 0xAA)
          :: (((t >>> 1) &&& 0x55) ||| 0xAA) :: ((t &&& 0x55) ||| 0xAA)
          :: (((k >>> 1) &&& 0x55) ||| 0xAA) :: ((k &&& 0x55) ||| 0xAA)
          :: ((((v ^^^ t ^^^ k) >>> 1) &&& 0x55) ||| 0xAA) :: (((v ^^^ t ^^^ k) &&& 0x55) ||| 0xAA)
          :: 0xDE :: 0xAA :: 0xEB :: (List.replicate 5 0xFF ++ 0xD5 :: (0xAA :: 0xAD
          :: field.headD 0
          :: (field.tail ++ (extra ++ 0xDE :: 0xAA :: 0xEB :: more)))))) := by
  obtain ⟨he, _⟩ := cons_headD_tail field 342 hf
  have h48 : List.replicate 48 0xFF = 0xFF :: List.replicate 47 0xFF := rfl
  unfold Spec.record_extra Spec.odd_even
  rw [h48]
  conv => lhs; rw [he]
  simp only [List.append_assoc, List.cons_append, List.nil_append]

/-- The synchronizer on one sector record of the encoder with extra bytes
before its data epilog, from the first gap byte to the last byte of the
data epilog. -/
theorem run_record_extra (src : Nat → Nat) (hsrc : ∀ i, src i < 256)
    (v t k : Nat) (ht : t < 35) (hk : k < 16) (extra : List Nat) (hx : ∀ b ∈ extra, b ≠ 0xDE)
    (s : Nib2Dsk.Fsm) (more : List Nat)
    (hs : s.state = 0) (hex : s.extra = 0) (hbuf : Spec.is_image_buffer s.dsk_buf)
    (hin : s.byte :: s.input
      = Spec.record_extra v t k (Dsk2Nib.nibbilize_out src) extra ++ more) :
    ∃ s15, (∀ fuel, Nib2Dsk.convert_loop (fuel + (69 + extra.length)) s
          = Nib2Dsk.convert_loop fuel s15)
      ∧ s15.state = 15 ∧ s15.byte = 0xEB ∧ s15.data_epilog_index = 2 ∧ s15.input = more
      ∧ s15.extra = 0
      ∧ s15.warnings
          = (if extra.length ≠ 0 then
              s.warnings ++ [Nib2Dsk.Warning.extra_bytes extra.length]
            else s.warnings)
      ∧ s15.dsk_buf = s.dsk_buf.set t
          (memcpy (s.dsk_buf.getD t []) (Nib2Dsk.interleave.getD k 0 * 256)
            ((List.range 256).map src)) := by
  rw [record_extra_bytes _ _ _ _ _ _ (nibbilize_out_length src)] at hin
  injection hin with hb hi
  obtain ⟨input, state, byte, api, aei, dpi, dei, vol, trk, sec, ex, dsk, w⟩ := s
  simp only at hs hex hb hi hbuf
  subst hs hex hb hi
  have htd : Nib2Dsk.odd_even_decode (((t >>> 1) &&& 0x55) ||| 0xAA) ((t &&& 0x55) ||| 0xAA) = t :=
    odd_even_decode_pair t (by omega)
  have hkd : Nib2Dsk.odd_even_decode (((k >>> 1) &&& 0x55) ||| 0xAA) ((k &&& 0x55) ||| 0xAA) = k :=
    odd_even_decode_pair k (by omega)
  have hl := is_image_buffer_getD dsk hbuf t ht
  have hil := interleave_lt k hk
  refine ⟨
    (⟨more, 15, 0xEB, 3, 1, 3, 2,
      Nib2Dsk.odd_even_decode (((v >>> 1) &&& 0x55) ||| 0xAA) ((v &&& 0x55) ||| 0xAA),
      t, k, 0,
      dsk.set t (memcpy (dsk.getD t []) (Nib2Dsk.interleave.getD k 0 * 256)
        ((List.range 256).map src)),
      if extra.length ≠ 0 then w ++ [Nib2Dsk.Warning.extra_bytes extra.length] else w⟩ :
      Nib2Dsk.Fsm),
    fun fuel => ?_, rfl, rfl, rfl, rfl, rfl, rfl, rfl⟩
  have e : fuel + (69 + extra.length)
      = ((((fuel + (extra.length + 3)) + 3) + (5 + 1)) + 9) + (47 + 1) := by omega
  rw [e, run_gap0 47 _ _ _ _ rfl rfl rfl]
  rw [run_header _ _ rfl rfl _ _ _ _ _ _ _ _ _ _ rfl]
  rw [run_gap9 5 _ _ _ _ rfl (by simp) rfl]
  rw [run_data_prolog _ _ rfl rfl _ _ rfl]
  rw [run_data_extra _ _ src hsrc extra more hx rfl rfl
    (by simp only [htd]; exact ht) (by simp only [hkd]; exact hk)
    (by simp only [htd]; rw [hbuf.1]; exact ht)
    (by simp only [htd, hkd, hl]; omega) rfl rfl]
  simp only [htd, hkd]

/-- C13: extra bytes before the data epilog are tolerated and counted.  For
every 256-byte payload, volume, track below 35 and sector number below 16,
and every list `extra` of bytes other than 0xDE (fewer than 2^31, the range
of the counter), take the sector record of the encoder with `extra` put
between the 343 bytes of its data field and its data epilog.  On that
stream `convert_image` ends in `STATE_DONE` without a fatal error, after
one pass more for each extra byte; the payload is stored at sector
`interleave[ k ]` of track `t`, as without extra bytes; and the warnings
printed are exactly one, "N extra bytes before data epilog" with N the
number of extra bytes, when there is at least one extra byte, and none
when there is none. -/
theorem extra_bytes_tolerated (payload : List Nat) (hp : Spec.is_payload payload)
    (v t k : Nat) (ht : t < 35) (hk : k < 16) (extra : List Nat)
    (hx : ∀ b ∈ extra, b ≠ 0xDE) (_hN : extra.length < 2 ^ 31) :
    Spec.record_extra v t k (Dsk2Nib.nibbilize_out (fun i => payload.getD i 0)) []
        = Spec.record v t k (Dsk2Nib.nibbilize_out (fun i => payload.getD i 0))
      ∧ ∃ s1,
        (∀ fuel, 70 + extra.length ≤ fuel →
          Nib2Dsk.convert_image fuel
              (Spec.record_extra v t k (Dsk2Nib.nibbilize_out (fun i => payload.getD i 0)) extra)
              Nib2Dsk.dsk_init
            = .done s1)
        ∧ s1.dsk_buf = Nib2Dsk.dsk_init.set t
            (memcpy (Nib2Dsk.dsk_init.getD t []) (Nib2Dsk.interleave.getD k 0 * 256) payload)
        ∧ s1.warnings
            = (if extra.length = 0 then []
              else [Nib2Dsk.Warning.extra_bytes extra.length]) := by
  constructor
  · unfold Spec.record_extra Spec.record
    rw [List.append_nil]
  · have hsrc : ∀ i, (fun i => payload.getD i 0) i < 256 :=
      fun i => payload_getD_lt payload hp.2 i
    have hbytes := record_extra_bytes v t k
      (Dsk2Nib.nibbilize_out (fun i => payload.getD i 0)) extra []
      (nibbilize_out_length _)
    rw [List.append_nil] at hbytes
    obtain ⟨tl, htl⟩ : ∃ tl, Spec.record_extra v t k
        (Dsk2Nib.nibbilize_out (fun i => payload.getD i 0)) extra = 0xFF :: tl := ⟨_, hbytes⟩
    obtain ⟨s15, hrun, h1, h2, h3, h4, _, h6, h7⟩ := run_record_extra
      (fun i => payload.getD i 0) hsrc v t k ht hk extra hx
      (Nib2Dsk.fsm_init 0xFF tl Nib2Dsk.dsk_init) [] rfl rfl is_image_buffer_dsk_init
      (by
        rw [List.append_nil, htl]
        rfl)
    refine ⟨{ s15 with state := Nib2Dsk.STATE_DONE }, fun fuel hfuel => ?_, ?_, ?_⟩
    · have hf : fuel = ((fuel - (70 + extra.length)) + 1) + (69 + extra.length) := by omega
      unfold Nib2Dsk.convert_image
      rw [htl]
      simp only [Nib2Dsk.get_byte]
      rw [hf, hrun, run_epilog_end _ s15 h1 h2 h3 h4]
    · show s15.dsk_buf = _
      rw [h7, map_getD_range payload 256 hp.1]
      rfl
    · show s15.warnings = _
      rw [h6]
      by_cases h0 : extra.length = 0
      · simp only [h0, ne_eq, not_true_eq_false, if_false, if_true]
        rfl
      · simp only [h0, ne_eq, not_false_eq_true, if_true, if_false]
        rfl

theorem extra_bytes_tolerated_witness :
    Spec.is_payload (List.replicate 256 0) ∧ 17 < 35 ∧ 3 < 16
      ∧ (∀ b ∈ List.replicate 10 0xFF, b ≠ 0xDE) ∧ (List.replicate 10 0xFF).length < 2 ^ 31
      ∧ ∃ s1,
        (∀ fuel, 70 + (List.replicate 10 0xFF).length ≤ fuel →
          Nib2Dsk.convert_image fuel
              (Spec.record_extra 254 17 3
                (Dsk2Nib.nibbilize_out (fun i => (List.replicate 256 0).getD i 0))
                (List.replicate 10 0xFF))
              Nib2Dsk.dsk_init
            = .done s1)
        ∧ s1.dsk_buf = Nib2Dsk.dsk_init.set 17
            (memcpy (Nib2Dsk.dsk_init.getD 17 []) (Nib2Dsk.interleave.getD 3 0 * 256)
              (List.replicate 256 0))
        ∧ s1.warnings
            = (if (List.replicate 10 0xFF).length = 0 then []
              else [Nib2Dsk.Warning.extra_bytes (List.replicate 10 0xFF).length])
        ∧ (List.replicate 10 0xFF).length = 10 :=
  have hp : Spec.is_payload (List.replicate 256 0) := by decide
  have hx : ∀ b ∈ List.replicate 10 0xFF, b ≠ 0xDE := by decide
  have hN : (List.replicate 10 0xFF).length < 2 ^ 31 := by decide
  have h := (extra_bytes_tolerated (List.replicate 256 0) hp 254 17 3 (by decide) (by decide)
    (List.replicate 10 0xFF) hx hN).2
  ⟨hp, by decide, by decide, hx, hN,
    h.elim (fun s1 hs1 => ⟨s1, hs1.1, hs1.2.1, hs1.2.2, by decide⟩)⟩

/-! ## The bytes of the address field that are only printed -/

theorem step_undefined (s : Nib2Dsk.Fsm) (h : 16 ≤ s.state) :
    Nib2Dsk.step s = .error .undefined_state := by
  obtain ⟨input, state, byte, api, aei, dpi, dei, vol, trk, sec, ex, dsk, w⟩ := s
  simp only at h
  obtain ⟨n, rfl⟩ : ∃ n, state = n + 16 := ⟨state - 16, by omega⟩
  rfl

/-- The function `process_data` does not read the variable `volume`. -/
theorem process_data_volume (s : Nib2Dsk.Fsm) (v : Nat) :
    Nib2Dsk.process_data { s with volume := v }
      = match Nib2Dsk.process_data s with
        | .error e => .error e
        | .ok s1 => .ok { s1 with volume := v } := by
  unfold Nib2Dsk.process_data
  simp only
  cases h1 : Nib2Dsk.read_field s.byte s.input with
  | error e1 => rfl
  | ok r =>
    obtain ⟨sb, pb, c, rest⟩ := r
    simp only
    cases h2 : Nib2Dsk.denibbilize pb sb s.track s.sector (List.range Nib2Dsk.PRIMARY_BUF_LEN)
        s.dsk_buf with
    | error e2 => rfl
    | ok d => rfl

/-- A pass of the FSM does not read the variable `volume`: it stores into it
in state 3 and leaves it alone in every other state. -/
theorem step_volume (s : Nib2Dsk.Fsm) (v : Nat) :
    Nib2Dsk.step { s with volume := v }
      = match Nib2Dsk.step s with
        | .error e => .error e
        | .ok s1 => .ok { s1 with volume := if s.state = 3 then s1.volume else v } := by
  by_cases h12 : s.state = 12
  · rw [step_process_data { s with volume := v } h12, step_process_data s h12,
      process_data_volume]
    cases hp : Nib2Dsk.process_data s with
    | error e => rfl
    | ok s1 =>
      simp only [Nib2Dsk.next_or_ueof, h12]
      cases s1.input with
      | nil => rfl
      | cons b r => rfl
  · rcases Nat.lt_or_ge s.state 16 with h | h
    · obtain ⟨input, state, byte, api, aei, dpi, dei, vol, trk, sec, ex, dsk, w⟩ := s
      simp only at h12 h
      interval_cases state
      all_goals first
        | exact absurd rfl h12
        | (rcases input with _ | ⟨b, _ | ⟨b2, r⟩⟩ <;>
            simp only [Nib2Dsk.step, Nib2Dsk.next_or_ueof, Nib2Dsk.read_pair,
              Nib2Dsk.get_byte] <;>
            (try split_ifs) <;> first | rfl | contradiction)
    · rw [step_undefined s h, step_undefined { s with volume := v } h]

/-- The outcome of the FSM loop does not depend on the value of `volume` it
starts with, the value of `volume` it ends with apart. -/
theorem loop_volume (fuel : Nat) (s : Nib2Dsk.Fsm) (v : Nat) :
    Spec.forget_volume (Nib2Dsk.convert_loop fuel { s with volume := v })
      = Spec.forget_volume (Nib2Dsk.convert_loop fuel s) := by
  induction fuel generalizing s v with
  | zero =>
    by_cases hd : s.state = Nib2Dsk.STATE_DONE
    · simp only [Nib2Dsk.convert_loop, hd, if_true, Spec.forget_volume]
    · simp only [Nib2Dsk.convert_loop, hd, if_false]
  | succ n ih =>
    by_cases hd : s.state = Nib2Dsk.STATE_DONE
    · simp only [Nib2Dsk.convert_loop, hd, if_true, Spec.forget_volume]
    · simp only [Nib2Dsk.convert_loop, hd, if_false, step_volume]
      cases hst : Nib2Dsk.step s with
      | error e => rfl
      | ok s1 => exact ih s1 _

/-- The outcome of the FSM loop from state 6 does not depend on the two
bytes of the checksum pair. -/
theorem loop_read_checksum (fuel : Nat) (s : Nib2Dsk.Fsm) (c1 c2 d1 d2 : Nat) (rest : List Nat)
    (hs : s.state = 6) :
    Nib2Dsk.convert_loop fuel { s with byte := c1, input := c2 :: rest }
      = Nib2Dsk.convert_loop fuel { s with byte := d1, input := d2 :: rest } := by
  obtain ⟨input, state, byte, api, aei, dpi, dei, vol, trk, sec, ex, dsk, w⟩ := s
  simp only at hs
  subst hs
  cases fuel with
  | zero => simp [Nib2Dsk.convert_loop, Nib2Dsk.STATE_DONE]
  | succ n =>
    cases rest with
    | nil =>
      simp [Nib2Dsk.convert_loop, Nib2Dsk.STATE_DONE, Nib2Dsk.step, Nib2Dsk.read_pair,
        Nib2Dsk.next_or_ueof, Nib2Dsk.get_byte]
    | cons b r =>
      simp [Nib2Dsk.convert_loop, Nib2Dsk.STATE_DONE, Nib2Dsk.step, Nib2Dsk.read_pair,
        Nib2Dsk.next_or_ueof, Nib2Dsk.get_byte]

/-- The outcome of the FSM loop from state 3 depends on the two bytes of the
volume pair only in the value of `volume` it ends with. -/
theorem loop_read_volume (fuel : Nat) (s : Nib2Dsk.Fsm) (c1 c2 d1 d2 : Nat) (rest : List Nat)
    (hs : s.state = 3) :
    Spec.forget_volume (Nib2Dsk.convert_loop fuel { s with byte := c1, input := c2 :: rest })
      = Spec.forget_volume
          (Nib2Dsk.convert_loop fuel { s with byte := d1, input := d2 :: rest }) := by
  obtain ⟨input, state, byte, api, aei, dpi, dei, vol, trk, sec, ex, dsk, w⟩ := s
  simp only at hs
  subst hs
  cases fuel with
  | zero => simp [Nib2Dsk.convert_loop, Nib2Dsk.STATE_DONE]
  | succ n =>
    cases rest with
    | nil =>
      simp [Nib2Dsk.convert_loop, Nib2Dsk.STATE_DONE, Nib2Dsk.step, Nib2Dsk.read_pair,
        Nib2Dsk.next_or_ueof, Nib2Dsk.get_byte]
    | cons b r =>
      have h1 := loop_volume n
        (⟨r, 4, b, api, aei, dpi, dei, vol, trk, sec, ex, dsk, w⟩ : Nib2Dsk.Fsm)
        (Nib2Dsk.odd_even_decode c1 c2)
      have h2 := loop_volume n
        (⟨r, 4, b, api, aei, dpi, dei, vol, trk, sec, ex, dsk, w⟩ : Nib2Dsk.Fsm)
        (Nib2Dsk.odd_even_decode d1 d2)
      simp only at h1 h2
      simp [Nib2Dsk.convert_loop, Nib2Dsk.STATE_DONE, Nib2Dsk.step, Nib2Dsk.read_pair,
        Nib2Dsk.next_or_ueof, Nib2Dsk.get_byte, h1, h2]

/-- A sector record with arbitrary volume and checksum bytes, followed by
`more`, byte by byte. -/
theorem record_with_bytes (vol csum : Nat × Nat) (t k : Nat) (field more : List Nat)
    (hf : field.length = 343) :
    Spec.record_with vol t k csum field ++ more
      = 0xFF :: (List.replicate 47 0xFF ++ 0xD5 :: (0xAA :: 0x96
          :: vol.1 :: vol.2
          :: (((t >>> 1) &&& 0x55) ||| 0xAA) :: ((t &&& 0x55) ||| 0xAA)
          :: (((k >>> 1) &&& 0x55) ||| 0xAA) :: ((k &&& 0x55) ||| 0xAA)
          :: csum.1 :: csum.2
          :: 0xDE :: 0xAA :: 0xEB :: (List.replicate 5 0xFF ++ 0xD5 :: (0xAA :: 0xAD
          :: field.headD 0
          :: (field.tail ++ 0xDE :: 0xAA :: 0xEB :: more))))) := by
  obtain ⟨he, _⟩ := cons_headD_tail field 342 hf
  have h48 : List.replicate 48 0xFF = 0xFF :: List.replicate 47 0xFF := rfl
  unfold Spec.record_with Spec.odd_even
  rw [h48]
  conv => lhs; rw [he]
  simp only [List.append_assoc, List.cons_append, List.nil_append]

/-- The synchronizer on one sector record with arbitrary volume and checksum
bytes: 69 passes, no warning, and the payload stored into the image. -/
theorem run_record_with (dsk_buf : Dsk2Nib.DskBuf)
    (hdsk : ∀ t s i, Dsk2Nib.dsk_get dsk_buf t s i < 256)
    (a : Nat → Nat → (Nat × Nat) × (Nat × Nat))
    (t k : Nat) (ht : t < 35) (hk : k < 16) (s : Nib2Dsk.Fsm) (more : List Nat)
    (hs : s.state = 0) (hex : s.extra = 0) (hbuf : Spec.is_image_buffer s.dsk_buf)
    (hin : s.byte :: s.input = Spec.sector_record_with a dsk_buf (t, k) ++ more) :
    ∃ s15, (∀ fuel, Nib2Dsk.convert_loop (fuel + 69) s = Nib2Dsk.convert_loop fuel s15)
      ∧ s15.state = 15 ∧ s15.byte = 0xEB ∧ s15.data_epilog_index = 2 ∧ s15.input = more
      ∧ s15.extra = 0 ∧ s15.warnings = s.warnings
      ∧ s15.dsk_buf = Spec.image_update dsk_buf s.dsk_buf (t, k) := by
  unfold Spec.sector_record_with at hin
  rw [record_with_bytes _ _ _ _ _ _ (nibbilize_out_length _)] at hin
  injection hin with hb hi
  obtain ⟨input, state, byte, api, aei, dpi, dei, vol, trk, sec, ex, dsk, w⟩ := s
  simp only at hs hex hb hi hbuf
  subst hs hex hb hi
  have htd : Nib2Dsk.odd_even_decode (((t >>> 1) &&& 0x55) ||| 0xAA) ((t &&& 0x55) ||| 0xAA) = t :=
    odd_even_decode_pair t (by omega)
  have hkd : Nib2Dsk.odd_even_decode (((k >>> 1) &&& 0x55) ||| 0xAA) ((k &&& 0x55) ||| 0xAA) = k :=
    odd_even_decode_pair k (by omega)
  have hl := is_image_buffer_getD dsk hbuf t ht
  have hil := interleave_lt k hk
  refine ⟨
    (⟨more, 15, 0xEB, 3, 1, 3, 2, Nib2Dsk.odd_even_decode (a t k).1.1 (a t k).1.2, t, k, 0,
      Spec.image_update dsk_buf dsk (t, k), w⟩ : Nib2Dsk.Fsm),
    fun fuel => ?_, rfl, rfl, rfl, rfl, rfl, rfl, rfl⟩
  have e : fuel + 69 = ((((fuel + 3) + 3) + (5 + 1)) + 9) + (47 + 1) := by omega
  rw [e, run_gap0 47 _ _ _ _ rfl rfl rfl]
  rw [run_header _ _ rfl rfl _ _ _ _ _ _ _ _ _ _ rfl]
  rw [run_gap9 5 _ _ _ _ rfl (by simp) rfl]
  rw [run_data_prolog _ _ rfl rfl _ _ rfl]
  rw [run_data _ _ (Dsk2Nib.dsk_get dsk_buf t (Dsk2Nib.soft_interleave.getD k 0))
    (hdsk _ _) more rfl rfl (by simp only [htd]; exact ht) (by simp only [hkd]; exact hk)
    (by simp only [htd]; rw [hbuf.1]; exact ht)
    (by simp only [htd, hkd, hl]; omega) rfl rfl]
  simp only [htd, hkd, Spec.image_update]

theorem sector_record_with_cons (a : Nat → Nat → (Nat × Nat) × (Nat × Nat))
    (dsk_buf : Dsk2Nib.DskBuf) (r : Nat × Nat) :
    ∃ tl, Spec.sector_record_with a dsk_buf r = 0xFF :: tl := by
  have h := record_with_bytes (a r.1 r.2).1 (a r.1 r.2).2 r.1 r.2
    (Dsk2Nib.nibbilize_out (Dsk2Nib.dsk_get dsk_buf r.1 (Dsk2Nib.soft_interleave.getD r.2 0)))
    [] (nibbilize_out_length _)
  rw [List.append_nil] at h
  exact ⟨_, h⟩

/-- The synchronizer on a sequence of sector records with arbitrary volume
and checksum bytes that ends the input. -/
theorem run_records_with (dsk_buf : Dsk2Nib.DskBuf)
    (hdsk : ∀ t s i, Dsk2Nib.dsk_get dsk_buf t s i < 256)
    (a : Nat → Nat → (Nat × Nat) × (Nat × Nat)) (rs : List (Nat × Nat))
    (hrs : ∀ r ∈ rs, r.1 < 35 ∧ r.2 < 16) (hne : rs ≠ []) (s : Nib2Dsk.Fsm)
    (hs : s.state = 0) (hex : s.extra = 0) (hbuf : Spec.is_image_buffer s.dsk_buf)
    (hin : s.byte :: s.input = (rs.map (Spec.sector_record_with a dsk_buf)).flatten) :
    ∃ s1, (∀ fuel, Nib2Dsk.convert_loop (fuel + 70 * rs.length) s = .done s1)
      ∧ s1.warnings = s.warnings
      ∧ s1.dsk_buf = rs.foldl (Spec.image_update dsk_buf) s.dsk_buf := by
  induction rs generalizing s with
  | nil => exact absurd rfl hne
  | cons r rs ih =>
    have hr := hrs r (List.mem_cons_self _ _)
    cases rs with
    | nil =>
      simp only [List.map_cons, List.map_nil, List.flatten_cons, List.flatten_nil] at hin
      obtain ⟨s15, hrun, h1, h2, h3, h4, _, h6, h7⟩ :=
        run_record_with dsk_buf hdsk a r.1 r.2 hr.1 hr.2 s [] hs hex hbuf hin
      refine ⟨{ s15 with state := Nib2Dsk.STATE_DONE }, fun fuel => ?_, h6, ?_⟩
      · have e : fuel + 70 * [r].length = (fuel + 1) + 69 := by
          simp only [List.length_cons, List.length_nil]
        rw [e, hrun, run_epilog_end fuel s15 h1 h2 h3 h4]
      · simp only [List.foldl_cons, List.foldl_nil]
        exact h7
    | cons r2 rs2 =>
      obtain ⟨tl, htl⟩ := sector_record_with_cons a dsk_buf r2
      have hin2 : s.byte :: s.input = Spec.sector_record_with a dsk_buf (r.1, r.2)
          ++ 0xFF :: (tl ++ (rs2.map (Spec.sector_record_with a dsk_buf)).flatten) := by
        rw [hin]
        simp only [List.map_cons, List.flatten_cons, htl, List.cons_append]
      obtain ⟨s15, hrun, h1, h2, h3, h4, h5, h6, h7⟩ :=
        run_record_with dsk_buf hdsk a r.1 r.2 hr.1 hr.2 s _ hs hex hbuf hin2
      obtain ⟨s1, hrun1, hw1, hd1⟩ := ih (fun x hx => hrs x (List.mem_cons_of_mem _ hx))
        (List.cons_ne_nil _ _)
        { s15 with
          input := tl ++ (rs2.map (Spec.sector_record_with a dsk_buf)).flatten
          state := 0
          byte := 0xFF }
        rfl h5
        (by
          show Spec.is_image_buffer s15.dsk_buf
          rw [h7]
          exact image_update_buffer dsk_buf s.dsk_buf (r.1, r.2) hbuf hr)
        (by simp only [List.map_cons, List.flatten_cons, htl, List.cons_append])
      refine ⟨s1, fun fuel => ?_, ?_, ?_⟩
      · have e : fuel + 70 * (r :: r2 :: rs2).length
            = ((fuel + 70 * (r2 :: rs2).length) + 1) + 69 := by
          simp only [List.length_cons]
          omega
        rw [e, hrun, run_epilog_more _ s15 h1 h2 h3 _ _ h4, hrun1]
      · rw [hw1]
        exact h6
      · rw [hd1]
        simp only [List.foldl_cons]
        rw [h7]

/-- The decoder on a NIB image whose volume and checksum bytes are
arbitrary: the DSK file the image was encoded from. -/
theorem nib2dsk_image_with (file : List Nat) (hlen : file.length = 143360)
    (hbytes : ∀ b ∈ file, b < 256) (a : Nat → Nat → (Nat × Nat) × (Nat × Nat))
    (fuel : Nat) (hfuel : 39200 ≤ fuel) :
    Nib2Dsk.nib2dsk fuel
        (Spec.nib_image_with a ((List.range 35).map (fun i => sliceAt file (i * 4096) 4096)))
      = some (.ok (file.map some)) := by
  have hdsk : ∀ t s i, Dsk2Nib.dsk_get
      ((List.range 35).map (fun i => sliceAt file (i * 4096) 4096)) t s i < 256 := by
    apply dsk_get_lt
    intro trk htrk b hb
    rw [List.mem_map] at htrk
    obtain ⟨i, _, rfl⟩ := htrk
    exact hbytes b (mem_sliceAt _ _ _ b hb)
  obtain ⟨h560, hrs⟩ := record_order_facts
  have hne : Spec.record_order ≠ [] := by
    intro h
    rw [h] at h560
    cases h560
  cases hr : Spec.record_order with
  | nil => exact absurd hr hne
  | cons r rs =>
    obtain ⟨tl, htl⟩ := sector_record_with_cons a
      ((List.range 35).map (fun i => sliceAt file (i * 4096) 4096)) r
    have hin : Spec.nib_image_with a ((List.range 35).map (fun i => sliceAt file (i * 4096) 4096))
        = 0xFF :: (tl ++ (rs.map (Spec.sector_record_with a
            ((List.range 35).map (fun i => sliceAt file (i * 4096) 4096)))).flatten) := by
      unfold Spec.nib_image_with
      rw [hr]
      simp only [List.map_cons, List.flatten_cons, htl, List.cons_append]
    obtain ⟨s1, hrun, _, hd⟩ := run_records_with
      ((List.range 35).map (fun i => sliceAt file (i * 4096) 4096)) hdsk a
      Spec.record_order hrs hne
      (Nib2Dsk.fsm_init 0xFF (tl ++ (rs.map (Spec.sector_record_with a
          ((List.range 35).map (fun i => sliceAt file (i * 4096) 4096)))).flatten)
        Nib2Dsk.dsk_init)
      rfl rfl is_image_buffer_dsk_init
      (by
        have h2 : (Spec.record_order.map (Spec.sector_record_with a
            ((List.range 35).map (fun i => sliceAt file (i * 4096) 4096)))).flatten
            = Spec.nib_image_with a
                ((List.range 35).map (fun i => sliceAt file (i * 4096) 4096)) := rfl
        rw [h2]
        exact hin.symm)
    have hf : fuel = (fuel - 39200) + 70 * Spec.record_order.length := by
      rw [h560]
      omega
    unfold Nib2Dsk.nib2dsk Nib2Dsk.convert_image
    rw [hin]
    simp only [Nib2Dsk.get_byte]
    rw [hf, hrun]
    simp only
    rw [hd]
    have hd2 : (Nib2Dsk.fsm_init 0xFF (tl ++ (rs.map (Spec.sector_record_with a
          ((List.range 35).map (fun i => sliceAt file (i * 4096) 4096)))).flatten)
        Nib2Dsk.dsk_init).dsk_buf = Nib2Dsk.dsk_init := rfl
    rw [hd2, image_update_all, dsk_write_tracks file hlen]

/-- The NIB image the encoder writes is the one whose records carry the
4-and-4 pairs of the volume and of the xor of volume, track and sector
number. -/
theorem nib_image_with_encoder (dsk_buf : Dsk2Nib.DskBuf) (v : Nat) :
    Spec.nib_image_with
        (fun t k => (Dsk2Nib.odd_even_encode v, Dsk2Nib.odd_even_encode (v ^^^ t ^^^ k))) dsk_buf
      = Spec.nib_image dsk_buf v := by
  rw [nib_image_eq]
  rfl

/-- C17: the address-field checksum is never validated, and neither are the
volume bytes.  From state 6 (ReadChecksum) the outcome of the FSM loop is
the same, for every number of passes, whatever the two bytes of the checksum
pair are: the same image buffer and warnings at `STATE_DONE`, or the same
fatal error after the same passes.  From state 3 (ReadVolume) the same holds
for the two bytes of the volume pair, the value of the variable `volume`
(which the program only prints) apart.  In particular the NIB image of a
DSK file in which the volume pair and the checksum pair of every record
are replaced by arbitrary bytes decodes to the DSK file; the image
`dsk2nib` writes is the one with the encoder's pairs. -/
theorem address_checksum_ignored :
    (∀ (s : Nib2Dsk.Fsm) (c1 c2 d1 d2 : Nat) (rest : List Nat) (fuel : Nat), s.state = 6 →
        Nib2Dsk.convert_loop fuel { s with byte := c1, input := c2 :: rest }
          = Nib2Dsk.convert_loop fuel { s with byte := d1, input := d2 :: rest })
      ∧ (∀ (s : Nib2Dsk.Fsm) (c1 c2 d1 d2 : Nat) (rest : List Nat) (fuel : Nat), s.state = 3 →
        Spec.forget_volume
            (Nib2Dsk.convert_loop fuel { s with byte := c1, input := c2 :: rest })
          = Spec.forget_volume
            (Nib2Dsk.convert_loop fuel { s with byte := d1, input := d2 :: rest }))
      ∧ (∀ (file : List Nat) (dsk_buf : Dsk2Nib.DskBuf) (volume : Nat)
          (a : Nat → Nat → (Nat × Nat) × (Nat × Nat)),
        file.length = 143360 → (∀ b ∈ file, b < 256) → Dsk2Nib.dsk_read file = .ok dsk_buf →
        Dsk2Nib.dsk2nib file volume
            = .ok ((Spec.nib_image_with (fun t k => (Dsk2Nib.odd_even_encode volume,
                Dsk2Nib.odd_even_encode (volume ^^^ t ^^^ k))) dsk_buf).map some)
          ∧ ∀ fuel, 39200 ≤ fuel →
            Nib2Dsk.nib2dsk fuel (Spec.nib_image_with a dsk_buf)
              = some (.ok (file.map some))) := by
  refine ⟨fun s c1 c2 d1 d2 rest fuel hs => loop_read_checksum fuel s c1 c2 d1 d2 rest hs,
    fun s c1 c2 d1 d2 rest fuel hs => loop_read_volume fuel s c1 c2 d1 d2 rest hs, ?_⟩
  intro file dsk_buf volume a hlen hbytes hread
  rw [dsk_read_eq file hlen] at hread
  injection hread with hread
  subst hread
  constructor
  · unfold Dsk2Nib.dsk2nib
    rw [dsk_read_eq file hlen]
    simp only
    rw [nib_write_eq, nib_image_with_encoder]
  · intro fuel hfuel
    exact nib2dsk_image_with file hlen hbytes a fuel hfuel

theorem address_checksum_ignored_witness :
    Nib2Dsk.convert_loop 3
        { ({ Nib2Dsk.fsm_init 0 [] Nib2Dsk.dsk_init with state := 6 } : Nib2Dsk.Fsm) with
          byte := 0xAA, input := 0xAA :: [0xDE, 0xAA, 0xEB] }
      = Nib2Dsk.convert_loop 3
        { ({ Nib2Dsk.fsm_init 0 [] Nib2Dsk.dsk_init with state := 6 } : Nib2Dsk.Fsm) with
          byte := 0x12, input := 0x34 :: [0xDE, 0xAA, 0xEB] }
      ∧ Nib2Dsk.nib2dsk 39200
          (Spec.nib_image_with (fun _ _ => ((0x12, 0x34), (0x56, 0x78)))
            ((List.range 35).map (fun i => sliceAt Spec.pattern_image (i * 4096) 4096)))
        = some (.ok (Spec.pattern_image.map some)) :=
  have hlen : Spec.pattern_image.length = 143360 := by
    unfold Spec.pattern_image
    rw [List.length_map, List.length_range]
  have hbytes : ∀ b ∈ Spec.pattern_image, b < 256 := by
    intro b hb
    unfold Spec.pattern_image at hb
    rw [List.mem_map] at hb
    obtain ⟨a, _, rfl⟩ := hb
    exact Nat.mod_lt _ (Nat.succ_pos _)
  ⟨address_checksum_ignored.1 { Nib2Dsk.fsm_init 0 [] Nib2Dsk.dsk_init with state := 6 }
      0xAA 0xAA 0x12 0x34 [0xDE, 0xAA, 0xEB] 3 rfl,
    (address_checksum_ignored.2.2 Spec.pattern_image _ 254
      (fun _ _ => ((0x12, 0x34), (0x56, 0x78)))
      hlen hbytes (dsk_read_eq Spec.pattern_image hlen)).2 39200 (Nat.le_refl _)⟩

/-! ## Termination of the synchronizer -/

/-- A reading loop of `process_data` that ends without a fatal error has
read `n` bytes. -/
theorem read_chain_length (n : Nat) (c : Nat) (l buf rest : List Nat) (c1 : Nat)
    (h : Nib2Dsk.read_chain n c l = .ok (buf, c1, rest)) : rest.length + n = l.length := by
  induction n generalizing c l buf with
  | zero =>
    simp only [Nib2Dsk.read_chain, Except.ok.injEq, Prod.mk.injEq] at h
    rw [h.2.2]
    rfl
  | succ n ih =>
    cases l with
    | nil =>
      simp only [Nib2Dsk.read_chain, Nib2Dsk.get_byte] at h
      cases h
    | cons x xs =>
      cases hu : Nib2Dsk.untranslate x with
      | error e0 =>
        simp only [Nib2Dsk.read_chain, Nib2Dsk.get_byte, hu] at h
        cases h
      | ok u =>
        cases hr : Nib2Dsk.read_chain n ((c ^^^ u) % 256) xs with
        | error e1 =>
          simp only [Nib2Dsk.read_chain, Nib2Dsk.get_byte, hu, hr] at h
          cases h
        | ok r =>
          obtain ⟨buf0, c0, rest0⟩ := r
          simp only [Nib2Dsk.read_chain, Nib2Dsk.get_byte, hu, hr, Except.ok.injEq,
            Prod.mk.injEq] at h
          obtain ⟨_, h2, h3⟩ := h
          subst h2 h3
          have := ih _ _ _ hr
          rw [List.length_cons]
          omega

/-- The first half of `process_data`, when it ends without a fatal error,
has read 342 bytes. -/
theorem read_field_length (byte : Nat) (l sb pb rest : List Nat) (c : Nat)
    (h : Nib2Dsk.read_field byte l = .ok (sb, pb, c, rest)) : rest.length + 342 = l.length := by
  unfold Nib2Dsk.read_field at h
  cases hu : Nib2Dsk.untranslate byte with
  | error e0 =>
    rw [hu] at h
    cases h
  | ok u =>
    rw [hu] at h
    simp only at h
    cases h1 : Nib2Dsk.read_chain (Nib2Dsk.SECONDARY_BUF_LEN - 1) u l with
    | error e1 =>
      rw [h1] at h
      cases h
    | ok r1 =>
      obtain ⟨buf1, c1, rest1⟩ := r1
      rw [h1] at h
      simp only at h
      have a1 := read_chain_length _ _ _ _ _ _ h1
      cases h2 : Nib2Dsk.read_chain Nib2Dsk.PRIMARY_BUF_LEN c1 rest1 with
      | error e2 =>
        rw [h2] at h
        cases h
      | ok r2 =>
        obtain ⟨buf2, c2, rest2⟩ := r2
        rw [h2] at h
        simp only at h
        have a2 := read_chain_length _ _ _ _ _ _ h2
        cases rest2 with
        | nil =>
          simp only [Nib2Dsk.get_byte] at h
          cases h
        | cons x xs =>
          simp only [Nib2Dsk.get_byte] at h
          cases hx : Nib2Dsk.untranslate x with
          | error e3 =>
            rw [hx] at h
            cases h
          | ok u3 =>
            rw [hx] at h
            simp only [Except.ok.injEq, Prod.mk.injEq] at h
            rw [← h.2.2.2]
            simp only [Nib2Dsk.SECONDARY_BUF_LEN, Nib2Dsk.PRIMARY_BUF_LEN, List.length_cons] at a1 a2
            omega

/-- The function `process_data`, when it ends without a fatal error, has
read 342 bytes. -/
theorem process_data_length (s s1 : Nib2Dsk.Fsm) (h : Nib2Dsk.process_data s = .ok s1) :
    s1.input.length + 342 = s.input.length := by
  unfold Nib2Dsk.process_data at h
  cases h1 : Nib2Dsk.read_field s.byte s.input with
  | error e1 =>
    rw [h1] at h
    cases h
  | ok r =>
    obtain ⟨sb, pb, c, rest⟩ := r
    rw [h1] at h
    simp only at h
    cases h2 : Nib2Dsk.denibbilize pb sb s.track s.sector (List.range Nib2Dsk.PRIMARY_BUF_LEN)
        s.dsk_buf with
    | error e2 =>
      rw [h2] at h
      cases h
    | ok d =>
      rw [h2] at h
      simp only [Except.ok.injEq] at h
      subst h
      exact read_field_length _ _ _ _ _ _ h1

/-- A pass of the FSM that does not end the program leaves the loop, or
fetches at least one byte, or goes from a matching state to a scanning
state with the input as it was. -/
theorem step_progress (s s1 : Nib2Dsk.Fsm) (h : Nib2Dsk.step s = .ok s1) :
    s1.state = Nib2Dsk.STATE_DONE ∨ s1.input.length < s.input.length
      ∨ (s1.input = s.input ∧ s1.byte = s.byte ∧ Spec.is_match_state s.state
        ∧ Spec.is_scan_state s1.state) := by
  by_cases h12 : s.state = 12
  · rw [step_process_data s h12] at h
    cases hp : Nib2Dsk.process_data s with
    | error e0 =>
      rw [hp] at h
      cases h
    | ok s2 =>
      have hl := process_data_length s s2 hp
      rw [hp] at h
      simp only [Nib2Dsk.next_or_ueof] at h
      cases hi : s2.input with
      | nil =>
        rw [hi] at h
        simp only [Nib2Dsk.get_byte] at h
        cases h
      | cons b r =>
        rw [hi] at h
        simp only [Nib2Dsk.get_byte, Except.ok.injEq] at h
        subst h
        right
        left
        rw [hi, List.length_cons] at hl
        show r.length < s.input.length
        omega
  · rcases Nat.lt_or_ge s.state 16 with h16 | h16
    · obtain ⟨input, state, byte, api, aei, dpi, dei, vol, trk, sec, ex, dsk, w⟩ := s
      simp only at h12 h16
      interval_cases state
      all_goals first
        | exact absurd rfl h12
        | (rcases input with _ | ⟨b, _ | ⟨b2, r⟩⟩ <;>
            simp only [Nib2Dsk.step, Nib2Dsk.next_or_ueof, Nib2Dsk.read_pair, Nib2Dsk.get_byte]
              at h <;>
            (try split_ifs at h) <;>
            (first
              | (injection h with h; subst h
                 first
                   | (left; rfl)
                   | (right; left; simp only [List.length_cons, List.length_nil]; omega)
                   | (right; right
                      simp only [Spec.is_match_state, Spec.is_scan_state]
                      decide))
              | cases h))
    · rw [step_undefined s h16] at h
      cases h

/-- A pass of the FSM that does not end the program leaves the loop or
lowers the bound `passes_left`. -/
theorem step_passes_left (s s1 : Nib2Dsk.Fsm) (h : Nib2Dsk.step s = .ok s1) :
    s1.state = Nib2Dsk.STATE_DONE ∨ Spec.passes_left s1 < Spec.passes_left s := by
  rcases step_progress s s1 h with hd | hl | ⟨hi, _, hm, hsc⟩
  · exact Or.inl hd
  · right
    unfold Spec.passes_left
    split <;> split <;> omega
  · right
    have hns : ¬ Spec.is_scan_state s.state := by
      unfold Spec.is_match_state at hm
      unfold Spec.is_scan_state
      omega
    unfold Spec.passes_left
    rw [if_pos hsc, if_neg hns, hi]
    omega

/-- The FSM loop ends within `passes_left` passes. -/
theorem loop_terminates (fuel : Nat) (s : Nib2Dsk.Fsm) (h : Spec.passes_left s < fuel) :
    Nib2Dsk.convert_loop fuel s ≠ .out_of_fuel := by
  induction fuel generalizing s with
  | zero => exact absurd h (Nat.not_lt_zero _)
  | succ n ih =>
    by_cases hd : s.state = Nib2Dsk.STATE_DONE
    · rw [loop_done _ s hd]
      intro hc
      cases hc
    · cases hst : Nib2Dsk.step s with
      | error e =>
        simp only [Nib2Dsk.convert_loop, hd, if_false, hst]
        intro hc
        cases hc
      | ok s1 =>
        rw [loop_step n s s1 hd hst]
        rcases step_passes_left s s1 hst with h1 | h1
        · rw [loop_done _ s1 h1]
          intro hc
          cases hc
        · exact ih s1 (by omega)

/-- Once the FSM loop has ended, more passes change nothing. -/
theorem loop_mono (fuel : Nat) (s : Nib2Dsk.Fsm) (h : Nib2Dsk.convert_loop fuel s ≠ .out_of_fuel)
    (k : Nat) : Nib2Dsk.convert_loop (fuel + k) s = Nib2Dsk.convert_loop fuel s := by
  induction fuel generalizing s with
  | zero =>
    by_cases hd : s.state = Nib2Dsk.STATE_DONE
    · rw [loop_done _ s hd, loop_done _ s hd]
    · simp only [Nib2Dsk.convert_loop, hd, if_false, ne_eq, not_true_eq_false] at h
  | succ n ih =>
    have e : n + 1 + k = (n + k) + 1 := by omega
    rw [e]
    by_cases hd : s.state = Nib2Dsk.STATE_DONE
    · rw [loop_done _ s hd, loop_done _ s hd]
    · cases hst : Nib2Dsk.step s with
      | error e0 => simp only [Nib2Dsk.convert_loop, hd, if_false, hst]
      | ok s1 =>
        rw [loop_step _ s s1 hd hst] at h
        rw [loop_step _ s s1 hd hst, loop_step _ s s1 hd hst]
        exact ih s1 h

/-- C21: the synchronizer terminates on every finite input.  For every
input stream of `n` bytes and every image buffer, `convert_image` ends in
`STATE_DONE` or in a fatal error within `2 * n` passes of the FSM loop (so
within `2 * n + 2`), and with the same outcome however many more passes are
allowed.  The reason is as the claim gives it: a pass that does not end the
program leaves the loop, or fetches at least one byte, or goes from one of
the matching states 1, 2, 7, 8, 10, 11 to one of the scanning states 0, 9
with the byte and the input as they were; and a pass of a scanning state
that does not end the program leaves the loop or fetches a byte.  (A fatal
error is a call of `fatal` or the out-of-range access of `process_data`, at
which the model stops and C leaves the behaviour undefined.) -/
theorem convert_image_terminates (input : List Nat) (dsk_buf : Nib2Dsk.DskBuf) :
    (∃ o, o ≠ Nib2Dsk.Outcome.out_of_fuel
        ∧ ∀ fuel, 2 * input.length ≤ fuel → Nib2Dsk.convert_image fuel input dsk_buf = o)
      ∧ (∀ fuel, 2 * input.length + 2 ≤ fuel →
          (∃ s, Nib2Dsk.convert_image fuel input dsk_buf = .done s)
            ∨ (∃ e, Nib2Dsk.convert_image fuel input dsk_buf = .fatal e))
      ∧ (∀ s s1 : Nib2Dsk.Fsm, Nib2Dsk.step s = .ok s1 →
          s1.state = Nib2Dsk.STATE_DONE ∨ s1.input.length < s.input.length
            ∨ (s1.input = s.input ∧ s1.byte = s.byte ∧ Spec.is_match_state s.state
              ∧ Spec.is_scan_state s1.state))
      ∧ (∀ s s1 : Nib2Dsk.Fsm, Spec.is_scan_state s.state → Nib2Dsk.step s = .ok s1 →
          s1.state = Nib2Dsk.STATE_DONE ∨ s1.input.length < s.input.length) := by
  have hmain : ∃ o, o ≠ Nib2Dsk.Outcome.out_of_fuel
      ∧ ∀ fuel, 2 * input.length ≤ fuel → Nib2Dsk.convert_image fuel input dsk_buf = o := by
    cases input with
    | nil => exact ⟨.fatal .ueof, fun hc => (by cases hc), fun _ _ => rfl⟩
    | cons b rest =>
      have hp : Spec.passes_left (Nib2Dsk.fsm_init b rest dsk_buf) < 2 * (b :: rest).length := by
        simp only [Spec.passes_left, Nib2Dsk.fsm_init, Nib2Dsk.STATE_INIT, Spec.is_scan_state,
          true_or, if_true, List.length_cons]
        omega
      have hne := loop_terminates _ _ hp
      refine ⟨_, hne, fun fuel hfuel => ?_⟩
      have hf : fuel = 2 * (b :: rest).length + (fuel - 2 * (b :: rest).length) := by omega
      unfold Nib2Dsk.convert_image
      simp only [Nib2Dsk.get_byte]
      rw [hf]
      exact loop_mono _ _ hne _
  refine ⟨hmain, fun fuel hfuel => ?_, step_progress, fun s s1 hsc hst => ?_⟩
  · obtain ⟨o, ho, hrun⟩ := hmain
    rw [hrun fuel (by omega)]
    cases o with
    | done s => exact Or.inl ⟨s, rfl⟩
    | fatal e => exact Or.inr ⟨e, rfl⟩
    | out_of_fuel => exact absurd rfl ho
  · rcases step_progress s s1 hst with hd | hl | ⟨_, _, hm, _⟩
    · exact Or.inl hd
    · exact Or.inr hl
    · unfold Spec.is_match_state at hm
      unfold Spec.is_scan_state at hsc
      omega

/-! ## Marks inside a data field, and the range of the decoder's indices -/

/-- C22: encoded data can never imitate a sync mark.  The translation table
contains neither 0xD5 nor 0xAA; so for every payload (given, as `nibbilize`
reads it, by the function from the index to the byte) none of the 343 bytes
`nibbilize` produces is 0xD5 or 0xAA; and so none of the marks D5 AA 96
(address prolog), D5 AA AD (data prolog) and DE AA EB (address and data
epilog) occurs as a run of consecutive bytes in the data field. -/
theorem data_field_has_no_mark (src : Nat → Nat) :
    (0xD5 ∉ Dsk2Nib.table ∧ 0xAA ∉ Dsk2Nib.table)
      ∧ (∀ x ∈ Dsk2Nib.nibbilize_out src, x ≠ 0xD5 ∧ x ≠ 0xAA)
      ∧ (∀ mark, (mark = Dsk2Nib.addr_prolog ∨ mark = Dsk2Nib.data_prolog
            ∨ mark = Dsk2Nib.addr_epilog ∨ mark = Dsk2Nib.data_epilog) →
          ∀ l1 l2, Dsk2Nib.nibbilize_out src ≠ l1 ++ mark ++ l2)
      ∧ (∀ (dsk_buf : Dsk2Nib.DskBuf) (ns : Dsk2Nib.nib_sector_t) (track sector : Nat),
          (Dsk2Nib.nibbilize dsk_buf ns track sector).data.data
              ++ [(Dsk2Nib.nibbilize dsk_buf ns track sector).data.data_checksum]
            = Dsk2Nib.nibbilize_out (Dsk2Nib.dsk_get dsk_buf track sector)) := by
  have h1 : 0xD5 ∉ Dsk2Nib.table := by decide
  have h2 : 0xAA ∉ Dsk2Nib.table := by decide
  have hmem : ∀ x ∈ Dsk2Nib.nibbilize_out src, x ≠ 0xD5 ∧ x ≠ 0xAA := by
    intro x hx
    obtain ⟨y, rfl⟩ := nibbilize_out_mem src x hx
    have ht := (translate_props y).1
    constructor
    · intro h
      rw [h] at ht
      exact h1 ht
    · intro h
      rw [h] at ht
      exact h2 ht
  refine ⟨⟨h1, h2⟩, hmem, ?_, fun _ _ _ _ => rfl⟩
  intro mark hmark l1 l2 he
  have haa : 0xAA ∈ mark := by
    rcases hmark with h | h | h | h <;> rw [h] <;> decide
  have hin : 0xAA ∈ Dsk2Nib.nibbilize_out src := by
    rw [he]
    exact List.mem_append_left _ (List.mem_append_right _ haa)
  exact (hmem _ hin).2 rfl

/-- The program `nib2dsk` gives the same result with more passes allowed. -/
theorem nib2dsk_mono (fuel k : Nat) (input : List Nat)
    (r : Except Nib2Dsk.Fatal (List (Option Nat)))
    (h : Nib2Dsk.nib2dsk fuel input = some r) : Nib2Dsk.nib2dsk (fuel + k) input = some r := by
  unfold Nib2Dsk.nib2dsk Nib2Dsk.convert_image at h ⊢
  cases input with
  | nil => exact h
  | cons b rest =>
    simp only [Nib2Dsk.get_byte] at h ⊢
    have hne : Nib2Dsk.convert_loop fuel (Nib2Dsk.fsm_init b rest Nib2Dsk.dsk_init)
        ≠ .out_of_fuel := by
      intro hc
      rw [hc] at h
      cases h
    rw [loop_mono _ _ hne k]
    exact h

/-- The denibbilize loop with a decoded track or sector out of range: the
first pass of the loop indexes outside `dsk_buf` or `interleave`. -/
theorem denibbilize_out_of_bounds (primary_buf secondary_buf : List Nat) (track sector : Nat)
    (i : Nat) (is : List Nat) (d : Nib2Dsk.DskBuf) (hi : i < 256)
    (h : ¬ (sector < 16 ∧ track < 35)) :
    Nib2Dsk.denibbilize primary_buf secondary_buf track sector (i :: is) d
      = .error .out_of_bounds := by
  obtain ⟨⟨bit0, bit1⟩, hb⟩ := denib_bits_total secondary_buf i hi
  have hc : ¬ (sector < Nib2Dsk.SECTORS_PER_TRACK ∧ track < Nib2Dsk.TRACKS_PER_DISK) := h
  simp only [Nib2Dsk.denibbilize, hb, hc, if_false]

/-- C23: the indices of the decoder are in range exactly under a condition
it does not check.  (1) With the decoded sector below 16 and the decoded
track below 35 the denibbilize loop of `process_data` indexes inside
`interleave` and `dsk_buf`, and every byte offset it stores at is inside the
4096 bytes of the track.  (2) With the sector not below 16 or the track not
below 35 the first pass of that loop indexes out of range; `process_data`
gets there on every data field of 343 bytes of the table, nothing having
compared the two values with a bound.  (3) The decoded values are bytes, and
the 4-and-4 pair of a track below 35 or a sector number below 16 decodes to
that number.  (4) The records `dsk2nib` writes are those of the tracks 0..34
and sector numbers 0..15, and decoding its output never ends in the
out-of-range access, however many passes are allowed. -/
theorem decoder_indexing_in_range :
    (∀ (primary_buf secondary_buf : List Nat) (track sector : Nat) (is : List Nat)
        (d : Nib2Dsk.DskBuf), sector < 16 → track < 35 → (∀ i ∈ is, i < 256) →
        ∃ d1, Nib2Dsk.denibbilize primary_buf secondary_buf track sector is d = .ok d1)
      ∧ (∀ sector i, sector < 16 → i < 256 →
        Nib2Dsk.interleave.getD sector 0 < 16
          ∧ Nib2Dsk.interleave.getD sector 0 * Nib2Dsk.BYTES_PER_SECTOR + i
            < Nib2Dsk.BYTES_PER_TRACK)
      ∧ (Nib2Dsk.interleave.length = 16 ∧ Nib2Dsk.dsk_init.length = 35
          ∧ ∀ trk ∈ Nib2Dsk.dsk_init, trk.length = Nib2Dsk.BYTES_PER_TRACK)
      ∧ (∀ (primary_buf secondary_buf : List Nat) (track sector i : Nat) (is : List Nat)
          (d : Nib2Dsk.DskBuf), i < 256 → ¬ (sector < 16 ∧ track < 35) →
        Nib2Dsk.denibbilize primary_buf secondary_buf track sector (i :: is) d
          = .error .out_of_bounds)
      ∧ (∀ (s : Nib2Dsk.Fsm) (field_tail rest : List Nat),
          s.input = field_tail ++ rest → field_tail.length = 342 →
          (∀ x ∈ s.byte :: field_tail, x ∈ Nib2Dsk.table) →
          ¬ (s.sector < 16 ∧ s.track < 35) →
        Nib2Dsk.process_data s = .error .out_of_bounds)
      ∧ (∀ b1 b2, Nib2Dsk.odd_even_decode b1 b2 < 256)
      ∧ (∀ n, n < 35 →
          Nib2Dsk.odd_even_decode (Dsk2Nib.odd_even_encode n).1 (Dsk2Nib.odd_even_encode n).2 = n)
      ∧ (∀ r ∈ Spec.record_order, r.1 < 35 ∧ r.2 < 16)
      ∧ (∀ (file : List Nat) (volume : Nat), file.length = 143360 → (∀ b ∈ file, b < 256) →
          ∃ dsk_buf nib, Dsk2Nib.dsk_read file = .ok dsk_buf
            ∧ nib = (Spec.record_order.map
                (fun r => Spec.sector_record dsk_buf volume r.1 r.2)).flatten
            ∧ Dsk2Nib.dsk2nib file volume = .ok (nib.map some)
            ∧ ∀ fuel, Nib2Dsk.nib2dsk fuel nib ≠ some (.error .out_of_bounds)) := by
  refine ⟨fun pb sb track sector is d hs ht his =>
      denibbilize_total pb sb track sector hs ht is his d,
    ?_, ⟨by decide, ?_, ?_⟩,
    fun pb sb track sector i is d hi h => denibbilize_out_of_bounds pb sb track sector i is d hi h,
    ?_, ?_, ?_, record_order_facts.2, ?_⟩
  · intro sector i hs hi
    have hil := interleave_lt sector hs
    refine ⟨hil, ?_⟩
    simp only [Nib2Dsk.BYTES_PER_SECTOR, Nib2Dsk.BYTES_PER_TRACK]
    omega
  · exact is_image_buffer_dsk_init.1
  · exact is_image_buffer_dsk_init.2
  · intro s field_tail rest hi hlen hvalid hr
    have hc := chain_result_valid (s.byte :: field_tail) hvalid 0 (by decide)
    obtain ⟨sb, pb, hrf⟩ := (read_field_chain s.byte field_tail rest hlen).2 _ hc
    rw [← hi] at hrf
    have hrange : List.range Nib2Dsk.PRIMARY_BUF_LEN = 0 :: List.range' 1 255 := by decide
    unfold Nib2Dsk.process_data
    rw [hrf]
    simp only
    rw [hrange, denibbilize_out_of_bounds pb sb s.track s.sector 0 _ s.dsk_buf (by decide) hr]
  · intro b1 b2
    unfold Nib2Dsk.odd_even_decode
    exact Nat.mod_lt _ (by decide)
  · intro n hn
    exact odd_even_decode_pair n (by omega)
  · intro file volume hlen hbytes
    refine ⟨_, _, dsk_read_eq file hlen, rfl, ?_, ?_⟩
    · unfold Dsk2Nib.dsk2nib
      rw [dsk_read_eq file hlen]
      simp only
      rw [nib_write_eq, nib_image_eq]
    · intro fuel hc
      have h1 := nib2dsk_mono fuel 39200 _ _ hc
      have h2 := nib2dsk_image_with file hlen hbytes
        (fun t k => (Dsk2Nib.odd_even_encode volume,
          Dsk2Nib.odd_even_encode (volume ^^^ t ^^^ k))) (fuel + 39200) (by omega)
      rw [nib_image_with_encoder, nib_image_eq] at h2
      rw [h2] at h1
      cases h1

theorem decoder_indexing_in_range_witness :
    Nib2Dsk.denibbilize [] [] 255 0 [0] Nib2Dsk.dsk_init = .error .out_of_bounds
      ∧ Nib2Dsk.odd_even_decode 0xFF 0xFF = 255
      ∧ Nib2Dsk.nib2dsk 100
          (Spec.record_with (0xFF, 0xFE) 255 0 (0xAA, 0xAA) (List.replicate 343 0x96))
        = some (.error .out_of_bounds)
      ∧ Nib2Dsk.nib2dsk 100
          (Spec.record_with (0xFF, 0xFE) 0 255 (0xAA, 0xAA) (List.replicate 343 0x96))
        = some (.error .out_of_bounds) :=
  ⟨decoder_indexing_in_range.2.2.2.1 [] [] 255 0 0 [] Nib2Dsk.dsk_init (by decide) (by decide),
    by decide, by decide, by decide⟩
